import Mathlib

/-! A shallow embedding of `json::parse` (`src/json.cpp`, `include/json.hpp`).

The parser of the repository is one `overload{...}` object of five lambdas that
call each other through their explicit object parameter `self`.  It is embedded
here as five functions, one per lambda, that take the value parser `self` as an
argument, and a function `parser` that ties the knot.

Conventions of the embedding.

* A `std::string_view` is a `List Char`; `remove_prefix n` is `List.drop n`,
  `front()` is the head of the list.  The parser compares code units only with
  ASCII characters, so treating a non-ASCII character as one unit instead of
  several bytes does not change any decision it takes.
* A `std::string` (string values, mapping keys, messages) is a `String`.
* `int64_t` is an `Int` that `from_chars_int64` keeps inside the signed 64-bit
  range; `size_t` is a `Nat` (a level is bounded by the length of the input, the
  counter `escaping` of the string parser, an `int`, is only used modulo 2).
* Behaviour the C++ standard leaves undefined (`front()` or `remove_prefix(1)`
  on an empty span, a failing `assert`) is the outcome `Run.undefined`.
* Recursion and loops are driven by a counter; `Run.exhausted` is the outcome
  of a run whose counter was too small.
-/

namespace json

/-! ## Data model (`include/json.hpp`) -/

/-- The type `json::parse_error`: the level and the message of a failure. -/
structure parse_error where
  level : Nat
  message : String
deriving DecidableEq, Repr

/-- The type `json::value`, a `std::variant<null, int64_t, double, std::string, list, record>`.
A `record` (`std::unordered_map<std::string, value>`) is a list of entries with
pairwise distinct keys; the order of the entries carries no meaning. -/
inductive value where
  | null : value
  | int64 (i : Int) : value
  | double (d : Float) : value
  | string (s : String) : value
  | list (l : List value) : value
  | record (r : List (String × value)) : value
deriving Repr

/-- The alias `json::list`. -/
abbrev list := List value

/-- The alias `json::record`. -/
abbrev record := List (String × value)

/-- The call `r.try_emplace(key)`: a map that holds the key is left as it is,
otherwise an entry with a default-constructed value (null) is added.  Where the
new entry stands in the list carries no meaning. -/
def record.try_emplace (r : record) (key : String) : record :=
  if r.any (fun kv => kv.1 == key) then r else r ++ [(key, value.null)]

/-- The value the iterator returned by `try_emplace` refers to, `it->second`. -/
def record.slot (r : record) (key : String) : value :=
  match r.find? (fun kv => kv.1 == key) with
  | some kv => kv.2
  | none => value.null

/-- Writing `v` through `it->second`: the entry of `key` holds `v` afterwards,
the other entries are untouched. -/
def record.assign (r : record) (key : String) (v : value) : record :=
  r.map (fun kv => if kv.1 == key then (kv.1, v) else kv)

/-- Outcome of running one of the lambdas: it returned `std::nullopt` with the
output `out` written and the cursor at `source`, it returned an error, it ran
into undefined behaviour, or the counter of the embedding ran out. -/
inductive Run (α : Type) where
  | ok (out : α) (source : List Char) : Run α
  | error (e : parse_error) : Run α
  | undefined : Run α
  | exhausted : Run α
deriving Repr

/-- Apply a constructor of `value` to the output of a successful run. -/
def Run.map {α β : Type} (f : α → β) : Run α → Run β
  | Run.ok out source => Run.ok (f out) source
  | Run.error e => Run.error e
  | Run.undefined => Run.undefined
  | Run.exhausted => Run.exhausted

/-! ## What the parser takes from the platform -/

/-- The member `ec` of `std::from_chars_result`. -/
inductive errc where
  | none : errc
  | invalid_argument : errc
  | result_out_of_range : errc
deriving DecidableEq, Repr

/-- A `std::from_chars_result` together with the output argument: `ptr` is
counted from the start of the span, `value` is what the referenced variable
holds afterwards. -/
structure from_chars_result (T : Type) where
  ptr : Nat
  ec : errc
  value : T
deriving Repr

/-- The two `scalar` types the numeric lambda is instantiated at. -/
inductive scalar_type where
  | int64_t : scalar_type
  | double : scalar_type
deriving DecidableEq, Repr

/-- What the code takes from compiler and library and the repository does not
fix: the text `util::get_name<T>()` extracts from the compiler's rendering of
the function signature, and `std::from_chars` for `double`. -/
structure Platform where
  get_name : scalar_type → String
  from_chars_double : List Char → Float → from_chars_result Float

/-- A platform for closed examples: the type names GCC prints on x86-64 Linux,
and a floating-point scanner that matches nothing. -/
def Platform.gcc : Platform where
  get_name := fun T => match T with
    | scalar_type.int64_t => "long int"
    | scalar_type.double => "double"
  from_chars_double := fun _ v => { ptr := 0, ec := errc.invalid_argument, value := v }

/-- Value of a run of decimal digits, most significant first. -/
def digits_value (ds : List Char) : Nat :=
  ds.foldl (fun acc c => 10 * acc + (c.toNat - 48)) 0

/-- The function `std::from_chars(first, last, v)` for `int64_t` in base 10, after
[charconv.from.chars]: the pattern is an optional minus sign and a non-empty
run of digits, no leading whitespace is skipped; without a match `ptr` is
`first` and `v` is unmodified; with a match `ptr` is the end of the match, and
`v` is set only if the number is representable. -/
def from_chars_int64 (source : List Char) (v : Int) : from_chars_result Int :=
  let neg : Bool := source.head? == some '-'
  let body := if neg then source.drop 1 else source
  let ds := body.takeWhile Char.isDigit
  if ds.isEmpty then
    { ptr := 0, ec := errc.invalid_argument, value := v }
  else
    let n : Int := if neg then -(digits_value ds : Int) else (digits_value ds : Int)
    let ptr := (if neg then 1 else 0) + ds.length
    if -(2 : Int) ^ 63 ≤ n ∧ n < (2 : Int) ^ 63 then
      { ptr := ptr, ec := errc.none, value := n }
    else
      { ptr := ptr, ec := errc.result_out_of_range, value := v }

/-! ## `src/json.cpp` -/

/-- The constant `whitespace = " \t\n"`. -/
def whitespace : List Char := [' ', '\t', '\n']

/-- The function `strip_leading_ws`: the loop advances `i` over the leading
characters contained in `whitespace`, then `remove_prefix(i)`. -/
def strip_leading_ws : List Char → List Char
  | [] => []
  | c :: source => if whitespace.contains c then strip_leading_ws source else c :: source

/-- The function `make_parse_error_for<T>(level)`. -/
def make_parse_error_for (P : Platform) (T : scalar_type) (level : Nat) : parse_error :=
  { level := level, message := "Failed to parse value as " ++ P.get_name T }

/-- The type of `self` at a `value&` output: cursor, current content of the
output, level. -/
abbrev self_type := List Char → value → Nat → Run value

/-- The numeric lambda (`[]<scalar T>`) at `T = int64_t`: cursor and `v` after
the call, and the returned `std::optional<parse_error>`, which is always
engaged. -/
def parse_int64 (P : Platform) (source : List Char) (v : Int) (level : Nat) :
    List Char × Int × Option parse_error :=
  let r := from_chars_int64 source v
  (source.drop r.ptr, r.value, some (make_parse_error_for P scalar_type.int64_t level))

/-- The numeric lambda at `T = double`. -/
def parse_double (P : Platform) (source : List Char) (v : Float) (level : Nat) :
    List Char × Float × Option parse_error :=
  let r := P.from_chars_double source v
  (source.drop r.ptr, r.value, some (make_parse_error_for P scalar_type.double level))

/-- The call `source.find("\"", pos)`: the first index at or after `pos` that
holds a double quote; `none` is `npos`. -/
def find_quote : List Char → Nat → Option Nat
  | [], _ => none
  | c :: source, 0 => if c = '"' then some 0 else (find_quote source 0).map (· + 1)
  | _ :: source, pos + 1 => (find_quote source pos).map (· + 1)

/-- The inner loop of the string lambda, started at `i`: it counts in
`escaping` the backslashes at `i`, `i - 1`, ... and stops at index 0. -/
def count_escaping (source : List Char) : Nat → Nat
  | 0 => 0
  | i + 1 => if source[i + 1]? = some '\\' then count_escaping source i + 1 else 0

/-- The outer loop of the string lambda, entered with the current `end`.  The
result is `end` after the loop, where the inner `none` is `npos`; the outer
`none` says that the counter, which bounds the number of iterations, ran out.
Every iteration increases `end`. -/
def string_end (source : List Char) : Nat → Nat → Option (Option Nat)
  | fuel, e =>
    if e < source.length then
      match fuel with
      | 0 => none
      | fuel + 1 =>
        match find_quote source e with
        | none => some none
        | some q =>
          if count_escaping source (q - 1) % 2 = 0 then some (some q)
          else string_end source fuel (q + 1)
    else some (some e)

/-- The string lambda.  It does not look at `source[0]`; `_s` is assigned, not read. -/
def parse_string (source : List Char) (_s : String) (level : Nat) : Run String :=
  match string_end source source.length 1 with
  | none => Run.exhausted
  | some none => Run.error { level := level, message := "Expected string to end" }
  | some (some e) =>
    if e ≥ source.length then Run.error { level := level, message := "Expected string to end" }
    else Run.ok (String.mk ((source.drop 1).take (e - 1))) (source.drop (e + 1))

/-- The code after the loop of the list lambda: `assert(source.front() == ']')`
and `remove_prefix(1)`. -/
def list_close (source : List Char) (l : list) : Run list :=
  match source with
  | [] => Run.undefined
  | c :: rest => if c = ']' then Run.ok l rest else Run.undefined

/-- The `while (not source.empty())` loop of the list lambda together with the
code after it. -/
def list_loop (self : self_type) : Nat → List Char → list → Nat → Run list
  | fuel, source, l, level =>
    if source.isEmpty then list_close source l
    else
      match fuel with
      | 0 => Run.exhausted
      | fuel + 1 =>
        match self source value.null (level + 1) with
        | Run.ok v source =>
          let l := l ++ [v]
          match strip_leading_ws source with
          | [] => Run.undefined
          | c :: rest =>
            if c = ']' then list_close (c :: rest) l
            else if c ≠ ',' then Run.error { level := level, message := "expected ',' or ']'" }
            else list_loop self fuel (strip_leading_ws rest) l level
        | Run.error e => Run.error e
        | Run.undefined => Run.undefined
        | Run.exhausted => Run.exhausted

/-- The list lambda. -/
def parse_list (self : self_type) (source : List Char) (l : list) (level : Nat) : Run list :=
  match strip_leading_ws source with
  | [] => Run.error { level := level, message := "expected list to start" }
  | c :: rest =>
    if c ≠ '[' then Run.error { level := level, message := "expected list to start" }
    else
      match strip_leading_ws rest with
      | [] => Run.error { level := level, message := "expected list to end" }
      | c :: rest =>
        if c = ']' then Run.ok l rest
        else list_loop self (c :: rest).length (c :: rest) l level

/-- The code after the loop of the record lambda: `assert(source.front() == '}')`
and `remove_prefix(1)`. -/
def record_close (source : List Char) (r : record) : Run record :=
  match source with
  | [] => Run.undefined
  | c :: rest => if c = '}' then Run.ok r rest else Run.undefined

/-- The `while (not source.empty())` loop of the record lambda together with
the code after it. -/
def record_loop (self : self_type) : Nat → List Char → record → Nat → Run record
  | fuel, source, r, level =>
    if source.isEmpty then record_close source r
    else
      match fuel with
      | 0 => Run.exhausted
      | fuel + 1 =>
        match parse_string source "" level with
        | Run.error e =>
          Run.error { level := level, message := "failed to parse key: " ++ e.message }
        | Run.undefined => Run.undefined
        | Run.exhausted => Run.exhausted
        | Run.ok key source =>
          match strip_leading_ws source with
          | [] => Run.undefined
          | c :: rest =>
            if c ≠ ':' then Run.error { level := level, message := "expected ':'" }
            else
              let r := record.try_emplace r key
              match self rest (record.slot r key) (level + 1) with
              | Run.error e => Run.error e
              | Run.undefined => Run.undefined
              | Run.exhausted => Run.exhausted
              | Run.ok v source =>
                let r := record.assign r key v
                match strip_leading_ws source with
                | [] => Run.undefined
                | c :: rest =>
                  let source := if c = ',' then strip_leading_ws rest else c :: rest
                  match source with
                  | [] => Run.undefined
                  | c :: rest =>
                    if c = '}' then record_close (c :: rest) r
                    else record_loop self fuel (c :: rest) r level

/-- The record lambda. -/
def parse_record (self : self_type) (source : List Char) (r : record) (level : Nat) :
    Run record :=
  match strip_leading_ws source with
  | [] => Run.error { level := level, message := "expected record to start" }
  | c :: rest =>
    if c ≠ '{' then Run.error { level := level, message := "expected record to start" }
    else
      match strip_leading_ws rest with
      | [] => Run.error { level := level, message := "expected record to end" }
      | c :: rest =>
        if c = '}' then Run.ok r rest
        else record_loop self (c :: rest).length (c :: rest) r level

/-- The first lambda, the dispatch on the first significant character.  Every
branch replaces the content of `out` (`out = null{}`, `out.emplace<T>()`) before
it parses into it. -/
def parse_value (P : Platform) (self : self_type) (source : List Char) (_out : value)
    (level : Nat) : Run value :=
  match strip_leading_ws source with
  | [] => Run.ok value.null []
  | c :: rest =>
    if c = '{' then (parse_record self (c :: rest) [] level).map value.record
    else if c = '[' then (parse_list self (c :: rest) [] level).map value.list
    else if c = '"' then (parse_string (c :: rest) "" level).map value.string
    else
      match parse_int64 P (c :: rest) 0 level with
      | (source, i, is_int) =>
        if is_int.isSome then Run.ok (value.int64 i) source
        else
          match parse_double P source 0.0 level with
          | (_, _, some e) => Run.error e
          | (source, d, none) => Run.ok (value.double d) source

/-- The overload object `parser` called on a `value&`: `self` inside a lambda
is the same object, with one unit less of the nesting budget. -/
def parser (P : Platform) : Nat → self_type
  | 0 => fun _ _ _ => Run.exhausted
  | fuel + 1 => parse_value P (parser P fuel)

/-- What `json::parse` returns, a `std::variant<value, parse_error>`, or how
the run ended otherwise. -/
inductive Outcome where
  | value (v : json.value) : Outcome
  | error (e : parse_error) : Outcome
  | undefined : Outcome
  | exhausted : Outcome
deriving Repr

/-- The function `json::parse`.  A nested value starts after the bracket that
opens it, so the nesting budget `source.length + 1` covers every input. -/
def parse (P : Platform) (source : List Char) : Outcome :=
  match parser P (source.length + 1) source value.null 0 with
  | Run.error e => Outcome.error e
  | Run.undefined => Outcome.undefined
  | Run.exhausted => Outcome.exhausted
  | Run.ok result source =>
    match strip_leading_ws source with
    | [] => Outcome.value result
    | _ :: _ => Outcome.error { level := 0, message := "source does not end at end of value" }

/-! ## Vocabulary of the statements -/

/-- The number a run of decimal digits denotes, most significant digit first,
through `Nat.ofDigits`. -/
def decimal_value (ds : List Char) : Nat :=
  Nat.ofDigits 10 (ds.reverse.map (fun c => c.toNat - 48))

/-- An integer literal: an optional minus sign and a run of digits. -/
def int_literal (neg : Bool) (ds : List Char) : List Char :=
  (if neg then ['-'] else []) ++ ds

/-- The integer an integer literal denotes. -/
def literal_value (neg : Bool) (ds : List Char) : Int :=
  if neg then -(decimal_value ds : Int) else (decimal_value ds : Int)

/-- The number of consecutive backslashes that stand immediately before index
`e` of the span. -/
def preceding_backslashes (source : List Char) (e : Nat) : Nat :=
  ((source.take e).reverse.takeWhile (fun c => c == '\\')).length

/-- Index `e` holds a terminator of the string that opens at index 0: it is at
least 1 and holds a double quote that an even number of consecutive
backslashes precedes. -/
abbrev is_terminator (source : List Char) (e : Nat) : Prop :=
  1 ≤ e ∧ source[e]? = some '"' ∧ preceding_backslashes source e % 2 = 0

/-- The span holds no digit at its front: it is empty or starts with another
character. -/
def no_digit_ahead (rest : List Char) : Prop :=
  ∀ c, rest.head? = some c → c.isDigit = false

/-- The decimal rendering of an integer: a minus sign for a negative number,
then the digits `Nat.toDigits` gives for its absolute value. -/
def decimal (n : Int) : List Char :=
  int_literal (decide (n < 0)) (Nat.toDigits 10 n.natAbs)

/-- The texts of `items` with `sep` between each two neighbours. -/
def join_with (sep : List Char) : List (List Char) → List Char
  | [] => []
  | [x] => x
  | x :: y :: items => x ++ sep ++ join_with sep (y :: items)

/-- The text of a list: `[`, the texts of the elements separated by a comma
and a space, `]`. -/
def list_text (items : List (List Char)) : List Char :=
  '[' :: join_with [',', ' '] items ++ [']']

/-- The text `text` is one that `self` parses at `level` to `v`, whatever
follows it, as long as no digit follows: it starts with a character that is
neither whitespace nor a closing square bracket, and `self` consumes exactly
`text`. -/
def parses_as (self : self_type) (level : Nat) (text : List Char) (v : value) : Prop :=
  (∃ c tl, text = c :: tl ∧ c ∉ whitespace ∧ c ≠ ']') ∧
    ∀ rest out, no_digit_ahead rest → self (text ++ rest) out level = Run.ok v rest

/-- One iteration of the record loop seen from the map: `try_emplace` of the
key, then the parsed value written through the iterator. -/
def record.write (r : record) (kv : String × value) : record :=
  (r.try_emplace kv.1).assign kv.1 kv.2

/-- The text of a mapping entry: the key between double quotes, a colon, a
space, the text of the value. -/
def entry_text (key vtext : List Char) : List Char :=
  '"' :: key ++ '"' :: ':' :: ' ' :: vtext

/-- The text of a mapping: an opening brace, the texts of the entries
separated by a comma and a space, a closing brace. -/
def record_text (entries : List (List Char × List Char)) : List Char :=
  '{' :: join_with [',', ' '] (entries.map (fun e => entry_text e.1 e.2)) ++ ['}']

/-- The values of the mapping texts of C8: an integer or a list of integers. -/
inductive simple_value where
  | int (n : Int) : simple_value
  | ints (ns : List Int) : simple_value

/-- Every integer of a simple value lies in the signed 64-bit range. -/
def simple_value.in_range : simple_value → Prop
  | simple_value.int n => -(2 : Int) ^ 63 ≤ n ∧ n < (2 : Int) ^ 63
  | simple_value.ints ns => ∀ n ∈ ns, -(2 : Int) ^ 63 ≤ n ∧ n < (2 : Int) ^ 63

instance simple_value.decidable_in_range (sv : simple_value) : Decidable sv.in_range := by
  cases sv <;> unfold simple_value.in_range <;> infer_instance

/-- The text of a simple value. -/
def simple_value.text : simple_value → List Char
  | simple_value.int n => decimal n
  | simple_value.ints ns => list_text (ns.map decimal)

/-- The `value` a simple value stands for. -/
def simple_value.to_value : simple_value → value
  | simple_value.int n => value.int64 n
  | simple_value.ints ns => value.list (ns.map value.int64)

/-- The entries of a mapping text as the record loop walks it, each taken on
its own: the key, and the value that the text behind the colon parses to when
it is parsed into a default-constructed value.  The map under construction
plays no part in it. -/
def record_entries (self : self_type) : Nat → List Char → Nat → List (String × value)
  | fuel, source, level =>
    if source.isEmpty then []
    else
      match fuel with
      | 0 => []
      | fuel + 1 =>
        match parse_string source "" level with
        | Run.error _ => []
        | Run.undefined => []
        | Run.exhausted => []
        | Run.ok key source =>
          match strip_leading_ws source with
          | [] => []
          | c :: rest =>
            if c ≠ ':' then []
            else
              match self rest value.null (level + 1) with
              | Run.error _ => []
              | Run.undefined => []
              | Run.exhausted => []
              | Run.ok v source =>
                match strip_leading_ws source with
                | [] => [(key, v)]
                | c :: rest =>
                  let source := if c = ',' then strip_leading_ws rest else c :: rest
                  match source with
                  | [] => [(key, v)]
                  | c :: rest =>
                    if c = '}' then [(key, v)]
                    else (key, v) :: record_entries self fuel (c :: rest) level

/-- The entries of the outermost mapping of an input, in the order of the
text, each key with the value its own text parses to; none for `{}` and for an
input that does not open with a brace. -/
def parse_entries (P : Platform) (source : List Char) : List (String × value) :=
  match strip_leading_ws source with
  | [] => []
  | c :: rest =>
    if c ≠ '{' then []
    else
      match strip_leading_ws rest with
      | [] => []
      | c :: rest =>
        if c = '}' then []
        else record_entries (parser P source.length) (c :: rest).length (c :: rest) 0

/-- The text `text` is a value text for `v`: wherever the value parser meets
it, at any level and with any budget larger than its length, and whatever
follows it as long as no digit follows, the parser consumes exactly `text` and
yields `v`. -/
def value_text (P : Platform) (text : List Char) (v : value) : Prop :=
  ∀ n level, text.length < n → parses_as (parser P n) level text v

/-- The text of an element position of a list: whitespace, then a value text
or nothing, then whitespace. -/
def position_text (p : List Char × Option (List Char × value) × List Char) : List Char :=
  p.1 ++ (match p.2.1 with
    | some tv => tv.1
    | none => []) ++ p.2.2

/-- The value an element position stands for in the code: the value of its
text, and the integer 0 for an empty position. -/
def position_value (p : List Char × Option (List Char × value) × List Char) : value :=
  match p.2.1 with
  | some tv => tv.2
  | none => value.int64 0

/-- The text of a list given by its element positions: `[`, the positions
separated by commas, `]`. -/
def positions_text (ps : List (List Char × Option (List Char × value) × List Char)) :
    List Char :=
  '[' :: join_with [','] (ps.map position_text) ++ [']']

/-- An element position is well formed: whitespace around, and if it is not
empty, a value text with its value. -/
def position_ok (P : Platform) (p : List Char × Option (List Char × value) × List Char) :
    Prop :=
  (∀ c ∈ p.1, c ∈ whitespace) ∧ (∀ c ∈ p.2.2, c ∈ whitespace) ∧
    match p.2.1 with
    | some tv => value_text P tv.1 tv.2
    | none => True

/-- The text of a separator behind a mapping entry: whitespace, a comma or
none, whitespace. -/
def separator_text (s : List Char × Bool × List Char) : List Char :=
  s.1 ++ (if s.2.1 then [','] else []) ++ s.2.2

/-- The two runs of a separator that are meant to be whitespace are
whitespace. -/
abbrev separator_ok (s : List Char × Bool × List Char) : Prop :=
  (∀ c ∈ s.1, c ∈ whitespace) ∧ (∀ c ∈ s.2.2, c ∈ whitespace)

/-- The entries of a mapping text, each `"key":n` followed by its separator. -/
def separated_body : List (List Char × Int × (List Char × Bool × List Char)) → List Char
  | [] => []
  | e :: es =>
    ('"' :: e.1 ++ '"' :: ':' :: decimal e.2.1) ++ separator_text e.2.2 ++ separated_body es

/-- The text of a mapping with integer values in which every entry, the last
one included, is followed by a separator of its own. -/
def separated_text (es : List (List Char × Int × (List Char × Bool × List Char))) : List Char :=
  '{' :: separated_body es ++ ['}']

mutual
/-- The floating-point variant occurs somewhere in the tree of the value. -/
def value.has_double : value → Bool
  | value.null => false
  | value.int64 _ => false
  | value.double _ => true
  | value.string _ => false
  | value.list l => list_has_double l
  | value.record r => record_has_double r
/-- The floating-point variant occurs in an element of the list. -/
def list_has_double : List value → Bool
  | [] => false
  | v :: l => v.has_double || list_has_double l
/-- The floating-point variant occurs in a value of the mapping. -/
def record_has_double : List (String × value) → Bool
  | [] => false
  | kv :: r => kv.2.has_double || record_has_double r
end

/-- The message begins with the text of `make_parse_error_for`, "Failed to
parse value as". -/
abbrev begins_with_failed (message : String) : Prop :=
  message.data.take 24 = "Failed to parse value as".data

/-- What C18 says of one call of `self`: a value it returns holds no
floating-point variant, and the message of an error it returns does not start
with a capital F. -/
def integer_only (self : self_type) : Prop :=
  ∀ source out level,
    (∀ v rest, self source out level = Run.ok v rest → v.has_double = false) ∧
    (∀ e, self source out level = Run.error e → e.message.data.head? ≠ some 'F')

/-- The value parser `self` is productive on spans shorter than `n`: its
counter does not run out there, and the span it leaves is no longer than the
span it was given. -/
def productive (n : Nat) (self : self_type) : Prop :=
  ∀ source out level, source.length < n →
    self source out level ≠ Run.exhausted ∧
      ∀ v rest, self source out level = Run.ok v rest → rest.length ≤ source.length

/-- Two value parsers agree on spans shorter than `n`. -/
def agree (n : Nat) (self self' : self_type) : Prop :=
  ∀ source out level, source.length < n → self source out level = self' source out level

/-- One iteration of the record loop that goes on to a further iteration: the
span and the map at the next loop head.  `none` when the iteration fails, runs
into undefined behaviour, or ends the loop at a closing brace. -/
def next_head (self : self_type) (source : List Char) (r : record) (level : Nat) :
    Option (List Char × record) :=
  match parse_string source "" level with
  | Run.error _ => none
  | Run.undefined => none
  | Run.exhausted => none
  | Run.ok key source =>
    match strip_leading_ws source with
    | [] => none
    | c :: rest =>
      if c ≠ ':' then none
      else
        let r := record.try_emplace r key
        match self rest (record.slot r key) (level + 1) with
        | Run.error _ => none
        | Run.undefined => none
        | Run.exhausted => none
        | Run.ok v source =>
          let r := record.assign r key v
          match strip_leading_ws source with
          | [] => none
          | c :: rest =>
            let source := if c = ',' then strip_leading_ws rest else c :: rest
            match source with
            | [] => none
            | c :: rest => if c = '}' then none else some (c :: rest, r)

/-- The span and the map at the head of the record loop after `k` complete
iterations, if the loop gets that far. -/
def head_after (self : self_type) (level : Nat) : Nat → List Char → record →
    Option (List Char × record)
  | 0, source, r => some (source, r)
  | k + 1, source, r =>
    match next_head self source r level with
    | some (s, r') => head_after self level k s r'
    | none => none

/-! ## Whitespace -/

theorem mem_whitespace_iff (c : Char) : c ∈ whitespace ↔ c = ' ' ∨ c = '\t' ∨ c = '\n' := by
  simp [whitespace]

theorem strip_leading_ws_cons_ws {c : Char} (h : c ∈ whitespace) (source : List Char) :
    strip_leading_ws (c :: source) = strip_leading_ws source := by
  simp [strip_leading_ws, h]

theorem strip_leading_ws_cons_other {c : Char} (h : c ∉ whitespace) (source : List Char) :
    strip_leading_ws (c :: source) = c :: source := by
  simp [strip_leading_ws, h]

theorem strip_leading_ws_append (w source : List Char) (h : ∀ c ∈ w, c ∈ whitespace) :
    strip_leading_ws (w ++ source) = strip_leading_ws source := by
  induction w with
  | nil => rfl
  | cons c w ih =>
    have hc : c ∈ whitespace := h c (List.mem_cons_self c w)
    have hw : ∀ d ∈ w, d ∈ whitespace := fun d hd => h d (List.mem_cons_of_mem c hd)
    rw [List.cons_append, strip_leading_ws_cons_ws hc, ih hw]

theorem strip_leading_ws_all (w : List Char) (h : ∀ c ∈ w, c ∈ whitespace) :
    strip_leading_ws w = [] := by
  have := strip_leading_ws_append w [] h
  simpa [strip_leading_ws] using this

theorem strip_leading_ws_eq_nil {source : List Char} (h : strip_leading_ws source = []) :
    ∀ c ∈ source, c ∈ whitespace := by
  induction source with
  | nil => simp
  | cons c source ih =>
    by_cases hc : c ∈ whitespace
    · rw [strip_leading_ws_cons_ws hc] at h
      intro d hd
      rcases List.mem_cons.mp hd with rfl | hd
      · exact hc
      · exact ih h d hd
    · rw [strip_leading_ws_cons_other hc] at h
      exact absurd h (List.cons_ne_nil c source)

/-! ## Whitespace-only input -/

/-- C10: an input that consists of spaces, tabs and newlines only, the empty
input included, parses to the null variant. -/
theorem parse_whitespace_only (P : Platform) (source : List Char)
    (h : ∀ c ∈ source, c ∈ whitespace) : parse P source = Outcome.value value.null := by
  simp [parse, parser, parse_value, strip_leading_ws_all source h, strip_leading_ws]

/-- C10 at the input of a space, a tab, a newline and a space. -/
theorem parse_whitespace_only_witness :
    (∀ c ∈ [' ', '\t', '\n', ' '], c ∈ whitespace) ∧
      parse Platform.gcc [' ', '\t', '\n', ' '] = Outcome.value value.null :=
  ⟨by decide, parse_whitespace_only Platform.gcc [' ', '\t', '\n', ' '] (by decide)⟩

/-! ## Integer literals -/

theorem digits_value_append (ds : List Char) (c : Char) :
    digits_value (ds ++ [c]) = 10 * digits_value ds + (c.toNat - 48) := by
  simp [digits_value, List.foldl_append]

theorem digits_value_eq_decimal_value (ds : List Char) : digits_value ds = decimal_value ds := by
  induction ds using List.reverseRecOn with
  | nil => simp [digits_value, decimal_value]
  | append_singleton ds c ih =>
    rw [digits_value_append, ih]
    simp [decimal_value, Nat.ofDigits_cons]
    omega

theorem takeWhile_isDigit_append (ds rest : List Char) (hd : ∀ c ∈ ds, c.isDigit = true)
    (hr : no_digit_ahead rest) : (ds ++ rest).takeWhile Char.isDigit = ds := by
  induction ds with
  | nil =>
    cases rest with
    | nil => rfl
    | cons c rest => simp [List.takeWhile, hr c rfl]
  | cons d ds ih =>
    have h1 : d.isDigit = true := hd d (List.mem_cons_self d ds)
    have h2 : ∀ c ∈ ds, c.isDigit = true := fun c hc => hd c (List.mem_cons_of_mem d hc)
    simp [List.takeWhile, h1, ih h2]

theorem from_chars_int64_minus (body : List Char) (v : Int) :
    from_chars_int64 ('-' :: body) v =
      if (body.takeWhile Char.isDigit).isEmpty then
        { ptr := 0, ec := errc.invalid_argument, value := v }
      else if -(2 : Int) ^ 63 ≤ -(digits_value (body.takeWhile Char.isDigit) : Int) ∧
          -(digits_value (body.takeWhile Char.isDigit) : Int) < (2 : Int) ^ 63 then
        { ptr := 1 + (body.takeWhile Char.isDigit).length, ec := errc.none,
          value := -(digits_value (body.takeWhile Char.isDigit) : Int) }
      else
        { ptr := 1 + (body.takeWhile Char.isDigit).length, ec := errc.result_out_of_range,
          value := v } := by
  rfl

theorem from_chars_int64_plain (source : List Char) (v : Int) (h : source.head? ≠ some '-') :
    from_chars_int64 source v =
      if (source.takeWhile Char.isDigit).isEmpty then
        { ptr := 0, ec := errc.invalid_argument, value := v }
      else if -(2 : Int) ^ 63 ≤ (digits_value (source.takeWhile Char.isDigit) : Int) ∧
          (digits_value (source.takeWhile Char.isDigit) : Int) < (2 : Int) ^ 63 then
        { ptr := 0 + (source.takeWhile Char.isDigit).length, ec := errc.none,
          value := (digits_value (source.takeWhile Char.isDigit) : Int) }
      else
        { ptr := 0 + (source.takeWhile Char.isDigit).length, ec := errc.result_out_of_range,
          value := v } := by
  have hb : (source.head? == some '-') = false := by simpa using h
  unfold from_chars_int64
  simp only [hb, Bool.false_eq_true, if_false]

theorem from_chars_int64_literal (neg : Bool) (ds rest : List Char) (v : Int) (hne : ds ≠ [])
    (hd : ∀ c ∈ ds, c.isDigit = true) (hr : no_digit_ahead rest)
    (hrange : -(2 : Int) ^ 63 ≤ literal_value neg ds ∧ literal_value neg ds < (2 : Int) ^ 63) :
    from_chars_int64 (int_literal neg ds ++ rest) v =
      { ptr := (int_literal neg ds).length, ec := errc.none, value := literal_value neg ds } := by
  have htw := takeWhile_isDigit_append ds rest hd hr
  have hemp : ds.isEmpty = false := by
    cases ds with
    | nil => exact absurd rfl hne
    | cons d ds => rfl
  cases neg with
  | true =>
    have hr' : -(2 : Int) ^ 63 ≤ -(digits_value ds : Int) ∧ -(digits_value ds : Int) < (2 : Int) ^ 63 := by
      simpa [literal_value, digits_value_eq_decimal_value] using hrange
    show from_chars_int64 ('-' :: (ds ++ rest)) v = _
    rw [from_chars_int64_minus, htw, hemp, if_neg (by decide), if_pos hr']
    simp [int_literal, literal_value, digits_value_eq_decimal_value, Nat.add_comm]
  | false =>
    have hr' : -(2 : Int) ^ 63 ≤ (digits_value ds : Int) ∧ (digits_value ds : Int) < (2 : Int) ^ 63 := by
      simpa [literal_value, digits_value_eq_decimal_value] using hrange
    have hh : (ds ++ rest).head? ≠ some '-' := by
      obtain ⟨d, ds', rfl⟩ := List.exists_cons_of_ne_nil hne
      have hdd : d.isDigit = true := hd d (List.mem_cons_self d ds')
      intro h
      simp at h
      subst h
      exact absurd hdd (by decide)
    show from_chars_int64 (ds ++ rest) v = _
    rw [from_chars_int64_plain _ _ hh, htw, hemp, if_neg (by decide), if_pos hr']
    simp [int_literal, literal_value, digits_value_eq_decimal_value]

theorem literal_head_plain {c : Char} (h : c = '-' ∨ c.isDigit = true) :
    c ∉ whitespace ∧ c ≠ '{' ∧ c ≠ '[' ∧ c ≠ '"' := by
  rcases h with rfl | h
  · decide
  · refine ⟨?_, ?_, ?_, ?_⟩
    · intro hc
      rcases (mem_whitespace_iff c).mp hc with rfl | rfl | rfl <;> exact absurd h (by decide)
    all_goals
      rintro rfl
      exact absurd h (by decide)

theorem int_literal_head (neg : Bool) (ds rest : List Char) (hne : ds ≠ [])
    (hd : ∀ c ∈ ds, c.isDigit = true) :
    ∃ c tail, int_literal neg ds ++ rest = c :: tail ∧ (c = '-' ∨ c.isDigit = true) := by
  obtain ⟨d, ds', rfl⟩ := List.exists_cons_of_ne_nil hne
  cases neg with
  | true => exact ⟨'-', d :: ds' ++ rest, rfl, Or.inl rfl⟩
  | false => exact ⟨d, ds' ++ rest, rfl, Or.inr (hd d (List.mem_cons_self d ds'))⟩

/-- The dispatch on a span that starts with a character that is neither
whitespace nor one of the three openers: the integer scan decides. -/
theorem parse_value_scalar (P : Platform) (self : self_type) (c : Char) (tail : List Char)
    (out : value) (level : Nat) (hws : c ∉ whitespace) (h1 : c ≠ '{') (h2 : c ≠ '[')
    (h3 : c ≠ '"') :
    parse_value P self (c :: tail) out level =
      Run.ok (value.int64 (from_chars_int64 (c :: tail) 0).value)
        ((c :: tail).drop (from_chars_int64 (c :: tail) 0).ptr) := by
  unfold parse_value
  rw [strip_leading_ws_cons_other hws]
  simp only [if_neg h1, if_neg h2, if_neg h3, parse_int64, Option.isSome_some, if_true]

theorem parse_value_int_literal (P : Platform) (self : self_type) (neg : Bool)
    (ds rest : List Char) (out : value) (level : Nat) (hne : ds ≠ [])
    (hd : ∀ c ∈ ds, c.isDigit = true) (hr : no_digit_ahead rest)
    (hrange : -(2 : Int) ^ 63 ≤ literal_value neg ds ∧ literal_value neg ds < (2 : Int) ^ 63) :
    parse_value P self (int_literal neg ds ++ rest) out level =
      Run.ok (value.int64 (literal_value neg ds)) rest := by
  obtain ⟨c, tail, hc, hcp⟩ := int_literal_head neg ds rest hne hd
  obtain ⟨hws, h1, h2, h3⟩ := literal_head_plain hcp
  have hfc := from_chars_int64_literal neg ds rest 0 hne hd hr hrange
  rw [hc] at hfc ⊢
  rw [parse_value_scalar P self c tail out level hws h1 h2 h3, hfc, ← hc]
  simp

/-! ## Integers at the top level, and the end of the input -/

/-- C3: an integer literal (an optional minus sign and one or more digits)
whose value lies in the signed 64-bit range, between any whitespace, parses to
the integer variant that holds exactly that value. -/
theorem parse_int_literal (P : Platform) (w1 w2 ds : List Char) (neg : Bool)
    (hw1 : ∀ c ∈ w1, c ∈ whitespace) (hw2 : ∀ c ∈ w2, c ∈ whitespace) (hne : ds ≠ [])
    (hd : ∀ c ∈ ds, c.isDigit = true)
    (hrange : -(2 : Int) ^ 63 ≤ literal_value neg ds ∧ literal_value neg ds < (2 : Int) ^ 63) :
    parse P (w1 ++ int_literal neg ds ++ w2) = Outcome.value (value.int64 (literal_value neg ds)) := by
  have hr : no_digit_ahead w2 := by
    intro c hc
    have hmem : c ∈ w2 := List.mem_of_mem_head? hc
    rcases (mem_whitespace_iff c).mp (hw2 c hmem) with rfl | rfl | rfl <;> rfl
  obtain ⟨c, tail, hc, hcp⟩ := int_literal_head neg ds w2 hne hd
  have hws := (literal_head_plain hcp).1
  have hrun : parser P ((w1 ++ int_literal neg ds ++ w2).length + 1)
      (w1 ++ int_literal neg ds ++ w2) value.null 0 =
      Run.ok (value.int64 (literal_value neg ds)) w2 := by
    show parse_value P _ _ _ _ = _
    have hstrip : strip_leading_ws (w1 ++ int_literal neg ds ++ w2) = int_literal neg ds ++ w2 := by
      rw [List.append_assoc, strip_leading_ws_append w1 _ hw1, hc,
        strip_leading_ws_cons_other hws]
    have hpv := parse_value_int_literal P (parser P (w1 ++ int_literal neg ds ++ w2).length) neg ds w2
      value.null 0 hne hd hr hrange
    unfold parse_value at hpv ⊢
    rw [hstrip]
    rw [hc, strip_leading_ws_cons_other hws] at hpv
    rw [hc]
    exact hpv
  unfold parse
  rw [hrun]
  simp [strip_leading_ws_all w2 hw2]

/-- C3 at `42`, and at ` -7` followed by a newline. -/
theorem parse_int_literal_witness :
    parse Platform.gcc ['4', '2'] = Outcome.value (value.int64 42) ∧
      parse Platform.gcc [' ', '-', '7', '\n'] = Outcome.value (value.int64 (-7)) :=
  ⟨parse_int_literal Platform.gcc [] [] ['4', '2'] false (by decide) (by decide) (by decide)
      (by decide) (by decide),
    parse_int_literal Platform.gcc [' '] ['\n'] ['7'] true (by decide) (by decide) (by decide)
      (by decide) (by decide)⟩

/-- C6: when the value parse at level 0 succeeds with `v` and leaves `rest`,
`json::parse` returns `v` if `rest` is whitespace only, and the level-0 error
"source does not end at end of value" if `rest` holds any other character; so
a value is returned only when the whole input was consumed. -/
theorem parse_consumes_whole_input (P : Platform) (source rest : List Char) (v : value)
    (h : parser P (source.length + 1) source value.null 0 = Run.ok v rest) :
    ((∀ c ∈ rest, c ∈ whitespace) → parse P source = Outcome.value v) ∧
    ((∃ c ∈ rest, c ∉ whitespace) → parse P source =
      Outcome.error { level := 0, message := "source does not end at end of value" }) ∧
    (∀ w, parse P source = Outcome.value w → w = v ∧ ∀ c ∈ rest, c ∈ whitespace) := by
  refine ⟨?_, ?_, ?_⟩
  · intro hws
    simp only [parse, h, strip_leading_ws_all rest hws]
  · rintro ⟨c, hc, hcw⟩
    cases hs : strip_leading_ws rest with
    | nil => exact absurd (strip_leading_ws_eq_nil hs c hc) hcw
    | cons d tail => simp only [parse, h, hs]
  · intro w hw
    cases hs : strip_leading_ws rest with
    | nil =>
      simp only [parse, h, hs, Outcome.value.injEq] at hw
      exact ⟨hw.symm, strip_leading_ws_eq_nil hs⟩
    | cons d tail => simp [parse, h, hs] at hw

/-- C6 at `1 2`: the value parse yields the integer 1 and leaves ` 2`. -/
theorem parse_consumes_whole_input_witness :
    parser Platform.gcc 4 ['1', ' ', '2'] value.null 0 = Run.ok (value.int64 1) [' ', '2'] ∧
      parse Platform.gcc ['1', ' ', '2'] =
        Outcome.error { level := 0, message := "source does not end at end of value" } :=
  ⟨rfl, (parse_consumes_whole_input Platform.gcc ['1', ' ', '2'] [' ', '2'] (value.int64 1) rfl).2.1
    ⟨'2', by decide, by decide⟩⟩

/-! ## The string lambda -/

theorem find_quote_some {source : List Char} {pos q : Nat} (h : find_quote source pos = some q) :
    pos ≤ q ∧ source[q]? = some '"' ∧ ∀ j, pos ≤ j → j < q → source[j]? ≠ some '"' := by
  induction source generalizing pos q with
  | nil => simp [find_quote] at h
  | cons c source ih =>
    cases pos with
    | zero =>
      by_cases hc : c = '"'
      · simp only [find_quote, if_pos hc, Option.some.injEq] at h
        subst h
        refine ⟨Nat.le_refl 0, by simp [hc], ?_⟩
        intro j _ hj
        omega
      · simp only [find_quote, if_neg hc, Option.map_eq_some'] at h
        obtain ⟨q', hq', rfl⟩ := h
        obtain ⟨_, h2, h3⟩ := ih hq'
        refine ⟨Nat.zero_le _, by simpa using h2, ?_⟩
        intro j _ hj
        cases j with
        | zero => simpa using hc
        | succ j => simpa using h3 j (Nat.zero_le j) (by omega)
    | succ pos =>
      simp only [find_quote, Option.map_eq_some'] at h
      obtain ⟨q', hq', rfl⟩ := h
      obtain ⟨h1, h2, h3⟩ := ih hq'
      refine ⟨by omega, by simpa using h2, ?_⟩
      intro j hj1 hj2
      cases j with
      | zero => omega
      | succ j => simpa using h3 j (by omega) (by omega)

theorem find_quote_none {source : List Char} {pos : Nat} (h : find_quote source pos = none) :
    ∀ j, pos ≤ j → source[j]? ≠ some '"' := by
  induction source generalizing pos with
  | nil => simp
  | cons c source ih =>
    cases pos with
    | zero =>
      by_cases hc : c = '"'
      · simp [find_quote, hc] at h
      · simp only [find_quote, if_neg hc, Option.map_eq_none'] at h
        intro j _
        cases j with
        | zero => simpa using hc
        | succ j => simpa using ih h j (Nat.zero_le j)
    | succ pos =>
      simp only [find_quote, Option.map_eq_none'] at h
      intro j hj
      cases j with
      | zero => omega
      | succ j => simpa using ih h j (by omega)

theorem preceding_backslashes_succ (source : List Char) (i : Nat) (c : Char)
    (h : source[i]? = some c) :
    preceding_backslashes source (i + 1) =
      if c = '\\' then preceding_backslashes source i + 1 else 0 := by
  have hlt : i < source.length := by
    by_contra hge
    rw [List.getElem?_eq_none (by omega)] at h
    exact absurd h (by simp)
  have htake : source.take (i + 1) = source.take i ++ [c] := by
    rw [List.take_succ, h]
    rfl
  unfold preceding_backslashes
  rw [htake, List.reverse_append, List.reverse_singleton, List.singleton_append]
  by_cases hc : c = '\\'
  · simp [List.takeWhile, hc]
  · have hb : (c == '\\') = false := by simpa using hc
    simp [List.takeWhile, hc, hb]

theorem count_escaping_eq (source : List Char) (hq : source.head? = some '"') (i : Nat)
    (hi : i < source.length) : count_escaping source i = preceding_backslashes source (i + 1) := by
  induction i with
  | zero =>
    have h0 : source[0]? = some '"' := by
      cases source with
      | nil => simp at hq
      | cons c source => simpa using hq
    rw [preceding_backslashes_succ source 0 '"' h0]
    simp [count_escaping]
  | succ i ih =>
    obtain ⟨c, hc⟩ : ∃ c, source[i + 1]? = some c := ⟨source[i + 1], List.getElem?_eq_getElem hi⟩
    rw [preceding_backslashes_succ source (i + 1) c hc, ← ih (by omega)]
    simp only [count_escaping, hc, Option.some.injEq]

theorem is_terminator_lt {source : List Char} {t : Nat} (ht : is_terminator source t) :
    t < source.length := by
  by_contra hge
  have h := ht.2.1
  rw [List.getElem?_eq_none (by omega)] at h
  exact absurd h (by simp)

theorem string_end_found (source : List Char) (hq : source.head? = some '"') (t : Nat)
    (ht : is_terminator source t) :
    ∀ fuel e, 1 ≤ e → e ≤ t → source.length ≤ fuel + e →
      (∀ j, e ≤ j → j < t → ¬ is_terminator source j) →
      string_end source fuel e = some (some t) := by
  have htl := is_terminator_lt ht
  intro fuel
  induction fuel with
  | zero => intro e _ het hfuel _; omega
  | succ f ih =>
    intro e he het hfuel hmin
    have hlt : e < source.length := by omega
    cases hfq : find_quote source e with
    | none => exact absurd ht.2.1 (find_quote_none hfq t het)
    | some q =>
      obtain ⟨hq1, hq2, hq3⟩ := find_quote_some hfq
      have hqt : q ≤ t := by
        by_contra hgt
        exact hq3 t het (by omega) ht.2.1
      have hcount : count_escaping source (q - 1) = preceding_backslashes source q := by
        rw [count_escaping_eq source hq (q - 1) (by omega)]
        congr 1
        omega
      by_cases hev : preceding_backslashes source q % 2 = 0
      · have hterm : is_terminator source q := ⟨by omega, hq2, hev⟩
        have hqe : q = t := by
          by_contra hne
          exact hmin q hq1 (by omega) hterm
        subst hqe
        simp only [string_end, if_pos hlt, hfq, hcount, if_pos hev]
      · have hne : q ≠ t := by
          rintro rfl
          exact hev ht.2.2
        simp only [string_end, if_pos hlt, hfq, hcount, if_neg hev]
        exact ih (q + 1) (by omega) (by omega) (by omega)
          (fun j hj1 hj2 => hmin j (by omega) hj2)

theorem string_end_not_found (source : List Char) (hq : source.head? = some '"')
    (hno : ∀ t, ¬ is_terminator source t) :
    ∀ fuel e, 1 ≤ e → source.length ≤ fuel + e →
      string_end source fuel e = some none ∨
        ∃ e', source.length ≤ e' ∧ string_end source fuel e = some (some e') := by
  intro fuel
  induction fuel with
  | zero =>
    intro e _ hfuel
    have hge : ¬ e < source.length := by omega
    exact Or.inr ⟨e, by omega, by simp only [string_end, if_neg hge]⟩
  | succ f ih =>
    intro e he hfuel
    by_cases hlt : e < source.length
    · cases hfq : find_quote source e with
      | none => exact Or.inl (by simp only [string_end, if_pos hlt, hfq])
      | some q =>
        obtain ⟨hq1, hq2, _⟩ := find_quote_some hfq
        have hql : q < source.length := by
          by_contra hge
          rw [List.getElem?_eq_none (by omega)] at hq2
          exact absurd hq2 (by simp)
        have hcount : count_escaping source (q - 1) = preceding_backslashes source q := by
          rw [count_escaping_eq source hq (q - 1) (by omega)]
          congr 1
          omega
        have hodd : ¬ preceding_backslashes source q % 2 = 0 :=
          fun hev => hno q ⟨by omega, hq2, hev⟩
        simp only [string_end, if_pos hlt, hfq, hcount, if_neg hodd]
        exact ih (q + 1) (by omega) (by omega)
    · exact Or.inr ⟨e, by omega, by simp only [string_end, if_neg hlt]⟩

/-- The string lambda on a span that opens with a double quote and has a
terminator: the value is the text between the quotes, the cursor is behind
the terminator. -/
theorem parse_string_found (source : List Char) (s : String) (level t : Nat)
    (hq : source.head? = some '"') (ht : is_terminator source t)
    (hmin : ∀ j < t, ¬ is_terminator source j) :
    parse_string source s level =
      Run.ok (String.mk ((source.take t).drop 1)) (source.drop (t + 1)) := by
  have htl := is_terminator_lt ht
  have hend := string_end_found source hq t ht source.length 1 (Nat.le_refl 1) ht.1 (by omega)
    (fun j _ hj => hmin j hj)
  have hsub : (source.drop 1).take (t - 1) = (source.take t).drop 1 := by
    rw [List.drop_take]
  simp only [parse_string, hend, ge_iff_le, if_neg (Nat.not_le.mpr htl), hsub]

/-- The string lambda on a span that opens with a double quote and has no
terminator. -/
theorem parse_string_not_found (source : List Char) (s : String) (level : Nat)
    (hq : source.head? = some '"') (hno : ∀ t, ¬ is_terminator source t) :
    parse_string source s level =
      Run.error { level := level, message := "Expected string to end" } := by
  rcases string_end_not_found source hq hno source.length 1 (Nat.le_refl 1) (by omega) with
    h | ⟨e, he, h⟩
  · simp only [parse_string, h]
  · simp only [parse_string, h, ge_iff_le, if_pos he]

theorem parse_value_strip (P : Platform) (self : self_type) (w source : List Char) (out : value)
    (level : Nat) (hw : ∀ c ∈ w, c ∈ whitespace) :
    parse_value P self (w ++ source) out level = parse_value P self source out level := by
  unfold parse_value
  rw [strip_leading_ws_append w source hw]

theorem parse_value_string (P : Platform) (self : self_type) (source : List Char) (out : value)
    (level : Nat) (hq : source.head? = some '"') :
    parse_value P self source out level = (parse_string source "" level).map value.string := by
  cases source with
  | nil => simp at hq
  | cons c rest =>
    simp only [List.head?_cons, Option.some.injEq] at hq
    subst hq
    unfold parse_value
    rw [strip_leading_ws_cons_other (by decide)]
    simp only [if_neg (show ¬ '"' = '{' by decide), if_neg (show ¬ '"' = '[' by decide), if_true]

/-! ## Strings at the top level -/

/-- C4: on a span that opens with a double quote, the string lambda stops at
the first index `t ≥ 1` that holds a double quote preceded by an even number of
consecutive backslashes; the value is the raw text between the opening quote
and `t`, the cursor is just behind `t`; and `json::parse` returns that string
when only whitespace follows. -/
theorem parse_string_terminator (P : Platform) (source : List Char) (s : String) (level t : Nat)
    (hq : source.head? = some '"') (ht : is_terminator source t)
    (hmin : ∀ j < t, ¬ is_terminator source j) :
    parse_string source s level =
        Run.ok (String.mk ((source.take t).drop 1)) (source.drop (t + 1)) ∧
      ((∀ c ∈ source.drop (t + 1), c ∈ whitespace) →
        parse P source = Outcome.value (value.string (String.mk ((source.take t).drop 1)))) := by
  refine ⟨parse_string_found source s level t hq ht hmin, ?_⟩
  intro hws
  have hrun : parser P (source.length + 1) source value.null 0 =
      Run.ok (value.string (String.mk ((source.take t).drop 1))) (source.drop (t + 1)) := by
    show parse_value P _ _ _ _ = _
    rw [parse_value_string P _ source _ _ hq, parse_string_found source "" 0 t hq ht hmin]
    rfl
  simp only [parse, hrun, strip_leading_ws_all _ hws]

/-- C4 at the input `"he said \"hi\""`: the terminator is the quote at index
15, the two quotes before it are escaped. -/
theorem parse_string_terminator_witness :
    is_terminator "\"he said \\\"hi\\\"\"".toList 15 ∧
      parse Platform.gcc "\"he said \\\"hi\\\"\"".toList =
        Outcome.value (value.string "he said \\\"hi\\\"") :=
  ⟨by decide,
    (parse_string_terminator Platform.gcc "\"he said \\\"hi\\\"\"".toList "" 0 15 (by decide)
      (by decide) (by decide)).2 (by decide)⟩

theorem no_terminator_of_bounded {source : List Char}
    (h : ∀ t < source.length, ¬ is_terminator source t) : ∀ t, ¬ is_terminator source t :=
  fun t ht => h t (is_terminator_lt ht) ht

/-- C5: an input that, after leading whitespace, opens with a double quote and
holds no later double quote preceded by an even number of consecutive
backslashes fails at level 0 with "Expected string to end". -/
theorem parse_unterminated_string (P : Platform) (w source : List Char)
    (hw : ∀ c ∈ w, c ∈ whitespace) (hq : source.head? = some '"')
    (hno : ∀ t, ¬ is_terminator source t) :
    parse P (w ++ source) =
      Outcome.error { level := 0, message := "Expected string to end" } := by
  have hrun : parser P ((w ++ source).length + 1) (w ++ source) value.null 0 =
      Run.error { level := 0, message := "Expected string to end" } := by
    show parse_value P _ _ _ _ = _
    rw [parse_value_strip P _ w source _ _ hw, parse_value_string P _ source _ _ hq,
      parse_string_not_found source "" 0 hq hno]
    rfl
  simp only [parse, hrun]

/-- C5 at the inputs `"abc` and ` "`, and at `"a\"`, whose last quote is escaped. -/
theorem parse_unterminated_string_witness :
    parse Platform.gcc "\"abc".toList =
        Outcome.error { level := 0, message := "Expected string to end" } ∧
      parse Platform.gcc " \"".toList =
        Outcome.error { level := 0, message := "Expected string to end" } ∧
      parse Platform.gcc "\"a\\\"".toList =
        Outcome.error { level := 0, message := "Expected string to end" } :=
  ⟨parse_unterminated_string Platform.gcc [] "\"abc".toList (by decide) (by decide)
      (no_terminator_of_bounded (by decide)),
    parse_unterminated_string Platform.gcc [' '] "\"".toList (by decide) (by decide)
      (no_terminator_of_bounded (by decide)),
    parse_unterminated_string Platform.gcc [] "\"a\\\"".toList (by decide) (by decide)
      (no_terminator_of_bounded (by decide))⟩

/-! ## Truncated inputs and fractions -/

/-- C1: on the inputs `[1, 2`, `[1,`, `{"a"` and `{"a":1`, which end before the
closing bracket, the run of `json::parse` evaluates `source.front()` on an
empty span: after the element `2` and after the key and the value of the
mapping inside the loop, after the comma of `[1,` in the `assert` behind it. -/
theorem parse_truncated_front_of_empty (P : Platform) :
    parse P "[1, 2".toList = Outcome.undefined ∧
      parse P "[1,".toList = Outcome.undefined ∧
      parse P "\x7b\"a\"".toList = Outcome.undefined ∧
      parse P "\x7b\"a\":1".toList = Outcome.undefined :=
  ⟨rfl, rfl, rfl, rfl⟩

/-- C2: a decimal literal with a fractional part, `ds.fs` with an integer part
in the signed 64-bit range, is not parsed as a floating-point value: the
integer scan takes `ds`, the dispatch returns, and the rest `.fs` makes
`json::parse` fail with "source does not end at end of value". -/
theorem parse_fraction_rejected (P : Platform) (ds fs : List Char) (neg : Bool) (hne : ds ≠ [])
    (hd : ∀ c ∈ ds, c.isDigit = true)
    (hrange : -(2 : Int) ^ 63 ≤ literal_value neg ds ∧ literal_value neg ds < (2 : Int) ^ 63) :
    parse P (int_literal neg ds ++ '.' :: fs) =
      Outcome.error { level := 0, message := "source does not end at end of value" } := by
  have hr : no_digit_ahead ('.' :: fs) := by
    intro c hc
    simp only [List.head?_cons, Option.some.injEq] at hc
    subst hc
    rfl
  have hrun : parser P ((int_literal neg ds ++ '.' :: fs).length + 1)
      (int_literal neg ds ++ '.' :: fs) value.null 0 =
      Run.ok (value.int64 (literal_value neg ds)) ('.' :: fs) :=
    parse_value_int_literal P _ neg ds ('.' :: fs) value.null 0 hne hd hr hrange
  simp only [parse, hrun, strip_leading_ws_cons_other (show '.' ∉ whitespace by decide)]

/-- C2 at `3.14`. -/
theorem parse_fraction_rejected_witness :
    parse Platform.gcc "3.14".toList =
      Outcome.error { level := 0, message := "source does not end at end of value" } :=
  parse_fraction_rejected Platform.gcc ['3'] ['1', '4'] false (by decide) (by decide) (by decide)

/-! ## Decimal rendering -/

theorem digitChar_spec : ∀ k < 10, (Nat.digitChar k).isDigit = true ∧ (Nat.digitChar k).toNat - 48 = k := by
  decide

theorem decimal_value_append (ds : List Char) (c : Char) :
    decimal_value (ds ++ [c]) = 10 * decimal_value ds + (c.toNat - 48) := by
  rw [← digits_value_eq_decimal_value, ← digits_value_eq_decimal_value, digits_value_append]

theorem toDigitsCore_append (f : Nat) : ∀ (n : Nat) (ds : List Char),
    Nat.toDigitsCore 10 f n ds = Nat.toDigitsCore 10 f n [] ++ ds := by
  induction f with
  | zero => intro n ds; simp [Nat.toDigitsCore]
  | succ f ih =>
    intro n ds
    simp only [Nat.toDigitsCore]
    by_cases h : n / 10 = 0
    · simp [h]
    · simp only [if_neg h]
      rw [ih (n / 10) (Nat.digitChar (n % 10) :: ds), ih (n / 10) [Nat.digitChar (n % 10)]]
      simp

theorem toDigitsCore_spec (f : Nat) : ∀ n, n < f →
    Nat.toDigitsCore 10 f n [] ≠ [] ∧ (∀ c ∈ Nat.toDigitsCore 10 f n [], c.isDigit = true) ∧
      decimal_value (Nat.toDigitsCore 10 f n []) = n := by
  induction f with
  | zero => intro n h; omega
  | succ f ih =>
    intro n hn
    have hd := digitChar_spec (n % 10) (Nat.mod_lt n (by decide))
    simp only [Nat.toDigitsCore]
    by_cases h : n / 10 = 0
    · simp only [if_pos h]
      refine ⟨by simp, ?_, ?_⟩
      · intro c hc
        simp only [List.mem_singleton] at hc
        rw [hc]
        exact hd.1
      · have := decimal_value_append [] (Nat.digitChar (n % 10))
        simp only [List.nil_append] at this
        rw [this, hd.2]
        simp [decimal_value]
        omega
    · simp only [if_neg h]
      rw [toDigitsCore_append f (n / 10) [Nat.digitChar (n % 10)]]
      obtain ⟨_, h2, h3⟩ := ih (n / 10) (by omega)
      refine ⟨by simp, ?_, ?_⟩
      · intro c hc
        rcases List.mem_append.mp hc with hc | hc
        · exact h2 c hc
        · simp only [List.mem_singleton] at hc
          rw [hc]
          exact hd.1
      · rw [decimal_value_append, h3, hd.2]
        omega

theorem decimal_spec (n : Int) :
    ∃ neg ds, decimal n = int_literal neg ds ∧ ds ≠ [] ∧ (∀ c ∈ ds, c.isDigit = true) ∧
      literal_value neg ds = n := by
  obtain ⟨h1, h2, h3⟩ := toDigitsCore_spec (n.natAbs + 1) n.natAbs (Nat.lt_succ_self _)
  refine ⟨decide (n < 0), Nat.toDigits 10 n.natAbs, rfl, h1, h2, ?_⟩
  have h3' : decimal_value (Nat.toDigits 10 n.natAbs) = n.natAbs := h3
  unfold literal_value
  rw [h3']
  by_cases hn : n < 0
  · simp only [hn, decide_True, if_true]
    omega
  · simp only [hn, decide_False, Bool.false_eq_true, if_false]
    omega

/-- The decimal rendering of an integer of the signed 64-bit range is a text
the dispatch parses to that integer. -/
theorem parses_as_decimal (P : Platform) (self : self_type) (level : Nat) (n : Int)
    (hrange : -(2 : Int) ^ 63 ≤ n ∧ n < (2 : Int) ^ 63) :
    parses_as (parse_value P self) level (decimal n) (value.int64 n) := by
  obtain ⟨neg, ds, htext, hne, hd, hval⟩ := decimal_spec n
  rw [htext]
  constructor
  · obtain ⟨c, tl, hc, hcp⟩ := int_literal_head neg ds [] hne hd
    rw [List.append_nil] at hc
    refine ⟨c, tl, hc, (literal_head_plain hcp).1, ?_⟩
    rcases hcp with rfl | hcd
    · decide
    · rintro rfl
      exact absurd hcd (by decide)
  · intro rest out hr
    rw [parse_value_int_literal P self neg ds rest out level hne hd hr (by rw [hval]; exact hrange),
      hval]

/-! ## The list lambda -/

theorem list_loop_step_close (self : self_type) (fuel : Nat) (source : List Char) (l : list)
    (level : Nat) (v : value) (source' rest : List Char) (hne : source ≠ [])
    (hself : self source value.null (level + 1) = Run.ok v source')
    (hs : strip_leading_ws source' = ']' :: rest) :
    list_loop self (fuel + 1) source l level = Run.ok (l ++ [v]) rest := by
  have he : source.isEmpty = false := by
    cases source with
    | nil => exact absurd rfl hne
    | cons c tl => rfl
  simp [list_loop, he, hself, hs, list_close]

theorem list_loop_step_comma (self : self_type) (fuel : Nat) (source : List Char) (l : list)
    (level : Nat) (v : value) (source' rest : List Char) (hne : source ≠ [])
    (hself : self source value.null (level + 1) = Run.ok v source')
    (hs : strip_leading_ws source' = ',' :: rest) :
    list_loop self (fuel + 1) source l level =
      list_loop self fuel (strip_leading_ws rest) (l ++ [v]) level := by
  have he : source.isEmpty = false := by
    cases source with
    | nil => exact absurd rfl hne
    | cons c tl => rfl
  simp [list_loop, he, hself, hs]

theorem join_with_head (sep : List Char) (x : List Char) (items : List (List Char)) (c : Char)
    (tl : List Char) (hx : x = c :: tl) : ∃ tl', join_with sep (x :: items) = c :: tl' := by
  subst hx
  cases items with
  | nil => exact ⟨tl, rfl⟩
  | cons y items => exact ⟨tl ++ sep ++ join_with sep (y :: items), rfl⟩

theorem list_loop_items (self : self_type) (level : Nat) :
    ∀ items : List (List Char × value), items ≠ [] →
      (∀ it ∈ items, parses_as self (level + 1) it.1 it.2) →
      ∀ (rest : List Char) (l : list) (fuel : Nat), items.length ≤ fuel →
        list_loop self fuel (join_with [',', ' '] (items.map Prod.fst) ++ ']' :: rest) l level =
          Run.ok (l ++ items.map Prod.snd) rest := by
  intro items
  induction items with
  | nil => intro h; exact absurd rfl h
  | cons it items ih =>
    intro _ hall rest l fuel hfuel
    obtain ⟨⟨c, tl, hc, hcw, _⟩, hrun⟩ := hall it (List.mem_cons_self it items)
    cases fuel with
    | zero => simp at hfuel
    | succ fuel =>
      cases items with
      | nil =>
        have hr : no_digit_ahead (']' :: rest) := by
          intro d hd
          simp only [List.head?_cons, Option.some.injEq] at hd
          subst hd
          rfl
        have hne : it.1 ++ ']' :: rest ≠ [] := by simp
        simpa [join_with] using
          list_loop_step_close self fuel (it.1 ++ ']' :: rest) l level it.2 (']' :: rest) rest hne
            (hrun (']' :: rest) value.null hr)
            (strip_leading_ws_cons_other (by decide) rest)
      | cons it2 items =>
        have hall2 : ∀ x ∈ it2 :: items, parses_as self (level + 1) x.1 x.2 :=
          fun x hx => hall x (List.mem_cons_of_mem it hx)
        obtain ⟨⟨c2, tl2, hc2, hcw2, _⟩, _⟩ := hall2 it2 (List.mem_cons_self it2 items)
        obtain ⟨tl', hj⟩ := join_with_head [',', ' '] it2.1 (items.map Prod.fst) c2 tl2 hc2
        have hr : no_digit_ahead
            (',' :: ' ' :: (join_with [',', ' '] ((it2 :: items).map Prod.fst) ++ ']' :: rest)) := by
          intro d hd
          simp only [List.head?_cons, Option.some.injEq] at hd
          subst hd
          rfl
        have hsrc : join_with [',', ' '] ((it :: it2 :: items).map Prod.fst) ++ ']' :: rest =
            it.1 ++ ',' :: ' ' ::
              (join_with [',', ' '] ((it2 :: items).map Prod.fst) ++ ']' :: rest) := by
          simp [join_with]
        have hne : it.1 ++ ',' :: ' ' ::
            (join_with [',', ' '] ((it2 :: items).map Prod.fst) ++ ']' :: rest) ≠ [] := by simp
        have hstrip : strip_leading_ws
            (' ' :: (join_with [',', ' '] ((it2 :: items).map Prod.fst) ++ ']' :: rest)) =
            join_with [',', ' '] ((it2 :: items).map Prod.fst) ++ ']' :: rest := by
          rw [strip_leading_ws_cons_ws (by decide)]
          simp only [List.map_cons]
          rw [hj, List.cons_append, strip_leading_ws_cons_other hcw2]
        rw [hsrc, list_loop_step_comma self fuel _ l level it.2 _ _ hne
          (hrun _ value.null hr) (strip_leading_ws_cons_other (by decide) _), hstrip,
          ih (by simp) hall2 rest (l ++ [it.2]) fuel (by simpa using hfuel)]
        simp

theorem join_with_length (sep : List Char) :
    ∀ items : List (List Char), (∀ x ∈ items, x ≠ []) →
      items.length ≤ (join_with sep items).length := by
  intro items
  induction items with
  | nil => intro _; simp [join_with]
  | cons x items ih =>
    intro h
    have hx : 1 ≤ x.length := List.length_pos.mpr (h x (List.mem_cons_self x items))
    cases items with
    | nil => simpa [join_with] using hx
    | cons y items =>
      have := ih (fun z hz => h z (List.mem_cons_of_mem x hz))
      simp only [join_with, List.length_append, List.length_cons] at this ⊢
      omega

theorem parse_value_list (P : Platform) (self : self_type) (tail : List Char) (out : value)
    (level : Nat) :
    parse_value P self ('[' :: tail) out level =
      (parse_list self ('[' :: tail) [] level).map value.list := by
  unfold parse_value
  rw [strip_leading_ws_cons_other (by decide)]
  simp only [if_neg (show ¬ '[' = '{' by decide), if_true]

/-- The text of a list whose elements are texts `self` parses one level deeper
is a text the dispatch parses to the list of their values. -/
theorem parses_as_list (P : Platform) (self : self_type) (level : Nat)
    (items : List (List Char × value))
    (hall : ∀ it ∈ items, parses_as self (level + 1) it.1 it.2) :
    parses_as (parse_value P self) level (list_text (items.map Prod.fst))
      (value.list (items.map Prod.snd)) := by
  refine ⟨⟨'[', _, rfl, by decide, by decide⟩, ?_⟩
  intro rest out _
  have htext : list_text (items.map Prod.fst) ++ rest =
      '[' :: (join_with [',', ' '] (items.map Prod.fst) ++ ']' :: rest) := by
    simp [list_text]
  rw [htext, parse_value_list]
  cases items with
  | nil =>
    simp [parse_list, join_with, strip_leading_ws, whitespace, Run.map]
  | cons it items =>
    obtain ⟨⟨c, tl, hc, hcw, hcb⟩, _⟩ := hall it (List.mem_cons_self it items)
    obtain ⟨tl', hj⟩ := join_with_head [',', ' '] it.1 (items.map Prod.fst) c tl hc
    have hlen : (it :: items).length ≤
        (join_with [',', ' '] ((it :: items).map Prod.fst) ++ ']' :: rest).length := by
      have h1 := join_with_length [',', ' '] ((it :: items).map Prod.fst) (by
        intro x hx
        obtain ⟨y, hy, rfl⟩ := List.mem_map.mp hx
        obtain ⟨⟨c', tl', hc', _⟩, _⟩ := hall y hy
        rw [hc']
        exact List.cons_ne_nil c' tl')
      simp only [List.length_map] at h1
      simp only [List.length_append]
      omega
    have hloop := list_loop_items self level (it :: items) (List.cons_ne_nil it items) hall rest []
      _ hlen
    have hX : join_with [',', ' '] ((it :: items).map Prod.fst) ++ ']' :: rest =
        c :: (tl' ++ ']' :: rest) := by
      simp only [List.map_cons]
      rw [hj, List.cons_append]
    rw [hX] at hloop
    unfold parse_list
    rw [strip_leading_ws_cons_other (by decide)]
    simp only [ne_eq, not_true_eq_false, if_false, hX]
    rw [strip_leading_ws_cons_other hcw]
    simp only [if_neg hcb, hloop, Run.map, List.nil_append]

/-! ## Lists of integers -/

/-- C7: the text `[d_1, ..., d_k]` of the decimal renderings of signed 64-bit
integers `n_1 .. n_k`, separated by a comma and a space, parses to the list of
the integers `n_1 .. n_k` in that order; `[]` parses to the empty list. -/
theorem parse_int_list (P : Platform) (ns : List Int)
    (hrange : ∀ n ∈ ns, -(2 : Int) ^ 63 ≤ n ∧ n < (2 : Int) ^ 63) :
    parse P (list_text (ns.map decimal)) = Outcome.value (value.list (ns.map value.int64)) := by
  have hlen : ∃ k, (list_text (ns.map decimal)).length = k + 1 := ⟨_, rfl⟩
  obtain ⟨k, hk⟩ := hlen
  have hall : ∀ it ∈ ns.map (fun n => (decimal n, value.int64 n)),
      parses_as (parser P (k + 1)) (0 + 1) it.1 it.2 := by
    intro it hit
    obtain ⟨n, hn, rfl⟩ := List.mem_map.mp hit
    exact parses_as_decimal P (parser P k) (0 + 1) n (hrange n hn)
  have hpa := parses_as_list P (parser P (k + 1)) 0 (ns.map (fun n => (decimal n, value.int64 n))) hall
  have h1 : (ns.map (fun n => (decimal n, value.int64 n))).map Prod.fst = ns.map decimal := by
    simp [List.map_map, Function.comp_def]
  have h2 : (ns.map (fun n => (decimal n, value.int64 n))).map Prod.snd = ns.map value.int64 := by
    simp [List.map_map, Function.comp_def]
  rw [h1, h2] at hpa
  have hrun : parser P ((list_text (ns.map decimal)).length + 1) (list_text (ns.map decimal))
      value.null 0 = Run.ok (value.list (ns.map value.int64)) [] := by
    rw [hk]
    have := hpa.2 [] value.null (fun c hc => by simp at hc)
    rw [List.append_nil] at this
    exact this
  simp only [parse, hrun, strip_leading_ws]

/-- C7 at `[1, 2, 3]`, at `[]` and at a list with a negative element. -/
theorem parse_int_list_witness :
    parse Platform.gcc "[1, 2, 3]".toList =
        Outcome.value (value.list [value.int64 1, value.int64 2, value.int64 3]) ∧
      parse Platform.gcc "[]".toList = Outcome.value (value.list []) ∧
      parse Platform.gcc "[-40, 0]".toList =
        Outcome.value (value.list [value.int64 (-40), value.int64 0]) := by
  refine ⟨parse_int_list Platform.gcc [1, 2, 3] (by decide),
    parse_int_list Platform.gcc [] (by decide), ?_⟩
  have h := parse_int_list Platform.gcc [-40, 0] (by decide)
  rwa [show list_text (List.map decimal [-40, 0]) = "[-40, 0]".toList by decide] at h

/-! ## The record lambda -/

theorem parse_string_plain (key rest : List Char) (s : String) (level : Nat)
    (hplain : ∀ c ∈ key, c ≠ '"' ∧ c ≠ '\\') :
    parse_string ('"' :: key ++ '"' :: rest) s level = Run.ok (String.mk key) rest := by
  have hget : ∀ j, 1 ≤ j → j < key.length + 1 →
      ∃ c ∈ key, ('"' :: key ++ '"' :: rest)[j]? = some c := by
    intro j h1 h2
    obtain ⟨i, rfl⟩ : ∃ i, j = i + 1 := ⟨j - 1, by omega⟩
    have hi : i < key.length := by omega
    refine ⟨key[i], List.getElem_mem _, ?_⟩
    simp [List.getElem?_append_left hi]
  have hterm : is_terminator ('"' :: key ++ '"' :: rest) (key.length + 1) := by
    have hq : ('"' :: key ++ '"' :: rest)[key.length + 1]? = some '"' := by
      have h : (key ++ '"' :: rest)[key.length]? = some '"' := by
        rw [List.getElem?_append_right (Nat.le_refl _)]
        simp
      simpa using h
    refine ⟨by omega, hq, ?_⟩
    have hnil : ((('"' :: key ++ '"' :: rest).take (key.length + 1)).reverse.takeWhile
        (fun c => c == '\\')) = [] := by
      have htake : ('"' :: key ++ '"' :: rest).take (key.length + 1) = '"' :: key := by
        simp [List.take_append_eq_append_take]
      rw [htake, List.takeWhile_eq_nil_iff]
      intro hpos
      have hmem : (('"' :: key).reverse)[0] ∈ '"' :: key :=
        List.mem_reverse.mp (List.getElem_mem _)
      simp only [List.get_eq_getElem, beq_iff_eq]
      intro hbs
      rcases List.mem_cons.mp hmem with h | h
      · rw [hbs] at h
        exact absurd h (by decide)
      · exact (hplain _ h).2 hbs
    unfold preceding_backslashes
    rw [hnil]
    rfl
  have hmin : ∀ j < key.length + 1, ¬ is_terminator ('"' :: key ++ '"' :: rest) j := by
    intro j hj ht
    obtain ⟨c, hc, hcj⟩ := hget j ht.1 hj
    have := ht.2.1
    rw [hcj] at this
    simp only [Option.some.injEq] at this
    exact (hplain c hc).1 this
  rw [parse_string_found ('"' :: key ++ '"' :: rest) s level (key.length + 1) rfl hterm hmin]
  simp [List.take_append_eq_append_take]

theorem record_loop_step_close (self : self_type) (fuel : Nat) (source : List Char) (r : record)
    (level : Nat) (key : String) (v : value) (s1 s2 s3 rest : List Char) (hne : source ≠ [])
    (hkey : parse_string source "" level = Run.ok key s1)
    (hcolon : strip_leading_ws s1 = ':' :: s2)
    (hval : self s2 (record.slot (r.try_emplace key) key) (level + 1) = Run.ok v s3)
    (hs : strip_leading_ws s3 = '}' :: rest) :
    record_loop self (fuel + 1) source r level = Run.ok (r.write (key, v)) rest := by
  have he : source.isEmpty = false := by
    cases source with
    | nil => exact absurd rfl hne
    | cons c tl => rfl
  simp [record_loop, he, hkey, hcolon, hval, hs, record_close, record.write]

theorem record_loop_step_comma (self : self_type) (fuel : Nat) (source : List Char) (r : record)
    (level : Nat) (key : String) (v : value) (s1 s2 s3 s4 s5 : List Char) (c : Char)
    (hne : source ≠ []) (hkey : parse_string source "" level = Run.ok key s1)
    (hcolon : strip_leading_ws s1 = ':' :: s2)
    (hval : self s2 (record.slot (r.try_emplace key) key) (level + 1) = Run.ok v s3)
    (hs : strip_leading_ws s3 = ',' :: s4) (hnext : strip_leading_ws s4 = c :: s5)
    (hc : c ≠ '}') :
    record_loop self (fuel + 1) source r level =
      record_loop self fuel (c :: s5) (r.write (key, v)) level := by
  have he : source.isEmpty = false := by
    cases source with
    | nil => exact absurd rfl hne
    | cons c tl => rfl
  simp [record_loop, he, hkey, hcolon, hval, hs, hnext, hc, record.write]

theorem entry_value_run (P : Platform) (self : self_type) (level : Nat) (vtext rest : List Char)
    (v out : value) (hv : parses_as (parse_value P self) level vtext v)
    (hr : no_digit_ahead rest) :
    parse_value P self (' ' :: (vtext ++ rest)) out level = Run.ok v rest := by
  have := parse_value_strip P self [' '] (vtext ++ rest) out level (by decide)
  rw [List.singleton_append] at this
  rw [this, hv.2 rest out hr]

theorem record_loop_entries (P : Platform) (self : self_type) (level : Nat) :
    ∀ entries : List (List Char × List Char × value), entries ≠ [] →
      (∀ e ∈ entries, (∀ c ∈ e.1, c ≠ '"' ∧ c ≠ '\\') ∧
        parses_as (parse_value P self) (level + 1) e.2.1 e.2.2) →
      ∀ (rest : List Char) (r : record) (fuel : Nat), entries.length ≤ fuel →
        record_loop (parse_value P self) fuel
            (join_with [',', ' '] (entries.map (fun e => entry_text e.1 e.2.1)) ++ '}' :: rest)
            r level =
          Run.ok (entries.foldl (fun r e => r.write (String.mk e.1, e.2.2)) r) rest := by
  intro entries
  induction entries with
  | nil => intro h; exact absurd rfl h
  | cons e entries ih =>
    intro _ hall rest r fuel hfuel
    obtain ⟨hplain, hv⟩ := hall e (List.mem_cons_self e entries)
    cases fuel with
    | zero => simp at hfuel
    | succ fuel =>
      cases entries with
      | nil =>
        have hr : no_digit_ahead ('}' :: rest) := by
          intro d hd
          simp only [List.head?_cons, Option.some.injEq] at hd
          subst hd
          rfl
        have hsrc : join_with [',', ' '] ([e].map (fun e => entry_text e.1 e.2.1)) ++ '}' :: rest =
            '"' :: e.1 ++ '"' :: (':' :: ' ' :: (e.2.1 ++ '}' :: rest)) := by
          simp [join_with, entry_text]
        rw [hsrc]
        exact record_loop_step_close (parse_value P self) fuel _ r level (String.mk e.1) e.2.2
          _ _ _ rest (by simp) (parse_string_plain e.1 _ "" level hplain)
          (strip_leading_ws_cons_other (by decide) _)
          (entry_value_run P self (level + 1) e.2.1 _ e.2.2 _ hv hr)
          (strip_leading_ws_cons_other (by decide) rest)
      | cons e2 entries =>
        have hall2 : ∀ x ∈ e2 :: entries, (∀ c ∈ x.1, c ≠ '"' ∧ c ≠ '\\') ∧
            parses_as (parse_value P self) (level + 1) x.2.1 x.2.2 :=
          fun x hx => hall x (List.mem_cons_of_mem e hx)
        obtain ⟨tl', hj⟩ := join_with_head [',', ' '] (entry_text e2.1 e2.2.1)
          (entries.map (fun e => entry_text e.1 e.2.1)) '"' _ rfl
        have hr : no_digit_ahead (',' :: ' ' :: ('"' :: tl' ++ '}' :: rest)) := by
          intro d hd
          simp only [List.head?_cons, Option.some.injEq] at hd
          subst hd
          rfl
        have hsrc : join_with [',', ' '] ((e :: e2 :: entries).map (fun e => entry_text e.1 e.2.1)) ++
            '}' :: rest =
            '"' :: e.1 ++ '"' :: (':' :: ' ' :: (e.2.1 ++
              ',' :: ' ' :: ('"' :: tl' ++ '}' :: rest))) := by
          simp only [List.map_cons, join_with]
          rw [hj]
          simp [entry_text]
        have ih' := ih (by simp) hall2 rest (r.write (String.mk e.1, e.2.2)) fuel
          (by simpa using hfuel)
        simp only [List.map_cons] at ih'
        rw [hj] at ih'
        rw [hsrc, record_loop_step_comma (parse_value P self) fuel _ r level (String.mk e.1) e.2.2
          _ _ _ _ _ '"' (by simp) (parse_string_plain e.1 _ "" level hplain)
          (strip_leading_ws_cons_other (by decide) _)
          (entry_value_run P self (level + 1) e.2.1 _ e.2.2 _ hv hr)
          (strip_leading_ws_cons_other (by decide) _)
          (by
            rw [strip_leading_ws_cons_ws (by decide), List.cons_append,
              strip_leading_ws_cons_other (by decide)])
          (by decide)]
        rw [← List.cons_append, ih']
        rfl

theorem parse_value_record (P : Platform) (self : self_type) (tail : List Char) (out : value)
    (level : Nat) :
    parse_value P self ('{' :: tail) out level =
      (parse_record self ('{' :: tail) [] level).map value.record := by
  unfold parse_value
  rw [strip_leading_ws_cons_other (by decide)]
  simp only [if_true]

/-- The text of a mapping with plain keys and values the dispatch parses one
level deeper: the record lambda performs the writes of the entries in order. -/
theorem parse_record_text (P : Platform) (self : self_type) (level : Nat)
    (entries : List (List Char × List Char × value))
    (hall : ∀ e ∈ entries, (∀ c ∈ e.1, c ≠ '"' ∧ c ≠ '\\') ∧
      parses_as (parse_value P self) (level + 1) e.2.1 e.2.2)
    (rest : List Char) :
    parse_record (parse_value P self)
        (record_text (entries.map (fun e => (e.1, e.2.1))) ++ rest) [] level =
      Run.ok (entries.foldl (fun (r : record) e => r.write (String.mk e.1, e.2.2)) []) rest := by
  have htext : record_text (entries.map (fun e => (e.1, e.2.1))) ++ rest =
      '{' :: (join_with [',', ' '] (entries.map (fun e => entry_text e.1 e.2.1)) ++ '}' :: rest) := by
    simp [record_text, List.map_map, Function.comp_def]
  rw [htext]
  cases entries with
  | nil => simp [parse_record, join_with, strip_leading_ws, whitespace]
  | cons e entries =>
    obtain ⟨tl', hj⟩ := join_with_head [',', ' '] (entry_text e.1 e.2.1)
      (entries.map (fun e => entry_text e.1 e.2.1)) '"' _ rfl
    have hlen : (e :: entries).length ≤
        (join_with [',', ' '] ((e :: entries).map (fun e => entry_text e.1 e.2.1)) ++
          '}' :: rest).length := by
      have h1 := join_with_length [',', ' '] ((e :: entries).map (fun e => entry_text e.1 e.2.1))
        (by
          intro x hx
          obtain ⟨y, _, rfl⟩ := List.mem_map.mp hx
          simp [entry_text])
      simp only [List.length_map] at h1
      simp only [List.length_append]
      omega
    have hloop := record_loop_entries P self level (e :: entries) (List.cons_ne_nil e entries)
      hall rest [] _ hlen
    simp only [List.map_cons] at hloop ⊢
    rw [hj] at hloop ⊢
    unfold parse_record
    rw [strip_leading_ws_cons_other (by decide)]
    simp only [ne_eq, not_true_eq_false, if_false, List.cons_append]
    rw [strip_leading_ws_cons_other (by decide)]
    simp only [if_neg (show ¬ '"' = '}' by decide)]
    exact hloop

theorem parses_as_simple (P : Platform) (k level : Nat) (sv : simple_value)
    (hrange : sv.in_range) :
    parses_as (parse_value P (parser P (k + 1))) level sv.text sv.to_value := by
  cases sv with
  | int n => exact parses_as_decimal P _ level n hrange
  | ints ns =>
    have hall : ∀ it ∈ ns.map (fun n => (decimal n, value.int64 n)),
        parses_as (parser P (k + 1)) (level + 1) it.1 it.2 := by
      intro it hit
      obtain ⟨n, hn, rfl⟩ := List.mem_map.mp hit
      exact parses_as_decimal P (parser P k) (level + 1) n (hrange n hn)
    have hpa := parses_as_list P (parser P (k + 1)) level
      (ns.map (fun n => (decimal n, value.int64 n))) hall
    have h1 : (ns.map (fun n => (decimal n, value.int64 n))).map Prod.fst = ns.map decimal := by
      simp [List.map_map, Function.comp_def]
    have h2 : (ns.map (fun n => (decimal n, value.int64 n))).map Prod.snd =
        ns.map value.int64 := by
      simp [List.map_map, Function.comp_def]
    rw [h1, h2] at hpa
    exact hpa

/-! ## Writes to a record -/

theorem record_write_new (r : record) (key : String) (v : value)
    (hnew : key ∉ r.map Prod.fst) : r.write (key, v) = r ++ [(key, v)] := by
  have hany : r.any (fun kv => kv.1 == key) = false := by
    rw [List.any_eq_false]
    intro kv hkv heq
    exact hnew (List.mem_map.mpr ⟨kv, hkv, by simpa using heq⟩)
  have hmap : r.map (fun kv => if kv.1 == key then (kv.1, v) else kv) = r := by
    have : ∀ kv ∈ r, (fun kv : String × value => if kv.1 == key then (kv.1, v) else kv) kv = kv := by
      intro kv hkv
      have hne : ¬ kv.1 = key := fun h => hnew (List.mem_map.mpr ⟨kv, hkv, h⟩)
      simp [hne]
    rw [List.map_congr_left this]
    simp
  show (if r.any (fun kv => kv.1 == key) then r else r ++ [(key, value.null)]).map
    (fun kv => if kv.1 == key then (kv.1, v) else kv) = r ++ [(key, v)]
  rw [hany]
  simp only [Bool.false_eq_true, if_false, List.map_append, hmap]
  simp

theorem foldl_write_distinct :
    ∀ (entries : List (String × value)) (r : record),
      (r.map Prod.fst ++ entries.map Prod.fst).Nodup →
      entries.foldl record.write r = r ++ entries := by
  intro entries
  induction entries with
  | nil => intro r _; simp
  | cons e entries ih =>
    intro r hnd
    have hnew : e.1 ∉ r.map Prod.fst := by
      intro hmem
      have := (List.nodup_append.mp hnd).2.2
      exact this hmem (by simp)
    have hnd' : ((r ++ [e]).map Prod.fst ++ entries.map Prod.fst).Nodup := by
      simpa [List.map_append, List.append_assoc] using hnd
    rw [List.foldl_cons, record_write_new r e.1 e.2 hnew, ih (r ++ [e]) hnd']
    simp

/-! ## Mappings with distinct keys -/

/-- C8: the text `{"k_1": v_1, ..., "k_m": v_m}` with pairwise distinct keys
that hold neither a double quote nor a backslash, and with values that are
signed 64-bit integers or lists of them, parses to a mapping of exactly `m`
entries in which every key `k_i` is mapped to the value of `v_i`. -/
theorem parse_record_distinct (P : Platform) (entries : List (List Char × simple_value))
    (hplain : ∀ e ∈ entries, ∀ c ∈ e.1, c ≠ '"' ∧ c ≠ '\\')
    (hdistinct : (entries.map Prod.fst).Nodup) (hrange : ∀ e ∈ entries, e.2.in_range) :
    ∃ r, parse P (record_text (entries.map (fun e => (e.1, e.2.text)))) =
        Outcome.value (value.record r) ∧
      r.length = entries.length ∧ (r.map Prod.fst).Nodup ∧
      ∀ e ∈ entries, (String.mk e.1, e.2.to_value) ∈ r := by
  have hkeys : (entries.map (fun e => String.mk e.1)).Nodup := by
    have hinj : Function.Injective String.mk := fun a b h => by injection h
    have := hdistinct.map hinj
    simpa [List.map_map, Function.comp_def] using this
  refine ⟨entries.map (fun e => (String.mk e.1, e.2.to_value)), ?_, by simp,
    by simpa [List.map_map, Function.comp_def] using hkeys, ?_⟩
  · obtain ⟨k, hk⟩ : ∃ k, (record_text (entries.map (fun e => (e.1, e.2.text)))).length = k + 2 :=
      ⟨(join_with [',', ' '] ((entries.map (fun e => (e.1, e.2.text))).map
        (fun e => entry_text e.1 e.2))).length, by simp [record_text]⟩
    have hall : ∀ e ∈ entries.map (fun e => (e.1, e.2.text, e.2.to_value)),
        (∀ c ∈ e.1, c ≠ '"' ∧ c ≠ '\\') ∧
          parses_as (parse_value P (parser P (k + 1))) (0 + 1) e.2.1 e.2.2 := by
      intro e he
      obtain ⟨x, hx, rfl⟩ := List.mem_map.mp he
      exact ⟨hplain x hx, parses_as_simple P k (0 + 1) x.2 (hrange x hx)⟩
    have hrec := parse_record_text P (parser P (k + 1)) 0
      (entries.map (fun e => (e.1, e.2.text, e.2.to_value))) hall []
    have hfold : (entries.map (fun e => (e.1, e.2.text, e.2.to_value))).foldl
        (fun (r : record) e => r.write (String.mk e.1, e.2.2)) [] =
        entries.map (fun e => (String.mk e.1, e.2.to_value)) := by
      rw [List.foldl_map]
      have h := foldl_write_distinct (entries.map (fun e => (String.mk e.1, e.2.to_value))) []
        (by simpa [List.map_map, Function.comp_def] using hkeys)
      rw [List.foldl_map] at h
      simpa using h
    rw [hfold] at hrec
    simp only [List.map_map, Function.comp_def, List.append_nil] at hrec
    have hrun : parser P ((record_text (entries.map (fun e => (e.1, e.2.text)))).length + 1)
        (record_text (entries.map (fun e => (e.1, e.2.text)))) value.null 0 =
        Run.ok (value.record (entries.map (fun e => (String.mk e.1, e.2.to_value)))) [] := by
      rw [hk]
      show parse_value P (parser P (k + 2)) _ _ _ = _
      have hopen : record_text (entries.map (fun e => (e.1, e.2.text))) =
          '{' :: (join_with [',', ' '] ((entries.map (fun e => (e.1, e.2.text))).map
            (fun e => entry_text e.1 e.2)) ++ ['}']) := rfl
      rw [hopen, parse_value_record, ← hopen]
      show (parse_record (parse_value P (parser P (k + 1))) _ [] 0).map value.record = _
      rw [hrec]
      rfl
    simp only [parse, hrun, strip_leading_ws]
  · intro e he
    exact List.mem_map.mpr ⟨e, he, rfl⟩

/-- C8 at `{"a": 1, "b": [2, 3]}`. -/
theorem parse_record_distinct_witness :
    ∃ r, parse Platform.gcc "\x7b\"a\": 1, \"b\": [2, 3]\x7d".toList =
        Outcome.value (value.record r) ∧
      r.length = 2 ∧ ("a", value.int64 1) ∈ r ∧
      ("b", value.list [value.int64 2, value.int64 3]) ∈ r := by
  obtain ⟨r, h1, h2, _, h4⟩ := parse_record_distinct Platform.gcc
    [(['a'], simple_value.int 1), (['b'], simple_value.ints [2, 3])]
    (by decide) (by decide) (by decide)
  exact ⟨r, h1, h2, h4 (['a'], simple_value.int 1) (by simp),
    h4 (['b'], simple_value.ints [2, 3]) (by simp)⟩

/-! ## The record loop and its entries -/

/-- What a call of `self` yields does not depend on what its output held
before the call. -/
theorem parser_out_independent (P : Platform) :
    ∀ (n : Nat) (source : List Char) (out out' : value) (level : Nat),
      parser P n source out level = parser P n source out' level := by
  intro n source out out' level
  cases n with
  | zero => rfl
  | succ n => rfl

theorem record_loop_eq_foldl (self : self_type)
    (hind : ∀ (source : List Char) (out out' : value) (level : Nat),
      self source out level = self source out' level) :
    ∀ (fuel : Nat) (source : List Char) (r : record) (level : Nat) (r' : record)
      (rest : List Char), record_loop self fuel source r level = Run.ok r' rest →
      r' = (record_entries self fuel source level).foldl record.write r := by
  intro fuel
  induction fuel with
  | zero =>
    intro source r level r' rest h
    cases source with
    | nil => simp [record_loop, record_close] at h
    | cons c tl => simp [record_loop] at h
  | succ fuel ih =>
    intro source r level r' rest h
    cases source with
    | nil => simp [record_loop, record_close] at h
    | cons c tl =>
      simp only [record_loop, record_entries, List.isEmpty_cons, Bool.false_eq_true, if_false]
        at h ⊢
      cases hk : parse_string (c :: tl) "" level with
      | error e => simp [hk] at h
      | undefined => simp [hk] at h
      | exhausted => simp [hk] at h
      | ok key s1 =>
        simp only [hk] at h ⊢
        cases hs1 : strip_leading_ws s1 with
        | nil => simp [hs1] at h
        | cons c1 s2 =>
          simp only [hs1] at h ⊢
          by_cases hc1 : c1 = ':'
          · subst hc1
            simp only [ne_eq, not_true_eq_false, if_false] at h ⊢
            rw [hind s2 value.null (record.slot (record.try_emplace r key) key) (level + 1)]
            cases hv : self s2 (record.slot (record.try_emplace r key) key) (level + 1) with
            | error e => simp [hv] at h
            | undefined => simp [hv] at h
            | exhausted => simp [hv] at h
            | ok v s3 =>
              simp only [hv] at h ⊢
              cases hs3 : strip_leading_ws s3 with
              | nil => simp [hs3] at h
              | cons c3 s4 =>
                simp only [hs3] at h ⊢
                cases hs5 : (if c3 = ',' then strip_leading_ws s4 else c3 :: s4) with
                | nil => simp [hs5] at h
                | cons c5 s6 =>
                  simp only [hs5] at h ⊢
                  by_cases hc5 : c5 = '}'
                  · subst hc5
                    simp only [if_true, record_close, Run.ok.injEq] at h
                    simp [← h.1, record.write]
                  · simp only [if_neg hc5] at h ⊢
                    rw [List.foldl_cons]
                    exact ih _ _ _ _ _ h
          · simp [hc1] at h

theorem record_assign_fst (key : String) (v : value) (kv : String × value) :
    (if kv.1 == key then (kv.1, v) else kv).1 = kv.1 := by
  by_cases h : (kv.1 == key) = true
  · rw [if_pos h]
  · rw [if_neg h]

theorem record_assign_keys (r : record) (key : String) (v : value) :
    (r.assign key v).map Prod.fst = r.map Prod.fst := by
  induction r with
  | nil => rfl
  | cons kv r ih =>
    show (if kv.1 == key then (kv.1, v) else kv).1 :: (record.assign r key v).map Prod.fst =
      kv.1 :: r.map Prod.fst
    rw [ih, record_assign_fst]

theorem record_write_keys (r : record) (kv : String × value) :
    (r.write kv).map Prod.fst =
      if kv.1 ∈ r.map Prod.fst then r.map Prod.fst else r.map Prod.fst ++ [kv.1] := by
  have hany : r.any (fun x => x.1 == kv.1) = true ↔ kv.1 ∈ r.map Prod.fst := by
    simp only [List.any_eq_true, beq_iff_eq, List.mem_map]
  rw [record.write, record_assign_keys, record.try_emplace]
  by_cases h : kv.1 ∈ r.map Prod.fst
  · rw [if_pos (hany.mpr h), if_pos h]
  · rw [if_neg (fun h' => h (hany.mp h')), if_neg h]
    simp

theorem record_write_nodup (r : record) (kv : String × value) (h : (r.map Prod.fst).Nodup) :
    ((r.write kv).map Prod.fst).Nodup := by
  rw [record_write_keys]
  by_cases hmem : kv.1 ∈ r.map Prod.fst
  · rw [if_pos hmem]
    exact h
  · rw [if_neg hmem]
    exact List.Nodup.append h (List.nodup_singleton _) (by simpa using hmem)

theorem foldl_write_nodup (tr : List (String × value)) :
    ∀ r : record, (r.map Prod.fst).Nodup → ((tr.foldl record.write r).map Prod.fst).Nodup := by
  induction tr with
  | nil => intro r h; exact h
  | cons kv tr ih => intro r h; exact ih _ (record_write_nodup r kv h)

theorem find_assign_other (r : record) (key key' : String) (v : value) (hne : key ≠ key') :
    (r.assign key v).find? (fun kv => kv.1 == key') = r.find? (fun kv => kv.1 == key') := by
  induction r with
  | nil => rfl
  | cons kv r ih =>
    show ((if kv.1 == key then (kv.1, v) else kv) :: record.assign r key v).find?
      (fun kv => kv.1 == key') = (kv :: r).find? (fun kv => kv.1 == key')
    by_cases h2 : kv.1 = key'
    · have hk : ¬ (kv.1 == key) = true := by
        rw [beq_iff_eq]
        exact fun h => hne (h.symm.trans h2)
      have h2b : (kv.1 == key') = true := by simpa using h2
      simp only [if_neg hk, List.find?_cons, h2b]
    · have hp : ((if kv.1 == key then (kv.1, v) else kv).1 == key') = false := by
        rw [record_assign_fst]
        simpa using h2
      have h2b : (kv.1 == key') = false := by simpa using h2
      simp only [List.find?_cons, hp, h2b, ih]

theorem find_assign_same (r : record) (key : String) (v : value)
    (hmem : key ∈ r.map Prod.fst) :
    (r.assign key v).find? (fun kv => kv.1 == key) = some (key, v) := by
  induction r with
  | nil => simp at hmem
  | cons kv r ih =>
    show ((if kv.1 == key then (kv.1, v) else kv) :: record.assign r key v).find?
      (fun kv => kv.1 == key) = some (key, v)
    by_cases h : kv.1 = key
    · have hk : (kv.1 == key) = true := by simpa using h
      rw [if_pos hk, List.find?_cons]
      simp only [hk, h, beq_self_eq_true]
    · have hk : ¬ (kv.1 == key) = true := by simpa using h
      have hmem' : key ∈ r.map Prod.fst := by
        simp only [List.map_cons, List.mem_cons] at hmem
        rcases hmem with h1 | h1
        · exact absurd h1.symm h
        · exact h1
      have hkb : (kv.1 == key) = false := by simpa using h
      rw [if_neg hk, List.find?_cons]
      simp only [hkb, ih hmem']

theorem find_try_emplace_other (r : record) (key key' : String) (hne : key ≠ key') :
    (r.try_emplace key).find? (fun kv => kv.1 == key') = r.find? (fun kv => kv.1 == key') := by
  unfold record.try_emplace
  by_cases h : r.any (fun kv => kv.1 == key) = true
  · rw [if_pos h]
  · rw [if_neg h, List.find?_append]
    simp [List.find?_cons, hne]

theorem find_write (r : record) (kv : String × value) (key' : String) :
    (r.write kv).find? (fun x => x.1 == key') =
      if kv.1 = key' then some kv else r.find? (fun x => x.1 == key') := by
  by_cases h : kv.1 = key'
  · rw [if_pos h, ← h, record.write]
    have hmem : kv.1 ∈ (r.try_emplace kv.1).map Prod.fst := by
      unfold record.try_emplace
      by_cases ha : r.any (fun x => x.1 == kv.1) = true
      · rw [if_pos ha]
        simp only [List.any_eq_true, beq_iff_eq] at ha
        obtain ⟨x, hx, hx1⟩ := ha
        exact List.mem_map.mpr ⟨x, hx, hx1⟩
      · rw [if_neg ha]
        simp
    rw [find_assign_same _ kv.1 kv.2 hmem]
  · rw [if_neg h, record.write, find_assign_other _ kv.1 key' kv.2 h,
      find_try_emplace_other r kv.1 key' h]

theorem find_foldl_write (key : String) (tr : List (String × value)) :
    ∀ r : record, (tr.foldl record.write r).find? (fun x => x.1 == key) =
      ((tr.reverse.find? (fun x => x.1 == key)).or (r.find? (fun x => x.1 == key))) := by
  induction tr with
  | nil => intro r; simp
  | cons kv tr ih =>
    intro r
    rw [List.foldl_cons, ih, find_write, List.reverse_cons, List.find?_append]
    by_cases h : kv.1 = key
    · simp [List.find?_cons, h, Option.or_assoc]
    · simp [List.find?_cons, h]

theorem run_map_ok {α β : Type} (f : α → β) (x : Run α) (b : β) (rest : List Char)
    (h : x.map f = Run.ok b rest) : ∃ a, x = Run.ok a rest ∧ f a = b := by
  cases x with
  | ok a s =>
    simp only [Run.map, Run.ok.injEq] at h
    exact ⟨a, by rw [h.2], h.1⟩
  | error e => simp [Run.map] at h
  | undefined => simp [Run.map] at h
  | exhausted => simp [Run.map] at h

/-- A mapping returned by `json::parse` is the result of the writes of the
entries of the outermost mapping of the input, performed in order on the empty
map. -/
theorem parse_record_entries (P : Platform) (source : List Char) (r : record)
    (h : parse P source = Outcome.value (value.record r)) :
    r = (parse_entries P source).foldl record.write [] := by
  unfold parse at h
  cases hrun : parser P (source.length + 1) source value.null 0 with
  | error e => simp [hrun] at h
  | undefined => simp [hrun] at h
  | exhausted => simp [hrun] at h
  | ok result rest' =>
    simp only [hrun] at h
    cases hs : strip_leading_ws rest' with
    | cons d tl => simp [hs] at h
    | nil =>
      simp only [hs, Outcome.value.injEq] at h
      subst h
      have hpv : parse_value P (parser P source.length) source value.null 0 =
          Run.ok (value.record r) rest' := hrun
      unfold parse_value at hpv
      unfold parse_entries
      cases hs0 : strip_leading_ws source with
      | nil => simp [hs0] at hpv
      | cons c rest =>
        simp only [hs0] at hpv ⊢
        by_cases hc : c = '{'
        · subst hc
          simp only [if_true, ne_eq, not_true_eq_false, if_false] at hpv ⊢
          obtain ⟨r1, hpr, hr1⟩ := run_map_ok _ _ _ _ hpv
          simp only [value.record.injEq] at hr1
          subst hr1
          unfold parse_record at hpr
          rw [strip_leading_ws_cons_other (by decide)] at hpr
          simp only [ne_eq, not_true_eq_false, if_false] at hpr
          cases hs1 : strip_leading_ws rest with
          | nil => simp [hs1] at hpr
          | cons c1 rest1 =>
            simp only [hs1] at hpr ⊢
            by_cases hc1 : c1 = '}'
            · simp only [if_pos hc1, Run.ok.injEq] at hpr ⊢
              rw [← hpr.1]
              rfl
            · simp only [if_neg hc1] at hpr ⊢
              exact record_loop_eq_foldl _ (parser_out_independent P source.length) _ _ _ _ _ _ hpr
        · simp only [if_neg hc] at hpv
          by_cases hc2 : c = '['
          · simp only [if_pos hc2] at hpv
            obtain ⟨_, _, hx⟩ := run_map_ok _ _ _ _ hpv
            simp at hx
          · simp only [if_neg hc2] at hpv
            by_cases hc3 : c = '"'
            · simp only [if_pos hc3] at hpv
              obtain ⟨_, _, hx⟩ := run_map_ok _ _ _ _ hpv
              simp at hx
            · simp [if_neg hc3, parse_int64] at hpv

/-! ## Repeated keys -/

/-- C9: last write wins, nothing left over.  What the value parser yields
never depends on what the slot held before.  So when `json::parse` returns a
mapping `r`, then for every key that occurs among the entries of the mapping
text, `r` has exactly one entry with that key, and it is the entry of the last
occurrence of the key in the text, holding exactly the value that the text of
that occurrence parses to on its own, into a default-constructed value. -/
theorem parse_last_write_wins (P : Platform) (source : List Char) (r : record)
    (h : parse P source = Outcome.value (value.record r)) :
    (∀ (n : Nat) (s : List Char) (out out' : value) (level : Nat),
      parser P n s out level = parser P n s out' level) ∧
    ∀ key ∈ (parse_entries P source).map Prod.fst,
      (r.map Prod.fst).count key = 1 ∧
        r.find? (fun kv => kv.1 == key) =
          (parse_entries P source).reverse.find? (fun kv => kv.1 == key) := by
  refine ⟨parser_out_independent P, ?_⟩
  intro key hkey
  have hr := parse_record_entries P source r h
  have hnd : (r.map Prod.fst).Nodup := by
    rw [hr]
    exact foldl_write_nodup _ [] (by simp)
  have hfind : r.find? (fun kv => kv.1 == key) =
      (parse_entries P source).reverse.find? (fun kv => kv.1 == key) := by
    rw [hr, find_foldl_write]
    simp
  refine ⟨?_, hfind⟩
  obtain ⟨kv, hkv, hk⟩ := List.mem_map.mp hkey
  have hsome : ((parse_entries P source).reverse.find? (fun x => x.1 == key)).isSome = true := by
    rw [List.find?_isSome]
    exact ⟨kv, List.mem_reverse.mpr hkv, by simpa using hk⟩
  rw [← hfind] at hsome
  obtain ⟨x, hx⟩ := Option.isSome_iff_exists.mp hsome
  have hxr : x ∈ r := List.mem_of_find?_eq_some hx
  have hxk : x.1 = key := by simpa using List.find?_some hx
  exact List.count_eq_one_of_mem hnd (List.mem_map.mpr ⟨x, hxr, hxk⟩)

/-- C9 at `{"a":[1,2],"a":[3]}` and at `{"a":1,"a":"x"}`: the key `a` occurs
twice; taken on their own the two occurrences hold `[1,2]` and `[3]`, and `1`
and `x`; the mapping holds one entry for `a`, with exactly the value of the
second occurrence. -/
theorem parse_last_write_wins_witness :
    (parse Platform.gcc "\x7b\"a\":[1,2],\"a\":[3]\x7d".toList =
        Outcome.value (value.record [("a", value.list [value.int64 3])]) ∧
      parse_entries Platform.gcc "\x7b\"a\":[1,2],\"a\":[3]\x7d".toList =
        [("a", value.list [value.int64 1, value.int64 2]), ("a", value.list [value.int64 3])] ∧
      ([("a", value.list [value.int64 3])].map Prod.fst).count "a" = 1 ∧
      [("a", value.list [value.int64 3])].find? (fun kv => kv.1 == "a") =
        some ("a", value.list [value.int64 3])) ∧
    (parse Platform.gcc "\x7b\"a\":1,\"a\":\"x\"\x7d".toList =
        Outcome.value (value.record [("a", value.string "x")]) ∧
      parse_entries Platform.gcc "\x7b\"a\":1,\"a\":\"x\"\x7d".toList =
        [("a", value.int64 1), ("a", value.string "x")] ∧
      ([("a", value.string "x")].map Prod.fst).count "a" = 1 ∧
      [("a", value.string "x")].find? (fun kv => kv.1 == "a") = some ("a", value.string "x")) :=
  ⟨⟨rfl, rfl,
      (parse_last_write_wins Platform.gcc "\x7b\"a\":[1,2],\"a\":[3]\x7d".toList
        [("a", value.list [value.int64 3])] rfl).2 "a" (by decide)⟩,
    ⟨rfl, rfl,
      (parse_last_write_wins Platform.gcc "\x7b\"a\":1,\"a\":\"x\"\x7d".toList
        [("a", value.string "x")] rfl).2 "a" (by decide)⟩⟩

/-! ## The whitespace helper -/

theorem strip_leading_ws_length_le (s : List Char) :
    (strip_leading_ws s).length ≤ s.length := by
  induction s with
  | nil => simp [strip_leading_ws]
  | cons c s ih =>
    by_cases hc : c ∈ whitespace
    · rw [strip_leading_ws_cons_ws hc]
      simp only [List.length_cons]
      omega
    · rw [strip_leading_ws_cons_other hc]

theorem strip_leading_ws_split (s : List Char) :
    ∃ p, s = p ++ strip_leading_ws s ∧ ∀ c ∈ p, c ∈ whitespace := by
  induction s with
  | nil => exact ⟨[], rfl, by simp⟩
  | cons c s ih =>
    by_cases hc : c ∈ whitespace
    · obtain ⟨p, hp, hpw⟩ := ih
      refine ⟨c :: p, ?_, ?_⟩
      · rw [strip_leading_ws_cons_ws hc, List.cons_append, ← hp]
      · intro d hd
        rcases List.mem_cons.mp hd with rfl | hd
        · exact hc
        · exact hpw d hd
    · exact ⟨[], by rw [strip_leading_ws_cons_other hc]; rfl, by simp⟩

theorem strip_leading_ws_head (s : List Char) :
    ∀ c, (strip_leading_ws s).head? = some c → c ∉ whitespace := by
  induction s with
  | nil => intro c h; simp [strip_leading_ws] at h
  | cons d s ih =>
    intro c h
    by_cases hd : d ∈ whitespace
    · rw [strip_leading_ws_cons_ws hd] at h
      exact ih c h
    · rw [strip_leading_ws_cons_other hd] at h
      simp only [List.head?_cons, Option.some.injEq] at h
      rw [← h]
      exact hd

theorem strip_leading_ws_idem (s : List Char) :
    strip_leading_ws (strip_leading_ws s) = strip_leading_ws s := by
  cases h : strip_leading_ws s with
  | nil => rfl
  | cons c tl =>
    have := strip_leading_ws_head s c (by rw [h]; rfl)
    exact strip_leading_ws_cons_other this tl

/-- C17: `strip_leading_ws s` is what remains of `s` after its longest prefix
of spaces, tabs and newlines: `s` is such a prefix followed by the result, the
result is empty or starts with another character, no prefix of such characters
leaves less, the function is idempotent, and a carriage return is not
skipped. -/
theorem strip_leading_ws_spec (s : List Char) :
    (∃ p, s = p ++ strip_leading_ws s ∧ ∀ c ∈ p, c ∈ whitespace) ∧
    (∀ c, (strip_leading_ws s).head? = some c → c ∉ whitespace) ∧
    (∀ p q, s = p ++ q → (∀ c ∈ p, c ∈ whitespace) →
      (strip_leading_ws s).length ≤ q.length) ∧
    strip_leading_ws (strip_leading_ws s) = strip_leading_ws s ∧
    strip_leading_ws ('\r' :: s) = '\r' :: s := by
  refine ⟨strip_leading_ws_split s, strip_leading_ws_head s, ?_, strip_leading_ws_idem s,
    strip_leading_ws_cons_other (by decide) s⟩
  intro p q hs hp
  rw [hs, strip_leading_ws_append p q hp]
  exact strip_leading_ws_length_le q

/-! ## Integers out of range -/

theorem from_chars_int64_out_of_range (neg : Bool) (ds rest : List Char) (v : Int) (hne : ds ≠ [])
    (hd : ∀ c ∈ ds, c.isDigit = true) (hr : no_digit_ahead rest)
    (hout : ¬ (-(2 : Int) ^ 63 ≤ literal_value neg ds ∧ literal_value neg ds < (2 : Int) ^ 63)) :
    from_chars_int64 (int_literal neg ds ++ rest) v =
      { ptr := (int_literal neg ds).length, ec := errc.result_out_of_range, value := v } := by
  have htw := takeWhile_isDigit_append ds rest hd hr
  have hemp : ds.isEmpty = false := by
    cases ds with
    | nil => exact absurd rfl hne
    | cons d ds => rfl
  cases neg with
  | true =>
    have hr' : ¬ (-(2 : Int) ^ 63 ≤ -(digits_value ds : Int) ∧
        -(digits_value ds : Int) < (2 : Int) ^ 63) := by
      simpa [literal_value, digits_value_eq_decimal_value] using hout
    show from_chars_int64 ('-' :: (ds ++ rest)) v = _
    rw [from_chars_int64_minus, htw, hemp, if_neg (by decide), if_neg hr']
    simp [int_literal, Nat.add_comm]
  | false =>
    have hr' : ¬ (-(2 : Int) ^ 63 ≤ (digits_value ds : Int) ∧
        (digits_value ds : Int) < (2 : Int) ^ 63) := by
      simpa [literal_value, digits_value_eq_decimal_value] using hout
    have hh : (ds ++ rest).head? ≠ some '-' := by
      obtain ⟨d, ds', rfl⟩ := List.exists_cons_of_ne_nil hne
      have hdd : d.isDigit = true := hd d (List.mem_cons_self d ds')
      intro h
      simp at h
      subst h
      exact absurd hdd (by decide)
    show from_chars_int64 (ds ++ rest) v = _
    rw [from_chars_int64_plain _ _ hh, htw, hemp, if_neg (by decide), if_neg hr']
    simp [int_literal]

/-- C20: an integer literal whose value lies outside the signed 64-bit range
parses to the integer 0: `from_chars` reports `result_out_of_range`, leaves the
freshly emplaced 0 in place and points behind the digits, and the dispatch
does not look at the status. -/
theorem parse_out_of_range (P : Platform) (ds : List Char) (neg : Bool) (hne : ds ≠ [])
    (hd : ∀ c ∈ ds, c.isDigit = true)
    (hout : ¬ (-(2 : Int) ^ 63 ≤ literal_value neg ds ∧ literal_value neg ds < (2 : Int) ^ 63)) :
    from_chars_int64 (int_literal neg ds) 0 =
        { ptr := (int_literal neg ds).length, ec := errc.result_out_of_range, value := 0 } ∧
      parse P (int_literal neg ds) = Outcome.value (value.int64 0) := by
  have hfc := from_chars_int64_out_of_range neg ds [] 0 hne hd (fun c hc => by simp at hc) hout
  rw [List.append_nil] at hfc
  refine ⟨hfc, ?_⟩
  obtain ⟨c, tail, hc, hcp⟩ := int_literal_head neg ds [] hne hd
  rw [List.append_nil] at hc
  obtain ⟨hws, h1, h2, h3⟩ := literal_head_plain hcp
  have hrun : parser P ((int_literal neg ds).length + 1) (int_literal neg ds) value.null 0 =
      Run.ok (value.int64 0) [] := by
    show parse_value P _ _ _ _ = _
    rw [hc] at hfc ⊢
    rw [parse_value_scalar P _ c tail _ _ hws h1 h2 h3, hfc]
    simp
  simp only [parse, hrun, strip_leading_ws]

/-- C20 at `99999999999999999999` and at `-9223372036854775809`. -/
theorem parse_out_of_range_witness :
    parse Platform.gcc "99999999999999999999".toList = Outcome.value (value.int64 0) ∧
      parse Platform.gcc "-9223372036854775809".toList = Outcome.value (value.int64 0) :=
  ⟨(parse_out_of_range Platform.gcc "99999999999999999999".toList false (by decide) (by decide)
      (by decide)).2,
    (parse_out_of_range Platform.gcc "9223372036854775809".toList true (by decide) (by decide)
      (by decide)).2⟩

/-! ## Tokens without a numeric start -/

theorem from_chars_int64_no_match (source : List Char) (v : Int)
    (hnum : ∀ neg ds rest, ds ≠ [] → (∀ d ∈ ds, d.isDigit = true) →
      source ≠ int_literal neg ds ++ rest) :
    from_chars_int64 source v = { ptr := 0, ec := errc.invalid_argument, value := v } := by
  have hempty : ∀ body : List Char, (∀ ds rest, ds ≠ [] → (∀ d ∈ ds, d.isDigit = true) →
      body ≠ ds ++ rest) → (body.takeWhile Char.isDigit).isEmpty = true := by
    intro body hb
    by_contra hne
    have hne' : body.takeWhile Char.isDigit ≠ [] := by
      intro h
      rw [h] at hne
      exact hne rfl
    exact hb (body.takeWhile Char.isDigit) (body.dropWhile Char.isDigit) hne'
      (fun d hd => List.mem_takeWhile_imp hd) (List.takeWhile_append_dropWhile _ _).symm
  by_cases hm : source.head? = some '-'
  · obtain ⟨body, rfl⟩ : ∃ body, source = '-' :: body := by
      cases source with
      | nil => simp at hm
      | cons c body =>
        simp only [List.head?_cons, Option.some.injEq] at hm
        exact ⟨body, by rw [hm]⟩
    rw [from_chars_int64_minus, hempty body (fun ds rest h1 h2 h3 =>
      hnum true ds rest h1 h2 (by rw [h3]; rfl)), if_pos rfl]
  · rw [from_chars_int64_plain source v hm, hempty source (fun ds rest h1 h2 h3 =>
      hnum false ds rest h1 h2 (by rw [h3]; rfl)), if_pos rfl]

/-- C11: a token that starts with a character other than whitespace, `{`, `[`
and `"` and does not start with an integer literal does not make
`json::parse` fail with a "Failed to parse value as" message: the integer scan
matches nothing, the dispatch returns the integer 0 all the same, and the
unconsumed token makes `json::parse` fail with "source does not end at end of
value". -/
theorem parse_no_numeric_start (P : Platform) (w : List Char) (c : Char) (tail : List Char)
    (hw : ∀ d ∈ w, d ∈ whitespace) (hws : c ∉ whitespace) (h1 : c ≠ '{') (h2 : c ≠ '[')
    (h3 : c ≠ '"')
    (hnum : ∀ neg ds rest, ds ≠ [] → (∀ d ∈ ds, d.isDigit = true) →
      c :: tail ≠ int_literal neg ds ++ rest) :
    parser P ((w ++ c :: tail).length + 1) (w ++ c :: tail) value.null 0 =
        Run.ok (value.int64 0) (c :: tail) ∧
      parse P (w ++ c :: tail) =
        Outcome.error { level := 0, message := "source does not end at end of value" } := by
  have hrun : parser P ((w ++ c :: tail).length + 1) (w ++ c :: tail) value.null 0 =
      Run.ok (value.int64 0) (c :: tail) := by
    show parse_value P _ _ _ _ = _
    rw [parse_value_strip P _ w _ _ _ hw, parse_value_scalar P _ c tail _ _ hws h1 h2 h3,
      from_chars_int64_no_match (c :: tail) 0 hnum]
    rfl
  refine ⟨hrun, ?_⟩
  simp only [parse, hrun, strip_leading_ws_cons_other hws]

/-- C11 at `abc`. -/
theorem parse_no_numeric_start_witness :
    parse Platform.gcc "abc".toList =
      Outcome.error { level := 0, message := "source does not end at end of value" } :=
  (parse_no_numeric_start Platform.gcc [] 'a' ['b', 'c'] (by decide) (by decide) (by decide)
    (by decide) (by decide) (by
      intro neg ds rest hne hd h
      obtain ⟨d, ds', rfl⟩ := List.exists_cons_of_ne_nil hne
      have hdd := hd d (List.mem_cons_self d ds')
      cases neg with
      | true => simp [int_literal] at h
      | false =>
        simp only [int_literal, Bool.false_eq_true, if_false, List.nil_append, List.cons_append,
          List.cons.injEq] at h
        rw [← h.1] at hdd
        exact absurd hdd (by decide))).2

/-! ## Keys without an opening quote -/

theorem parse_string_second_quote (c : Char) (rest : List Char) (s : String) (level : Nat) :
    parse_string (c :: '"' :: rest) s level = Run.ok "" rest := by
  have hlt : 1 < (c :: '"' :: rest).length := by simp
  have hfq : find_quote (c :: '"' :: rest) 1 = some 1 := by simp [find_quote]
  have hend : string_end (c :: '"' :: rest) (c :: '"' :: rest).length 1 = some (some 1) := by
    show string_end (c :: '"' :: rest) (rest.length + 1 + 1) 1 = _
    simp only [string_end, if_pos hlt, hfq, count_escaping]
    rfl
  have hge : ¬ 1 ≥ (c :: '"' :: rest).length := by simp
  simp only [parse_string, hend, if_neg hge]
  rfl

/-- C12: the string lambda does not fail when the first character of its span
is not a double quote: it never looks at that character, and on any span whose
second character is a double quote it returns the empty string.  So
`{a":1}` is not rejected with "failed to parse key: ..."; it parses to the
mapping with the single entry `"" -> 1`. -/
theorem parse_key_without_opening_quote (P : Platform) :
    (∀ (c : Char) (rest : List Char) (s : String) (level : Nat),
      parse_string (c :: '"' :: rest) s level = Run.ok "" rest) ∧
    parse P "\x7ba\":1\x7d".toList = Outcome.value (value.record [("", value.int64 1)]) :=
  ⟨parse_string_second_quote, rfl⟩

/-! ## Levels of errors -/

theorem parse_string_error (source : List Char) (s : String) (level : Nat) (e : parse_error)
    (h : parse_string source s level = Run.error e) :
    e = { level := level, message := "Expected string to end" } := by
  unfold parse_string at h
  cases hend : string_end source source.length 1 with
  | none => simp [hend] at h
  | some r =>
    cases r with
    | none =>
      simp only [hend, Run.error.injEq] at h
      exact h.symm
    | some q =>
      simp only [hend] at h
      by_cases hq : q ≥ source.length
      · simp only [if_pos hq, Run.error.injEq] at h
        exact h.symm
      · simp [if_neg hq] at h

/-- One unfolding of the record loop at a loop head whose key fails. -/
theorem record_loop_key_failure (self : self_type) (fuel : Nat) (source : List Char) (r : record)
    (L : Nat) (e : parse_error) (hne : source ≠ [])
    (hkey : parse_string source "" L = Run.error e) :
    e.level = L ∧
      record_loop self (fuel + 1) source r L =
        Run.error { level := L, message := "failed to parse key: " ++ e.message } := by
  have he := parse_string_error source "" L e hkey
  have hemp : source.isEmpty = false := by
    cases source with
    | nil => exact absurd rfl hne
    | cons c tl => rfl
  refine ⟨by rw [he], ?_⟩
  simp only [record_loop, hemp, Bool.false_eq_true, if_false, hkey]

theorem parser_open_brackets (P : Platform) (w : List Char) (hw : ∀ c ∈ w, c ∈ whitespace) :
    ∀ (n fuel : Nat) (out : value) (level : Nat), n < fuel →
      parser P fuel (List.replicate (n + 1) '[' ++ w) out level =
        Run.error { level := level + n, message := "expected list to end" } := by
  intro n
  induction n with
  | zero =>
    intro fuel out level hf
    obtain ⟨f, rfl⟩ : ∃ f, fuel = f + 1 := ⟨fuel - 1, by omega⟩
    show parse_value P (parser P f) ('[' :: w) out level = _
    rw [parse_value_list]
    simp only [parse_list, strip_leading_ws_cons_other (show '[' ∉ whitespace by decide),
      ne_eq, not_true_eq_false, if_false, strip_leading_ws_all w hw, Run.map, Nat.add_zero]
  | succ n ih =>
    intro fuel out level hf
    obtain ⟨f, rfl⟩ : ∃ f, fuel = f + 1 := ⟨fuel - 1, by omega⟩
    have hsrc : List.replicate (n + 1 + 1) '[' ++ w =
        '[' :: '[' :: (List.replicate n '[' ++ w) := rfl
    have hinner : List.replicate (n + 1) '[' ++ w = '[' :: (List.replicate n '[' ++ w) := rfl
    have hself := ih f value.null (level + 1) (by omega)
    rw [hinner] at hself
    show parse_value P (parser P f) (List.replicate (n + 1 + 1) '[' ++ w) out level = _
    rw [hsrc, parse_value_list]
    simp only [parse_list, strip_leading_ws_cons_other (show '[' ∉ whitespace by decide),
      ne_eq, not_true_eq_false, if_false, if_neg (show ¬ '[' = ']' by decide), list_loop,
      List.length_cons, List.isEmpty_cons, Bool.false_eq_true, hself, Run.map]
    simp only [parse_error.mk.injEq, Run.error.injEq, and_true]
    omega

/-- C14: the input of exactly `n ≥ 1` opening square brackets, optionally
followed by whitespace, fails with the error of level `n - 1` and the message
"expected list to end": every nesting adds one to the level, and the failure
of the innermost list is passed up unchanged. -/
theorem parse_open_brackets (P : Platform) (n : Nat) (w : List Char) (hn : 1 ≤ n)
    (hw : ∀ c ∈ w, c ∈ whitespace) :
    parse P (List.replicate n '[' ++ w) =
      Outcome.error { level := n - 1, message := "expected list to end" } := by
  obtain ⟨m, rfl⟩ : ∃ m, n = m + 1 := ⟨n - 1, by omega⟩
  have hrun := parser_open_brackets P w hw m ((List.replicate (m + 1) '[' ++ w).length + 1)
    value.null 0 (by simp; omega)
  simp only [parse, hrun]
  simp

/-- C14 at `[[[` followed by a space. -/
theorem parse_open_brackets_witness :
    parse Platform.gcc "[[[ ".toList =
      Outcome.error { level := 2, message := "expected list to end" } :=
  parse_open_brackets Platform.gcc 3 [' '] (by decide) (by decide)

/-! ## Separators of a mapping -/

theorem record_loop_step_sep (self : self_type) (fuel : Nat) (source : List Char) (r : record)
    (level : Nat) (key : String) (v : value) (s1 s2 s3 s4 s6 : List Char) (c3 c5 : Char)
    (hne : source ≠ []) (hkey : parse_string source "" level = Run.ok key s1)
    (hcolon : strip_leading_ws s1 = ':' :: s2)
    (hval : self s2 (record.slot (r.try_emplace key) key) (level + 1) = Run.ok v s3)
    (hs : strip_leading_ws s3 = c3 :: s4)
    (hnext : (if c3 = ',' then strip_leading_ws s4 else c3 :: s4) = c5 :: s6) :
    record_loop self (fuel + 1) source r level =
      if c5 = '}' then Run.ok (r.write (key, v)) s6
      else record_loop self fuel (c5 :: s6) (r.write (key, v)) level := by
  have he : source.isEmpty = false := by
    cases source with
    | nil => exact absurd rfl hne
    | cons c tl => rfl
  simp only [record_loop, he, Bool.false_eq_true, if_false, hkey, hcolon, ne_eq,
    not_true_eq_false, hval, hs, hnext, record_close, record.write]
  by_cases h5 : c5 = '}'
  · simp only [if_pos h5]
  · simp only [if_neg h5]

theorem separator_skip (s : List Char × Bool × List Char) (hs : separator_ok s) (c5 : Char)
    (s6 : List Char) (hw : c5 ∉ whitespace) (hc : c5 ≠ ',') :
    ∃ c3 s4, strip_leading_ws (separator_text s ++ c5 :: s6) = c3 :: s4 ∧
      (if c3 = ',' then strip_leading_ws s4 else c3 :: s4) = c5 :: s6 := by
  obtain ⟨w1, comma, w2⟩ := s
  obtain ⟨hw1, hw2⟩ := hs
  have hR : strip_leading_ws (w2 ++ c5 :: s6) = c5 :: s6 := by
    rw [strip_leading_ws_append w2 _ hw2, strip_leading_ws_cons_other hw]
  cases comma with
  | true =>
    refine ⟨',', w2 ++ c5 :: s6, ?_, ?_⟩
    · simp only [separator_text, if_true, List.append_assoc, List.singleton_append]
      rw [strip_leading_ws_append w1 _ hw1]
      exact strip_leading_ws_cons_other (show ',' ∉ whitespace by decide) _
    · rw [if_pos rfl, hR]
  | false =>
    refine ⟨c5, s6, ?_, ?_⟩
    · simp only [separator_text, Bool.false_eq_true, if_false, List.append_nil,
        List.append_assoc]
      rw [strip_leading_ws_append w1 _ hw1, hR]
    · rw [if_neg hc]

theorem separator_no_digit (s : List Char × Bool × List Char) (hs : separator_ok s) (c5 : Char)
    (s6 : List Char) (hd : c5.isDigit = false) :
    no_digit_ahead (separator_text s ++ c5 :: s6) := by
  obtain ⟨w1, comma, w2⟩ := s
  obtain ⟨hw1, hw2⟩ := hs
  have hws : ∀ x, x ∈ whitespace → x.isDigit = false := by
    intro x hx
    rcases (mem_whitespace_iff x).mp hx with rfl | rfl | rfl <;> rfl
  intro x hx
  cases w1 with
  | cons y w1' =>
    simp only [separator_text, List.cons_append, List.head?_cons, Option.some.injEq] at hx
    rw [← hx]
    exact hws y (hw1 y (List.mem_cons_self y w1'))
  | nil =>
    cases comma with
    | true =>
      simp only [separator_text, if_true, List.nil_append, List.singleton_append,
        List.cons_append, List.head?_cons, Option.some.injEq] at hx
      rw [← hx]
      rfl
    | false =>
      cases w2 with
      | cons y w2' =>
        simp only [separator_text, Bool.false_eq_true, if_false, List.nil_append,
          List.cons_append, List.head?_cons, Option.some.injEq] at hx
        rw [← hx]
        exact hws y (hw2 y (List.mem_cons_self y w2'))
      | nil =>
        simp only [separator_text, Bool.false_eq_true, if_false, List.nil_append,
          List.head?_cons, Option.some.injEq] at hx
        rw [← hx]
        exact hd

theorem separated_body_head (es : List (List Char × Int × (List Char × Bool × List Char)))
    (rest : List Char) :
    ∃ c5 s6, separated_body es ++ '}' :: rest = c5 :: s6 ∧ c5 ∉ whitespace ∧ c5 ≠ ',' ∧
      c5.isDigit = false ∧ (es = [] → c5 = '}' ∧ s6 = rest) ∧ (es ≠ [] → c5 ≠ '}') := by
  cases es with
  | nil => exact ⟨'}', rest, rfl, by decide, by decide, rfl, fun _ => ⟨rfl, rfl⟩,
      fun h => absurd rfl h⟩
  | cons e es =>
    exact ⟨'"', _, rfl, by decide, by decide, rfl, fun h => by simp at h, fun _ => by decide⟩

theorem separated_body_length (rest : List Char) :
    ∀ es : List (List Char × Int × (List Char × Bool × List Char)),
      es.length ≤ (separated_body es ++ '}' :: rest).length := by
  intro es
  induction es with
  | nil => simp
  | cons e es ih =>
    simp only [separated_body, List.length_append, List.length_cons] at ih ⊢
    omega

theorem record_loop_separated (P : Platform) (self : self_type) (level : Nat) :
    ∀ es : List (List Char × Int × (List Char × Bool × List Char)), es ≠ [] →
      (∀ e ∈ es, (∀ c ∈ e.1, c ≠ '"' ∧ c ≠ '\\') ∧
        (-(2 : Int) ^ 63 ≤ e.2.1 ∧ e.2.1 < (2 : Int) ^ 63) ∧ separator_ok e.2.2) →
      ∀ (rest : List Char) (r : record) (fuel : Nat), es.length ≤ fuel →
        record_loop (parse_value P self) fuel (separated_body es ++ '}' :: rest) r level =
          Run.ok ((es.map (fun e => (String.mk e.1, value.int64 e.2.1))).foldl record.write r)
            rest := by
  intro es
  induction es with
  | nil => intro h; exact absurd rfl h
  | cons e es ih =>
    intro _ hall rest r fuel hfuel
    obtain ⟨hplain, hrange, hsep⟩ := hall e (List.mem_cons_self e es)
    obtain ⟨f, rfl⟩ : ∃ f, fuel = f + 1 := ⟨fuel - 1, by simp at hfuel; omega⟩
    obtain ⟨c5, s6, hR, hw5, hc5, hd5, hnil, hcons⟩ := separated_body_head es rest
    obtain ⟨c3, s4, hstrip, hnext⟩ := separator_skip e.2.2 hsep c5 s6 hw5 hc5
    have hsrc : separated_body (e :: es) ++ '}' :: rest =
        '"' :: e.1 ++ '"' :: (':' :: (decimal e.2.1 ++ (separator_text e.2.2 ++ c5 :: s6))) := by
      simp only [separated_body, List.append_assoc, List.cons_append]
      rw [hR]
    have hval := (parses_as_decimal P self (level + 1) e.2.1 hrange).2
      (separator_text e.2.2 ++ c5 :: s6)
      (record.slot (record.try_emplace r (String.mk e.1)) (String.mk e.1))
      (separator_no_digit e.2.2 hsep c5 s6 hd5)
    rw [hsrc, record_loop_step_sep (parse_value P self) f _ r level (String.mk e.1)
      (value.int64 e.2.1) _ _ _ s4 s6 c3 c5 (by simp)
      (parse_string_plain e.1 _ "" level hplain)
      (strip_leading_ws_cons_other (by decide) _) hval hstrip hnext]
    cases es with
    | nil =>
      obtain ⟨rfl, rfl⟩ := hnil rfl
      rw [if_pos rfl]
      rfl
    | cons e2 es' =>
      rw [if_neg (hcons (by simp)), ← hR,
        ih (by simp) (fun x hx => hall x (List.mem_cons_of_mem e hx)) rest _ f
          (by simpa using hfuel)]
      rfl

theorem parse_separated (P : Platform)
    (es : List (List Char × Int × (List Char × Bool × List Char)))
    (hall : ∀ e ∈ es, (∀ c ∈ e.1, c ≠ '"' ∧ c ≠ '\\') ∧
      (-(2 : Int) ^ 63 ≤ e.2.1 ∧ e.2.1 < (2 : Int) ^ 63) ∧ separator_ok e.2.2) :
    parse P (separated_text es) =
      Outcome.value (value.record
        ((es.map (fun e => (String.mk e.1, value.int64 e.2.1))).foldl record.write [])) := by
  obtain ⟨k, hk⟩ : ∃ k, (separated_text es).length = k + 2 :=
    ⟨(separated_body es).length, by simp [separated_text]⟩
  obtain ⟨c5, s6, hR, hw5, _, _, hnil, hcons⟩ := separated_body_head es []
  have hrun : parser P ((separated_text es).length + 1) (separated_text es) value.null 0 =
      Run.ok (value.record
        ((es.map (fun e => (String.mk e.1, value.int64 e.2.1))).foldl record.write [])) [] := by
    rw [hk]
    show parse_value P (parser P (k + 2)) ('{' :: (separated_body es ++ ['}'])) value.null 0 = _
    rw [parse_value_record]
    unfold parse_record
    rw [strip_leading_ws_cons_other (by decide)]
    simp only [ne_eq, not_true_eq_false, if_false, hR]
    rw [strip_leading_ws_cons_other hw5]
    cases es with
    | nil =>
      obtain ⟨rfl, rfl⟩ := hnil rfl
      rfl
    | cons e es' =>
      simp only [if_neg (hcons (by simp))]
      have hlen := separated_body_length [] (e :: es')
      rw [hR] at hlen
      have hloop := record_loop_separated P (parser P (k + 1)) 0 (e :: es') (by simp) hall []
        [] (c5 :: s6).length hlen
      rw [hR] at hloop
      show (record_loop (parse_value P (parser P (k + 1))) _ _ _ _).map value.record = _
      rw [hloop]
      rfl
  simp only [parse, hrun, strip_leading_ws]

/-- C15: in a mapping text with plain string keys and integer values, the
comma behind an entry is optional: whatever separator stands behind each
entry (whitespace, with or without a comma in it), the text parses to the same
mapping.  With the left separators `,` before `}` and the right ones without
it this is the dangling comma; with whitespace in place of the comma between
two entries it is the omitted comma. -/
theorem parse_record_separators (P : Platform)
    (es : List (List Char × Int × (List Char × Bool × List Char) × (List Char × Bool × List Char)))
    (hall : ∀ e ∈ es, (∀ c ∈ e.1, c ≠ '"' ∧ c ≠ '\\') ∧
      (-(2 : Int) ^ 63 ≤ e.2.1 ∧ e.2.1 < (2 : Int) ^ 63) ∧
      separator_ok e.2.2.1 ∧ separator_ok e.2.2.2) :
    parse P (separated_text (es.map (fun e => (e.1, e.2.1, e.2.2.1)))) =
        parse P (separated_text (es.map (fun e => (e.1, e.2.1, e.2.2.2)))) ∧
      ∃ r, parse P (separated_text (es.map (fun e => (e.1, e.2.1, e.2.2.1)))) =
        Outcome.value (value.record r) := by
  have h1 := parse_separated P (es.map (fun e => (e.1, e.2.1, e.2.2.1))) (by
    intro e he
    obtain ⟨x, hx, rfl⟩ := List.mem_map.mp he
    obtain ⟨a, b, c, _⟩ := hall x hx
    exact ⟨a, b, c⟩)
  have h2 := parse_separated P (es.map (fun e => (e.1, e.2.1, e.2.2.2))) (by
    intro e he
    obtain ⟨x, hx, rfl⟩ := List.mem_map.mp he
    obtain ⟨a, b, _, d⟩ := hall x hx
    exact ⟨a, b, d⟩)
  simp only [List.map_map, Function.comp_def] at h1 h2
  exact ⟨by rw [h1, h2], _, h1⟩

/-- C15 at `{"a":1,}` against `{"a":1}` and at `{"a":1 "b":2}` against
`{"a":1,"b":2}`. -/
theorem parse_record_separators_witness :
    parse Platform.gcc "\x7b\"a\":1,\x7d".toList = parse Platform.gcc "\x7b\"a\":1\x7d".toList ∧
      parse Platform.gcc "\x7b\"a\":1 \"b\":2\x7d".toList =
        parse Platform.gcc "\x7b\"a\":1,\"b\":2\x7d".toList :=
  ⟨(parse_record_separators Platform.gcc [(['a'], 1, ([], true, []), ([], false, []))]
      (by decide)).1,
    (parse_record_separators Platform.gcc
      [(['a'], 1, ([' '], false, []), ([], true, [])),
        (['b'], 2, ([], false, []), ([], false, []))] (by decide)).1⟩

/-! ## No floating-point value, no numeric error -/

theorem run_map_error {α β : Type} (f : α → β) (x : Run α) (e : parse_error)
    (h : x.map f = Run.error e) : x = Run.error e := by
  cases x with
  | ok a s => simp [Run.map] at h
  | error e' =>
    simp only [Run.map, Run.error.injEq] at h
    rw [h]
  | undefined => simp [Run.map] at h
  | exhausted => simp [Run.map] at h

theorem list_has_double_false (l : List value) :
    list_has_double l = false ↔ ∀ v ∈ l, v.has_double = false := by
  induction l with
  | nil => simp [list_has_double]
  | cons v l ih => simp [list_has_double, ih]

theorem record_has_double_false (r : List (String × value)) :
    record_has_double r = false ↔ ∀ kv ∈ r, kv.2.has_double = false := by
  induction r with
  | nil => simp [record_has_double]
  | cons kv r ih => simp [record_has_double, ih]

theorem record_write_has_double (r : record) (key : String) (v : value)
    (hr : record_has_double r = false) (hv : v.has_double = false) :
    record_has_double ((r.try_emplace key).assign key v) = false := by
  rw [record_has_double_false] at hr ⊢
  intro kv hkv
  simp only [record.assign, List.mem_map] at hkv
  obtain ⟨x, hx, rfl⟩ := hkv
  have hx' : x.2.has_double = false := by
    unfold record.try_emplace at hx
    by_cases ha : r.any (fun kv => kv.1 == key) = true
    · rw [if_pos ha] at hx
      exact hr x hx
    · rw [if_neg ha] at hx
      rcases List.mem_append.mp hx with h | h
      · exact hr x h
      · simp only [List.mem_singleton] at h
        rw [h]
        rfl
  by_cases hk : (x.1 == key) = true
  · rw [if_pos hk]
    exact hv
  · rw [if_neg hk]
    exact hx'

theorem list_loop_integer_only (self : self_type) (hself : integer_only self) :
    ∀ (fuel : Nat) (source : List Char) (l : list) (level : Nat),
      list_has_double l = false →
      (∀ l' rest, list_loop self fuel source l level = Run.ok l' rest →
        list_has_double l' = false) ∧
      (∀ e, list_loop self fuel source l level = Run.error e →
        e.message.data.head? ≠ some 'F') := by
  intro fuel
  induction fuel with
  | zero =>
    intro source l level hl
    cases source with
    | nil => simp [list_loop, list_close]
    | cons c tl => simp [list_loop]
  | succ fuel ih =>
    intro source l level hl
    cases source with
    | nil => simp [list_loop, list_close]
    | cons c tl =>
      simp only [list_loop, List.isEmpty_cons, Bool.false_eq_true, if_false]
      obtain ⟨hok, herr⟩ := hself (c :: tl) value.null (level + 1)
      cases hs : self (c :: tl) value.null (level + 1) with
      | error e =>
        refine ⟨fun l' rest h => by simp at h, fun e' h => ?_⟩
        simp only [Run.error.injEq] at h
        rw [← h]
        exact herr e hs
      | undefined => simp
      | exhausted => simp
      | ok v s1 =>
        have hl' : list_has_double (l ++ [v]) = false := by
          rw [list_has_double_false] at hl ⊢
          intro x hx
          rcases List.mem_append.mp hx with h | h
          · exact hl x h
          · simp only [List.mem_singleton] at h
            rw [h]
            exact hok v s1 hs
        simp only []
        cases hs1 : strip_leading_ws s1 with
        | nil => simp
        | cons c1 s2 =>
          simp only []
          by_cases hc1 : c1 = ']'
          · simp only [if_pos hc1, list_close, Run.ok.injEq, and_imp]
            constructor
            · intro l' rest h1 _
              rw [← h1]
              exact hl'
            · intro e h
              simp at h
          · simp only [if_neg hc1]
            by_cases hc2 : c1 = ','
            · simp only [ne_eq, hc2, not_true_eq_false, if_false]
              exact ih _ _ _ hl'
            · simp only [ne_eq, hc2, not_false_eq_true, if_true]
              constructor
              · intro l' rest h
                simp at h
              · intro e h
                simp only [Run.error.injEq] at h
                rw [← h]
                show "expected ',' or ']'".data.head? ≠ some 'F'
                decide

theorem parse_list_integer_only (self : self_type) (hself : integer_only self)
    (source : List Char) (level : Nat) :
    (∀ l' rest, parse_list self source [] level = Run.ok l' rest →
      list_has_double l' = false) ∧
    (∀ e, parse_list self source [] level = Run.error e →
      e.message.data.head? ≠ some 'F') := by
  unfold parse_list
  cases hs : strip_leading_ws source with
  | nil =>
    refine ⟨fun l' rest h => by simp at h, fun e h => ?_⟩
    simp only [Run.error.injEq] at h
    rw [← h]
    show "expected list to start".data.head? ≠ some 'F'
    decide
  | cons c rest =>
    simp only []
    by_cases hc : c = '['
    · simp only [ne_eq, hc, not_true_eq_false, if_false]
      cases hs1 : strip_leading_ws rest with
      | nil =>
        refine ⟨fun l' rest h => by simp at h, fun e h => ?_⟩
        simp only [Run.error.injEq] at h
        rw [← h]
        show "expected list to end".data.head? ≠ some 'F'
        decide
      | cons c1 rest1 =>
        simp only []
        by_cases hc1 : c1 = ']'
        · simp only [if_pos hc1]
          refine ⟨fun l' rest h => ?_, fun e h => by simp at h⟩
          simp only [Run.ok.injEq] at h
          rw [← h.1]
          rfl
        · simp only [if_neg hc1]
          exact list_loop_integer_only self hself _ _ _ _ rfl
    · simp only [ne_eq, hc, not_false_eq_true, if_true]
      refine ⟨fun l' rest h => by simp at h, fun e h => ?_⟩
      simp only [Run.error.injEq] at h
      rw [← h]
      show "expected list to start".data.head? ≠ some 'F'
      decide

theorem record_loop_integer_only (self : self_type) (hself : integer_only self) :
    ∀ (fuel : Nat) (source : List Char) (r : record) (level : Nat),
      record_has_double r = false →
      (∀ r' rest, record_loop self fuel source r level = Run.ok r' rest →
        record_has_double r' = false) ∧
      (∀ e, record_loop self fuel source r level = Run.error e →
        e.message.data.head? ≠ some 'F') := by
  intro fuel
  induction fuel with
  | zero =>
    intro source r level hr
    cases source with
    | nil => simp [record_loop, record_close]
    | cons c tl => simp [record_loop]
  | succ fuel ih =>
    intro source r level hr
    cases source with
    | nil => simp [record_loop, record_close]
    | cons c tl =>
      simp only [record_loop, List.isEmpty_cons, Bool.false_eq_true, if_false]
      cases hk : parse_string (c :: tl) "" level with
      | error e =>
        refine ⟨fun r' rest h => by simp at h, fun e' h => ?_⟩
        simp only [Run.error.injEq] at h
        rw [← h]
        show ("failed to parse key: " ++ e.message).data.head? ≠ some 'F'
        rw [String.data_append]
        show (('f' :: "ailed to parse key: ".data) ++ e.message.data).head? ≠ some 'F'
        rw [List.cons_append, List.head?_cons]
        decide
      | undefined => simp
      | exhausted => simp
      | ok key s1 =>
        simp only []
        cases hs1 : strip_leading_ws s1 with
        | nil => simp
        | cons c1 s2 =>
          simp only []
          by_cases hc1 : c1 = ':'
          · simp only [ne_eq, hc1, not_true_eq_false, if_false]
            obtain ⟨hok, herr⟩ :=
              hself s2 (record.slot (record.try_emplace r key) key) (level + 1)
            cases hv : self s2 (record.slot (record.try_emplace r key) key) (level + 1) with
            | error e =>
              refine ⟨fun r' rest h => by simp at h, fun e' h => ?_⟩
              simp only [Run.error.injEq] at h
              rw [← h]
              exact herr e hv
            | undefined => simp
            | exhausted => simp
            | ok v s3 =>
              have hr' := record_write_has_double r key v hr (hok v s3 hv)
              simp only []
              cases hs3 : strip_leading_ws s3 with
              | nil => simp
              | cons c3 s4 =>
                simp only []
                cases hs5 : (if c3 = ',' then strip_leading_ws s4 else c3 :: s4) with
                | nil => simp
                | cons c5 s6 =>
                  simp only []
                  by_cases hc5 : c5 = '}'
                  · simp only [if_pos hc5, record_close]
                    refine ⟨fun r' rest h => ?_, fun e h => by simp at h⟩
                    simp only [Run.ok.injEq] at h
                    rw [← h.1]
                    exact hr'
                  · simp only [if_neg hc5]
                    exact ih _ _ _ hr'
          · simp only [ne_eq, hc1, not_false_eq_true, if_true]
            refine ⟨fun r' rest h => by simp at h, fun e h => ?_⟩
            simp only [Run.error.injEq] at h
            rw [← h]
            show "expected ':'".data.head? ≠ some 'F'
            decide

theorem parse_record_integer_only (self : self_type) (hself : integer_only self)
    (source : List Char) (level : Nat) :
    (∀ r' rest, parse_record self source [] level = Run.ok r' rest →
      record_has_double r' = false) ∧
    (∀ e, parse_record self source [] level = Run.error e →
      e.message.data.head? ≠ some 'F') := by
  unfold parse_record
  cases hs : strip_leading_ws source with
  | nil =>
    refine ⟨fun l' rest h => by simp at h, fun e h => ?_⟩
    simp only [Run.error.injEq] at h
    rw [← h]
    show "expected record to start".data.head? ≠ some 'F'
    decide
  | cons c rest =>
    simp only []
    by_cases hc : c = '{'
    · simp only [ne_eq, hc, not_true_eq_false, if_false]
      cases hs1 : strip_leading_ws rest with
      | nil =>
        refine ⟨fun l' rest h => by simp at h, fun e h => ?_⟩
        simp only [Run.error.injEq] at h
        rw [← h]
        show "expected record to end".data.head? ≠ some 'F'
        decide
      | cons c1 rest1 =>
        simp only []
        by_cases hc1 : c1 = '}'
        · simp only [if_pos hc1]
          refine ⟨fun l' rest h => ?_, fun e h => by simp at h⟩
          simp only [Run.ok.injEq] at h
          rw [← h.1]
          rfl
        · simp only [if_neg hc1]
          exact record_loop_integer_only self hself _ _ _ _ rfl
    · simp only [ne_eq, hc, not_false_eq_true, if_true]
      refine ⟨fun l' rest h => by simp at h, fun e h => ?_⟩
      simp only [Run.error.injEq] at h
      rw [← h]
      show "expected record to start".data.head? ≠ some 'F'
      decide

theorem parse_value_integer_only (P : Platform) (self : self_type) (hself : integer_only self) :
    integer_only (parse_value P self) := by
  intro source out level
  unfold parse_value
  cases hs : strip_leading_ws source with
  | nil =>
    refine ⟨fun v rest h => ?_, fun e h => by simp at h⟩
    simp only [Run.ok.injEq] at h
    rw [← h.1]
    rfl
  | cons c rest =>
    simp only []
    by_cases h1 : c = '{'
    · simp only [if_pos h1]
      obtain ⟨hok, herr⟩ := parse_record_integer_only self hself (c :: rest) level
      refine ⟨fun v rest' h => ?_, fun e h => herr e (run_map_error _ _ _ h)⟩
      obtain ⟨r', hr', hv⟩ := run_map_ok _ _ _ _ h
      rw [← hv]
      exact hok r' rest' hr'
    · simp only [if_neg h1]
      by_cases h2 : c = '['
      · simp only [if_pos h2]
        obtain ⟨hok, herr⟩ := parse_list_integer_only self hself (c :: rest) level
        refine ⟨fun v rest' h => ?_, fun e h => herr e (run_map_error _ _ _ h)⟩
        obtain ⟨l', hl', hv⟩ := run_map_ok _ _ _ _ h
        rw [← hv]
        exact hok l' rest' hl'
      · simp only [if_neg h2]
        by_cases h3 : c = '"'
        · simp only [if_pos h3]
          refine ⟨fun v rest' h => ?_, fun e h => ?_⟩
          · obtain ⟨s', _, hv⟩ := run_map_ok _ _ _ _ h
            rw [← hv]
            rfl
          · rw [parse_string_error _ _ _ e (run_map_error _ _ _ h)]
            show "Expected string to end".data.head? ≠ some 'F'
            decide
        · simp only [if_neg h3, parse_int64, Option.isSome_some, if_true]
          refine ⟨fun v rest' h => ?_, fun e h => by simp at h⟩
          simp only [Run.ok.injEq] at h
          rw [← h.1]
          rfl

theorem parser_integer_only (P : Platform) : ∀ fuel, integer_only (parser P fuel) := by
  intro fuel
  induction fuel with
  | zero =>
    intro source out level
    simp [parser]
  | succ fuel ih => exact parse_value_integer_only P (parser P fuel) ih

theorem begins_with_failed_head (message : String) (h : begins_with_failed message) :
    message.data.head? = some 'F' := by
  unfold begins_with_failed at h
  cases hm : message.data with
  | nil =>
    rw [hm] at h
    exact absurd h (by decide)
  | cons c tl =>
    rw [hm] at h
    have hc : c = 'F' := by
      have := congrArg List.head? h
      simpa using this
    rw [hc]
    rfl

/-- C18: no value `json::parse` returns holds the floating-point variant
anywhere in its tree, and no error it returns has a message that begins with
"Failed to parse value as"; on a token that starts with none of `{`, `[`, `"`
the dispatch returns an integer, whatever the token is. -/
theorem parse_integer_only (P : Platform) (source : List Char) :
    (∀ v, parse P source = Outcome.value v → v.has_double = false) ∧
    (∀ e, parse P source = Outcome.error e → ¬ begins_with_failed e.message) ∧
    (∀ (self : self_type) (c : Char) (tail : List Char) (out : value) (level : Nat),
      c ∉ whitespace → c ≠ '{' → c ≠ '[' → c ≠ '"' →
        ∃ i rest, parse_value P self (c :: tail) out level = Run.ok (value.int64 i) rest) := by
  obtain ⟨hok, herr⟩ := parser_integer_only P (source.length + 1) source value.null 0
  refine ⟨?_, ?_, ?_⟩
  · intro v h
    unfold parse at h
    cases hrun : parser P (source.length + 1) source value.null 0 with
    | error e => simp [hrun] at h
    | undefined => simp [hrun] at h
    | exhausted => simp [hrun] at h
    | ok result rest =>
      simp only [hrun] at h
      cases hs : strip_leading_ws rest with
      | nil =>
        simp only [hs, Outcome.value.injEq] at h
        rw [← h]
        exact hok result rest hrun
      | cons d tl => simp [hs] at h
  · intro e h hb
    have hF := begins_with_failed_head e.message hb
    unfold parse at h
    cases hrun : parser P (source.length + 1) source value.null 0 with
    | error e' =>
      simp only [hrun, Outcome.error.injEq] at h
      rw [← h] at hF
      exact herr e' hrun hF
    | undefined => simp [hrun] at h
    | exhausted => simp [hrun] at h
    | ok result rest =>
      simp only [hrun] at h
      cases hs : strip_leading_ws rest with
      | nil => simp [hs] at h
      | cons d tl =>
        simp only [hs, Outcome.error.injEq] at h
        rw [← h] at hF
        exact absurd hF (by decide)
  · intro self c tail out level hws h1 h2 h3
    exact ⟨_, _, parse_value_scalar P self c tail out level hws h1 h2 h3⟩

/-! ## Termination -/

theorem string_end_not_none (source : List Char) :
    ∀ fuel e, source.length ≤ fuel + e → string_end source fuel e ≠ none := by
  intro fuel
  induction fuel with
  | zero =>
    intro e h
    have hge : ¬ e < source.length := by omega
    simp only [string_end, if_neg hge]
    simp
  | succ f ih =>
    intro e h
    by_cases hlt : e < source.length
    · cases hfq : find_quote source e with
      | none =>
        simp only [string_end, if_pos hlt, hfq]
        simp
      | some q =>
        obtain ⟨hq1, _, _⟩ := find_quote_some hfq
        by_cases hev : count_escaping source (q - 1) % 2 = 0
        · simp only [string_end, if_pos hlt, hfq, if_pos hev]
          simp
        · simp only [string_end, if_pos hlt, hfq, if_neg hev]
          exact ih (q + 1) (by omega)
    · simp only [string_end, if_neg hlt]
      simp

theorem string_end_ge (source : List Char) :
    ∀ fuel e q, string_end source fuel e = some (some q) → e ≤ q := by
  intro fuel
  induction fuel with
  | zero =>
    intro e q h
    by_cases hlt : e < source.length
    · simp [string_end, if_pos hlt] at h
    · simp only [string_end, if_neg hlt, Option.some.injEq] at h
      omega
  | succ f ih =>
    intro e q h
    by_cases hlt : e < source.length
    · cases hfq : find_quote source e with
      | none => simp [string_end, if_pos hlt, hfq] at h
      | some q' =>
        obtain ⟨hq1, _, _⟩ := find_quote_some hfq
        by_cases hev : count_escaping source (q' - 1) % 2 = 0
        · simp only [string_end, if_pos hlt, hfq, if_pos hev, Option.some.injEq] at h
          omega
        · simp only [string_end, if_pos hlt, hfq, if_neg hev] at h
          have := ih (q' + 1) q h
          omega
    · simp only [string_end, if_neg hlt, Option.some.injEq] at h
      omega

/-- The string lambda terminates, and a key or string it accepts takes at
least two characters off the span. -/
theorem parse_string_productive (source : List Char) (s : String) (level : Nat) :
    parse_string source s level ≠ Run.exhausted ∧
      ∀ key rest, parse_string source s level = Run.ok key rest →
        rest.length + 2 ≤ source.length := by
  unfold parse_string
  cases hend : string_end source source.length 1 with
  | none => exact absurd hend (string_end_not_none source source.length 1 (by omega))
  | some r =>
    cases r with
    | none => simp
    | some e =>
      have he := string_end_ge source source.length 1 e hend
      simp only []
      by_cases hge : e ≥ source.length
      · simp [if_pos hge]
      · simp only [if_neg hge, ne_eq, not_false_eq_true, Run.ok.injEq, and_imp, true_and,
          reduceCtorEq]
        intro key rest _ hrest
        rw [← hrest, List.length_drop]
        omega

theorem list_loop_productive (n : Nat) (self : self_type) (hself : productive n self) :
    ∀ (fuel : Nat) (source : List Char) (l : list) (level : Nat),
      source.length < n → source.length ≤ fuel →
      list_loop self fuel source l level ≠ Run.exhausted ∧
        ∀ l' rest, list_loop self fuel source l level = Run.ok l' rest →
          rest.length ≤ source.length := by
  intro fuel
  induction fuel with
  | zero =>
    intro source l level _ hf
    cases source with
    | nil => simp [list_loop, list_close]
    | cons c tl => simp at hf
  | succ fuel ih =>
    intro source l level hn hf
    cases source with
    | nil => simp [list_loop, list_close]
    | cons c tl =>
      simp only [list_loop, List.isEmpty_cons, Bool.false_eq_true, if_false]
      obtain ⟨hex, hlen⟩ := hself (c :: tl) value.null (level + 1) hn
      cases hs : self (c :: tl) value.null (level + 1) with
      | error e => simp
      | undefined => simp
      | exhausted => exact absurd hs hex
      | ok v s1 =>
        have h1 := hlen v s1 hs
        have h2 := strip_leading_ws_length_le s1
        simp only []
        cases hs1 : strip_leading_ws s1 with
        | nil => simp
        | cons c1 s2 =>
          rw [hs1] at h2
          simp only [List.length_cons] at h1 h2 hn hf
          simp only []
          by_cases hc1 : c1 = ']'
          · simp only [if_pos hc1, list_close, ne_eq, not_false_eq_true, Run.ok.injEq, and_imp,
              true_and, reduceCtorEq, List.length_cons]
            intro l' rest _ hrest
            rw [← hrest]
            omega
          · simp only [if_neg hc1]
            by_cases hc2 : c1 = ','
            · simp only [ne_eq, hc2, not_true_eq_false, if_false]
              have h3 := strip_leading_ws_length_le s2
              obtain ⟨hex', hlen'⟩ := ih (strip_leading_ws s2) (l ++ [v]) level (by omega)
                (by omega)
              refine ⟨hex', fun l' rest h => ?_⟩
              have := hlen' l' rest h
              simp only [List.length_cons]
              omega
            · simp [hc2]

theorem parse_list_productive (n : Nat) (self : self_type) (hself : productive n self)
    (source : List Char) (l : list) (level : Nat) (hn : source.length ≤ n) :
    parse_list self source l level ≠ Run.exhausted ∧
      ∀ l' rest, parse_list self source l level = Run.ok l' rest →
        rest.length ≤ source.length := by
  have h0 := strip_leading_ws_length_le source
  unfold parse_list
  cases hs : strip_leading_ws source with
  | nil => simp
  | cons c rest =>
    rw [hs] at h0
    simp only [List.length_cons] at h0
    simp only []
    by_cases hc : c = '['
    · simp only [ne_eq, hc, not_true_eq_false, if_false]
      have h1 := strip_leading_ws_length_le rest
      cases hs1 : strip_leading_ws rest with
      | nil => simp
      | cons c1 rest1 =>
        rw [hs1] at h1
        simp only [List.length_cons] at h1
        simp only []
        by_cases hc1 : c1 = ']'
        · simp only [if_pos hc1, ne_eq, not_false_eq_true, Run.ok.injEq, and_imp, true_and,
            reduceCtorEq]
          intro l' rest' _ hrest
          rw [← hrest]
          omega
        · simp only [if_neg hc1]
          obtain ⟨hex, hlen⟩ := list_loop_productive n self hself (c1 :: rest1).length
            (c1 :: rest1) l level (by simp only [List.length_cons]; omega) (Nat.le_refl _)
          refine ⟨hex, fun l' rest' h => ?_⟩
          have := hlen l' rest' h
          simp only [List.length_cons] at this
          omega
    · simp [hc]

theorem record_loop_productive (n : Nat) (self : self_type) (hself : productive n self) :
    ∀ (fuel : Nat) (source : List Char) (r : record) (level : Nat),
      source.length < n → source.length ≤ fuel →
      record_loop self fuel source r level ≠ Run.exhausted ∧
        ∀ r' rest, record_loop self fuel source r level = Run.ok r' rest →
          rest.length ≤ source.length := by
  intro fuel
  induction fuel with
  | zero =>
    intro source r level _ hf
    cases source with
    | nil => simp [record_loop, record_close]
    | cons c tl => simp at hf
  | succ fuel ih =>
    intro source r level hn hf
    cases source with
    | nil => simp [record_loop, record_close]
    | cons c tl =>
      simp only [record_loop, List.isEmpty_cons, Bool.false_eq_true, if_false]
      obtain ⟨hkex, hklen⟩ := parse_string_productive (c :: tl) "" level
      cases hk : parse_string (c :: tl) "" level with
      | error e => simp
      | undefined => simp
      | exhausted => exact absurd hk hkex
      | ok key s1 =>
        have h1 := hklen key s1 hk
        have h2 := strip_leading_ws_length_le s1
        simp only []
        cases hs1 : strip_leading_ws s1 with
        | nil => simp
        | cons c1 s2 =>
          rw [hs1] at h2
          simp only [List.length_cons] at h1 h2 hn hf
          simp only []
          by_cases hc1 : c1 = ':'
          · simp only [ne_eq, hc1, not_true_eq_false, if_false]
            obtain ⟨hex, hlen⟩ :=
              hself s2 (record.slot (record.try_emplace r key) key) (level + 1) (by omega)
            cases hv : self s2 (record.slot (record.try_emplace r key) key) (level + 1) with
            | error e => simp
            | undefined => simp
            | exhausted => exact absurd hv hex
            | ok v s3 =>
              have h3 := hlen v s3 hv
              have h4 := strip_leading_ws_length_le s3
              simp only []
              cases hs3 : strip_leading_ws s3 with
              | nil => simp
              | cons c3 s4 =>
                rw [hs3] at h4
                simp only [List.length_cons] at h4
                have h5 : (if c3 = ',' then strip_leading_ws s4 else c3 :: s4).length ≤
                    s4.length + 1 := by
                  by_cases hc3 : c3 = ','
                  · rw [if_pos hc3]
                    have := strip_leading_ws_length_le s4
                    omega
                  · rw [if_neg hc3]
                    simp
                simp only []
                cases hs5 : (if c3 = ',' then strip_leading_ws s4 else c3 :: s4) with
                | nil => simp
                | cons c5 s6 =>
                  rw [hs5] at h5
                  simp only [List.length_cons] at h5
                  simp only []
                  by_cases hc5 : c5 = '}'
                  · simp only [if_pos hc5, record_close, ne_eq, not_false_eq_true,
                      Run.ok.injEq, and_imp, true_and, reduceCtorEq, List.length_cons]
                    intro r' rest _ hrest
                    rw [← hrest]
                    omega
                  · simp only [if_neg hc5]
                    obtain ⟨hex', hlen'⟩ := ih (c5 :: s6) (record.assign
                      (record.try_emplace r key) key v) level
                      (by simp only [List.length_cons]; omega)
                      (by simp only [List.length_cons]; omega)
                    refine ⟨hex', fun r' rest h => ?_⟩
                    have := hlen' r' rest h
                    simp only [List.length_cons] at this ⊢
                    omega
          · simp [hc1]

theorem parse_record_productive (n : Nat) (self : self_type) (hself : productive n self)
    (source : List Char) (r : record) (level : Nat) (hn : source.length ≤ n) :
    parse_record self source r level ≠ Run.exhausted ∧
      ∀ r' rest, parse_record self source r level = Run.ok r' rest →
        rest.length ≤ source.length := by
  have h0 := strip_leading_ws_length_le source
  unfold parse_record
  cases hs : strip_leading_ws source with
  | nil => simp
  | cons c rest =>
    rw [hs] at h0
    simp only [List.length_cons] at h0
    simp only []
    by_cases hc : c = '{'
    · simp only [ne_eq, hc, not_true_eq_false, if_false]
      have h1 := strip_leading_ws_length_le rest
      cases hs1 : strip_leading_ws rest with
      | nil => simp
      | cons c1 rest1 =>
        rw [hs1] at h1
        simp only [List.length_cons] at h1
        simp only []
        by_cases hc1 : c1 = '}'
        · simp only [if_pos hc1, ne_eq, not_false_eq_true, Run.ok.injEq, and_imp, true_and,
            reduceCtorEq]
          intro r' rest' _ hrest
          rw [← hrest]
          omega
        · simp only [if_neg hc1]
          obtain ⟨hex, hlen⟩ := record_loop_productive n self hself (c1 :: rest1).length
            (c1 :: rest1) r level (by simp only [List.length_cons]; omega) (Nat.le_refl _)
          refine ⟨hex, fun r' rest' h => ?_⟩
          have := hlen r' rest' h
          simp only [List.length_cons] at this
          omega
    · simp [hc]

theorem run_map_exhausted {α β : Type} (f : α → β) (x : Run α)
    (h : x.map f = Run.exhausted) : x = Run.exhausted := by
  cases x with
  | ok a s => simp [Run.map] at h
  | error e => simp [Run.map] at h
  | undefined => simp [Run.map] at h
  | exhausted => rfl

theorem parse_value_productive (P : Platform) (n : Nat) (self : self_type)
    (hself : productive n self) : productive (n + 1) (parse_value P self) := by
  intro source out level hn
  have h0 := strip_leading_ws_length_le source
  unfold parse_value
  cases hs : strip_leading_ws source with
  | nil => simp
  | cons c rest =>
    rw [hs] at h0
    have hcn : (c :: rest).length ≤ n := by omega
    simp only []
    by_cases h1 : c = '{'
    · simp only [if_pos h1]
      obtain ⟨hex, hlen⟩ := parse_record_productive n self hself (c :: rest) [] level hcn
      refine ⟨fun h => hex (run_map_exhausted _ _ h), fun v rest' h => ?_⟩
      obtain ⟨r', hr', _⟩ := run_map_ok _ _ _ _ h
      have := hlen r' rest' hr'
      omega
    · simp only [if_neg h1]
      by_cases h2 : c = '['
      · simp only [if_pos h2]
        obtain ⟨hex, hlen⟩ := parse_list_productive n self hself (c :: rest) [] level hcn
        refine ⟨fun h => hex (run_map_exhausted _ _ h), fun v rest' h => ?_⟩
        obtain ⟨l', hl', _⟩ := run_map_ok _ _ _ _ h
        have := hlen l' rest' hl'
        omega
      · simp only [if_neg h2]
        by_cases h3 : c = '"'
        · simp only [if_pos h3]
          obtain ⟨hex, hlen⟩ := parse_string_productive (c :: rest) "" level
          refine ⟨fun h => hex (run_map_exhausted _ _ h), fun v rest' h => ?_⟩
          obtain ⟨s', hs', _⟩ := run_map_ok _ _ _ _ h
          have := hlen s' rest' hs'
          omega
        · simp only [if_neg h3, parse_int64, Option.isSome_some, if_true, ne_eq,
            not_false_eq_true, Run.ok.injEq, and_imp, true_and, reduceCtorEq]
          intro v rest' _ hrest
          rw [← hrest, List.length_drop]
          omega

theorem parser_productive (P : Platform) : ∀ n, productive n (parser P n) := by
  intro n
  induction n with
  | zero => intro source out level h; omega
  | succ n ih => exact parse_value_productive P n (parser P n) ih

theorem list_loop_agree (n : Nat) (self self' : self_type) (hself : productive n self)
    (hag : agree n self self') :
    ∀ (fuel : Nat) (source : List Char) (l : list) (level : Nat), source.length < n →
      list_loop self fuel source l level = list_loop self' fuel source l level := by
  intro fuel
  induction fuel with
  | zero =>
    intro source l level _
    cases source with
    | nil => simp [list_loop]
    | cons c tl => simp [list_loop]
  | succ fuel ih =>
    intro source l level hn
    cases source with
    | nil => simp [list_loop]
    | cons c tl =>
      simp only [list_loop, List.isEmpty_cons, Bool.false_eq_true, if_false]
      rw [← hag (c :: tl) value.null (level + 1) hn]
      obtain ⟨_, hlen⟩ := hself (c :: tl) value.null (level + 1) hn
      cases hs : self (c :: tl) value.null (level + 1) with
      | error e => rfl
      | undefined => rfl
      | exhausted => rfl
      | ok v s1 =>
        have h1 := hlen v s1 hs
        have h2 := strip_leading_ws_length_le s1
        simp only []
        cases hs1 : strip_leading_ws s1 with
        | nil => rfl
        | cons c1 s2 =>
          rw [hs1] at h2
          simp only [List.length_cons] at h1 h2 hn
          simp only []
          have h3 := strip_leading_ws_length_le s2
          rw [ih (strip_leading_ws s2) (l ++ [v]) level (by omega)]

theorem parse_list_agree (n : Nat) (self self' : self_type) (hself : productive n self)
    (hag : agree n self self') (source : List Char) (l : list) (level : Nat)
    (hn : source.length ≤ n) :
    parse_list self source l level = parse_list self' source l level := by
  have h0 := strip_leading_ws_length_le source
  unfold parse_list
  cases hs : strip_leading_ws source with
  | nil => rfl
  | cons c rest =>
    rw [hs] at h0
    simp only [List.length_cons] at h0
    have h1 := strip_leading_ws_length_le rest
    simp only []
    cases hs1 : strip_leading_ws rest with
    | nil => rfl
    | cons c1 rest1 =>
      rw [hs1] at h1
      simp only []
      rw [list_loop_agree n self self' hself hag _ (c1 :: rest1) l level (by omega)]

theorem record_loop_agree (n : Nat) (self self' : self_type) (hself : productive n self)
    (hag : agree n self self') :
    ∀ (fuel : Nat) (source : List Char) (r : record) (level : Nat), source.length < n →
      record_loop self fuel source r level = record_loop self' fuel source r level := by
  intro fuel
  induction fuel with
  | zero =>
    intro source r level _
    cases source with
    | nil => simp [record_loop]
    | cons c tl => simp [record_loop]
  | succ fuel ih =>
    intro source r level hn
    cases source with
    | nil => simp [record_loop]
    | cons c tl =>
      simp only [record_loop, List.isEmpty_cons, Bool.false_eq_true, if_false]
      obtain ⟨_, hklen⟩ := parse_string_productive (c :: tl) "" level
      cases hk : parse_string (c :: tl) "" level with
      | error e => rfl
      | undefined => rfl
      | exhausted => rfl
      | ok key s1 =>
        have h1 := hklen key s1 hk
        have h2 := strip_leading_ws_length_le s1
        simp only []
        cases hs1 : strip_leading_ws s1 with
        | nil => rfl
        | cons c1 s2 =>
          rw [hs1] at h2
          simp only [List.length_cons] at h1 h2 hn
          simp only []
          by_cases hc1 : c1 = ':'
          · simp only [ne_eq, hc1, not_true_eq_false, if_false]
            rw [← hag s2 (record.slot (record.try_emplace r key) key) (level + 1) (by omega)]
            obtain ⟨_, hlen⟩ :=
              hself s2 (record.slot (record.try_emplace r key) key) (level + 1) (by omega)
            cases hv : self s2 (record.slot (record.try_emplace r key) key) (level + 1) with
            | error e => rfl
            | undefined => rfl
            | exhausted => rfl
            | ok v s3 =>
              have h3 := hlen v s3 hv
              have h4 := strip_leading_ws_length_le s3
              simp only []
              cases hs3 : strip_leading_ws s3 with
              | nil => rfl
              | cons c3 s4 =>
                rw [hs3] at h4
                simp only [List.length_cons] at h4
                have h5 : (if c3 = ',' then strip_leading_ws s4 else c3 :: s4).length ≤
                    s4.length + 1 := by
                  by_cases hc3 : c3 = ','
                  · rw [if_pos hc3]
                    have := strip_leading_ws_length_le s4
                    omega
                  · rw [if_neg hc3]
                    simp
                simp only []
                cases hs5 : (if c3 = ',' then strip_leading_ws s4 else c3 :: s4) with
                | nil => rfl
                | cons c5 s6 =>
                  rw [hs5] at h5
                  simp only [List.length_cons] at h5
                  simp only []
                  rw [ih (c5 :: s6) _ level (by simp only [List.length_cons]; omega)]
          · simp only [ne_eq, hc1, not_false_eq_true, if_true]

theorem parse_record_agree (n : Nat) (self self' : self_type) (hself : productive n self)
    (hag : agree n self self') (source : List Char) (r : record) (level : Nat)
    (hn : source.length ≤ n) :
    parse_record self source r level = parse_record self' source r level := by
  have h0 := strip_leading_ws_length_le source
  unfold parse_record
  cases hs : strip_leading_ws source with
  | nil => rfl
  | cons c rest =>
    rw [hs] at h0
    simp only [List.length_cons] at h0
    have h1 := strip_leading_ws_length_le rest
    simp only []
    cases hs1 : strip_leading_ws rest with
    | nil => rfl
    | cons c1 rest1 =>
      rw [hs1] at h1
      simp only []
      rw [record_loop_agree n self self' hself hag _ (c1 :: rest1) r level (by omega)]

theorem parse_value_agree (P : Platform) (n : Nat) (self self' : self_type)
    (hself : productive n self) (hag : agree n self self') :
    agree (n + 1) (parse_value P self) (parse_value P self') := by
  intro source out level hn
  have h0 := strip_leading_ws_length_le source
  unfold parse_value
  cases hs : strip_leading_ws source with
  | nil => rfl
  | cons c rest =>
    rw [hs] at h0
    have hcn : (c :: rest).length ≤ n := by omega
    simp only []
    rw [parse_record_agree n self self' hself hag (c :: rest) [] level hcn,
      parse_list_agree n self self' hself hag (c :: rest) [] level hcn]

theorem parser_agree (P : Platform) : ∀ n m, n ≤ m → agree n (parser P n) (parser P m) := by
  intro n
  induction n with
  | zero => intro m _ source out level h; omega
  | succ n ih =>
    intro m hm
    obtain ⟨m', rfl⟩ : ∃ m', m = m' + 1 := ⟨m - 1, by omega⟩
    exact parse_value_agree P n (parser P n) (parser P m') (parser_productive P n)
      (ih m' (by omega))

theorem parse_string_not_undefined (source : List Char) (s : String) (level : Nat) :
    parse_string source s level ≠ Run.undefined := by
  unfold parse_string
  cases string_end source source.length 1 with
  | none => simp
  | some o =>
    cases o with
    | none => simp
    | some e =>
      simp only []
      split <;> simp

/-- The dispatch on a span that opens neither a list nor a mapping evaluates no
`front()`: it does not end in undefined behaviour. -/
theorem parse_value_not_undefined (P : Platform) (self : self_type) (source : List Char)
    (out : value) (level : Nat) (h1 : (strip_leading_ws source).head? ≠ some '[')
    (h2 : (strip_leading_ws source).head? ≠ some '{') :
    parse_value P self source out level ≠ Run.undefined := by
  unfold parse_value
  cases hs : strip_leading_ws source with
  | nil => simp
  | cons c rest =>
    rw [hs] at h1 h2
    simp only [List.head?_cons, ne_eq, Option.some.injEq] at h1 h2
    simp only [if_neg h2, if_neg h1]
    by_cases h3 : c = '"'
    · simp only [if_pos h3]
      cases hp : parse_string (c :: rest) "" level with
      | ok key s => simp [Run.map]
      | error e => simp [Run.map]
      | undefined => exact absurd hp (parse_string_not_undefined _ _ _)
      | exhausted => simp [Run.map]
    · simp only [if_neg h3, parse_int64, Option.isSome_some, if_true]
      simp

/-- C16: `json::parse` is not a total function.  On `[1,` the list loop ends
by its condition on an empty span and the run stops in
`assert(source.front() == ']')`, so neither a value nor an error is returned.
What the claim says of the recursion holds on every input: the nesting budget
`source.length + 1` and the loop budgets of the embedding never run out; an
input that opens neither a list nor a mapping returns a value or an error; a
span handed back by the value parser is never longer than the span it was
given; any larger budget gives the same run; the list loop enters its next
iteration on a span strictly shorter than the one it started the iteration on,
even when the element took no character, because of the comma; and the mapping
loop takes at least the two characters of a key off the span in every
iteration. -/
theorem parse_total_except_front_of_empty (P : Platform) :
    (parse P "[1,".toList = Outcome.undefined ∧
      (∀ v, parse P "[1,".toList ≠ Outcome.value v) ∧
      (∀ e, parse P "[1,".toList ≠ Outcome.error e)) ∧
    ∀ source : List Char,
      parse P source ≠ Outcome.exhausted ∧
      ((strip_leading_ws source).head? ≠ some '[' →
        (strip_leading_ws source).head? ≠ some '{' →
          (∃ v, parse P source = Outcome.value v) ∨ ∃ e, parse P source = Outcome.error e) ∧
      (∀ n out level v rest, source.length < n →
        parser P n source out level = Run.ok v rest → rest.length ≤ source.length) ∧
      (∀ n out level, source.length < n →
        parser P n source out level = parser P (source.length + 1) source out level) ∧
      (∀ n level v s1 rest, source.length < n →
        parser P n source value.null (level + 1) = Run.ok v s1 →
        strip_leading_ws s1 = ',' :: rest → (strip_leading_ws rest).length < source.length) ∧
      (∀ level key s1, parse_string source "" level = Run.ok key s1 →
        s1.length + 2 ≤ source.length) := by
  have hbug : parse P "[1,".toList = Outcome.undefined := rfl
  refine ⟨⟨hbug, fun v h => ?_, fun e h => ?_⟩, fun source => ⟨?_, ?_, ?_, ?_, ?_, ?_⟩⟩
  · rw [hbug] at h
    cases h
  · rw [hbug] at h
    cases h
  · obtain ⟨hex, _⟩ := parser_productive P (source.length + 1) source value.null 0
      (Nat.lt_succ_self _)
    unfold parse
    cases hrun : parser P (source.length + 1) source value.null 0 with
    | error e => simp
    | undefined => simp
    | exhausted => exact absurd hrun hex
    | ok result rest =>
      simp only []
      cases hs : strip_leading_ws rest with
      | nil => simp
      | cons d tl => simp
  · intro h1 h2
    obtain ⟨hex, _⟩ := parser_productive P (source.length + 1) source value.null 0
      (Nat.lt_succ_self _)
    have hun : parser P (source.length + 1) source value.null 0 ≠ Run.undefined :=
      parse_value_not_undefined P (parser P source.length) source value.null 0 h1 h2
    unfold parse
    cases hrun : parser P (source.length + 1) source value.null 0 with
    | error e => exact Or.inr ⟨e, rfl⟩
    | undefined => exact absurd hrun hun
    | exhausted => exact absurd hrun hex
    | ok result rest =>
      simp only []
      cases hs : strip_leading_ws rest with
      | nil => exact Or.inl ⟨result, rfl⟩
      | cons d tl => exact Or.inr ⟨_, rfl⟩
  · intro n out level v rest hn h
    exact (parser_productive P n source out level hn).2 v rest h
  · intro n out level hn
    exact (parser_agree P (source.length + 1) n (by omega) source out level
      (Nat.lt_succ_self _)).symm
  · intro n level v s1 rest hn h hs
    have h1 := (parser_productive P n source value.null (level + 1) hn).2 v s1 h
    have h2 := strip_leading_ws_length_le s1
    have h3 := strip_leading_ws_length_le rest
    rw [hs] at h2
    simp only [List.length_cons] at h2
    omega
  · intro level key s1 h
    exact (parse_string_productive source "" level).2 key s1 h

/-! ## A failing key in any iteration of the record loop -/

theorem next_head_step (self : self_type) (source : List Char) (r : record) (L : Nat)
    (s1 : List Char) (r1 : record) (h : next_head self source r L = some (s1, r1)) :
    source ≠ [] ∧ s1 ≠ [] ∧
      ∀ fuel, record_loop self (fuel + 1) source r L = record_loop self fuel s1 r1 L := by
  cases source with
  | nil => simp [next_head, parse_string, string_end] at h
  | cons c tl =>
    refine ⟨by simp, ?_⟩
    unfold next_head at h
    simp only [record_loop, List.isEmpty_cons, Bool.false_eq_true, if_false]
    cases hk : parse_string (c :: tl) "" L with
    | error e => simp [hk] at h
    | undefined => simp [hk] at h
    | exhausted => simp [hk] at h
    | ok key s =>
      simp only [hk] at h ⊢
      cases hs : strip_leading_ws s with
      | nil => simp [hs] at h
      | cons c1 s2 =>
        simp only [hs] at h ⊢
        by_cases hc1 : c1 = ':'
        · subst hc1
          simp only [ne_eq, not_true_eq_false, if_false] at h ⊢
          cases hv : self s2 (record.slot (record.try_emplace r key) key) (L + 1) with
          | error e => simp [hv] at h
          | undefined => simp [hv] at h
          | exhausted => simp [hv] at h
          | ok v s3 =>
            simp only [hv] at h ⊢
            cases hs3 : strip_leading_ws s3 with
            | nil => simp [hs3] at h
            | cons c3 s4 =>
              simp only [hs3] at h ⊢
              cases hs5 : (if c3 = ',' then strip_leading_ws s4 else c3 :: s4) with
              | nil => simp [hs5] at h
              | cons c5 s6 =>
                simp only [hs5] at h ⊢
                by_cases hc5 : c5 = '}'
                · simp [hc5] at h
                · simp only [if_neg hc5, Option.some.injEq, Prod.mk.injEq] at h ⊢
                  obtain ⟨h1, h2⟩ := h
                  subst h1
                  subst h2
                  exact ⟨by simp, fun _ => rfl⟩
        · simp [hc1] at h

theorem next_head_length (n : Nat) (self : self_type) (hself : productive n self)
    (source : List Char) (r : record) (L : Nat) (s1 : List Char) (r1 : record)
    (hn : source.length < n) (h : next_head self source r L = some (s1, r1)) :
    s1.length + 2 ≤ source.length := by
  unfold next_head at h
  obtain ⟨_, hklen⟩ := parse_string_productive source "" L
  cases hk : parse_string source "" L with
  | error e => simp [hk] at h
  | undefined => simp [hk] at h
  | exhausted => simp [hk] at h
  | ok key s =>
    have h1 := hklen key s hk
    have h2 := strip_leading_ws_length_le s
    simp only [hk] at h
    cases hs : strip_leading_ws s with
    | nil => simp [hs] at h
    | cons c1 s2 =>
      rw [hs] at h2
      simp only [List.length_cons] at h2
      simp only [hs] at h
      by_cases hc1 : c1 = ':'
      · subst hc1
        simp only [ne_eq, not_true_eq_false, if_false] at h
        obtain ⟨_, hlen⟩ :=
          hself s2 (record.slot (record.try_emplace r key) key) (L + 1) (by omega)
        cases hv : self s2 (record.slot (record.try_emplace r key) key) (L + 1) with
        | error e => simp [hv] at h
        | undefined => simp [hv] at h
        | exhausted => simp [hv] at h
        | ok v s3 =>
          have h3 := hlen v s3 hv
          have h4 := strip_leading_ws_length_le s3
          simp only [hv] at h
          cases hs3 : strip_leading_ws s3 with
          | nil => simp [hs3] at h
          | cons c3 s4 =>
            rw [hs3] at h4
            simp only [List.length_cons] at h4
            have h5 : (if c3 = ',' then strip_leading_ws s4 else c3 :: s4).length ≤
                s4.length + 1 := by
              by_cases hc3 : c3 = ','
              · rw [if_pos hc3]
                have := strip_leading_ws_length_le s4
                omega
              · rw [if_neg hc3]
                simp
            simp only [hs3] at h
            cases hs5 : (if c3 = ',' then strip_leading_ws s4 else c3 :: s4) with
            | nil => simp [hs5] at h
            | cons c5 s6 =>
              rw [hs5] at h5
              simp only [hs5] at h
              by_cases hc5 : c5 = '}'
              · simp [hc5] at h
              · simp only [if_neg hc5, Option.some.injEq, Prod.mk.injEq] at h
                rw [← h.1]
                omega
      · simp [hc1] at h

theorem head_after_loop (n : Nat) (self : self_type) (hself : productive n self) (L : Nat) :
    ∀ (k : Nat) (source : List Char) (r : record) (s : List Char) (r' : record),
      source ≠ [] → source.length < n → head_after self L k source r = some (s, r') →
      s ≠ [] ∧ s.length + 2 * k ≤ source.length ∧
        ∀ fuel, record_loop self (fuel + k) source r L = record_loop self fuel s r' L := by
  intro k
  induction k with
  | zero =>
    intro source r s r' hne _ h
    simp only [head_after, Option.some.injEq, Prod.mk.injEq] at h
    obtain ⟨h1, h2⟩ := h
    subst h1
    subst h2
    exact ⟨hne, by omega, fun _ => rfl⟩
  | succ k ih =>
    intro source r s r' _ hn h
    simp only [head_after] at h
    cases hnh : next_head self source r L with
    | none => simp [hnh] at h
    | some p =>
      obtain ⟨s1, r1⟩ := p
      simp only [hnh] at h
      obtain ⟨_, hs1, hstep⟩ := next_head_step self source r L s1 r1 hnh
      have hlen := next_head_length n self hself source r L s1 r1 hn hnh
      obtain ⟨hs, hl, hloop⟩ := ih s1 r1 s r' hs1 (by omega) h
      refine ⟨hs, by omega, fun fuel => ?_⟩
      rw [show fuel + (k + 1) = (fuel + k) + 1 by omega, hstep (fuel + k), hloop fuel]

/-- C13: in a mapping parsed at level `L` by the record lambda, let the string
lambda fail on the key at the head of the loop after any number `k` of
complete iterations.  Then the record lambda returns the error of level `L`
whose message is "failed to parse key: " followed by the message of the string
lambda, and `L` is also the level the failure of the string lambda carried.
Here `self` is any value parser that terminates and hands back no longer a
span than it got, as `parser` does. -/
theorem key_failure_rewrapped (n : Nat) (self : self_type) (hself : productive n self)
    (source : List Char) (r : record) (L k : Nat) (rest : List Char) (c : Char)
    (body s : List Char) (r' : record) (em : parse_error) (hn : source.length ≤ n)
    (hopen : strip_leading_ws source = '{' :: rest)
    (hbody : strip_leading_ws rest = c :: body) (hc : c ≠ '}')
    (hhead : head_after self L k (c :: body) r = some (s, r'))
    (hkey : parse_string s "" L = Run.error em) :
    em.level = L ∧
      parse_record self source r L =
        Run.error { level := L, message := "failed to parse key: " ++ em.message } := by
  have h0 := strip_leading_ws_length_le source
  have h1 := strip_leading_ws_length_le rest
  rw [hopen] at h0
  rw [hbody] at h1
  simp only [List.length_cons] at h0 h1
  obtain ⟨hs, hl, hloop⟩ := head_after_loop n self hself L k (c :: body) r s r' (by simp)
    (by simp only [List.length_cons]; omega) hhead
  have hs1 : 1 ≤ s.length := List.length_pos.mpr hs
  obtain ⟨f, hf⟩ : ∃ f, (c :: body).length = (f + 1) + k := by
    simp only [List.length_cons] at hl ⊢
    exact ⟨body.length - k, by omega⟩
  obtain ⟨hlev, hfail⟩ := record_loop_key_failure self f s r' L em hs hkey
  refine ⟨hlev, ?_⟩
  unfold parse_record
  simp only [hopen, ne_eq, not_true_eq_false, if_false, hbody, if_neg hc]
  rw [hf, hloop (f + 1), hfail]

/-- C13 at `{"a` and `[{"a`, where the first key fails, and at `{"a":1,"b` and
`[{"a":1,"b`, where the second key fails after one complete iteration: the
level is that of the mapping, 0 or 1. -/
theorem key_failure_rewrapped_witness :
    parse Platform.gcc "\x7b\"a".toList =
        Outcome.error { level := 0, message := "failed to parse key: Expected string to end" } ∧
      parse Platform.gcc "[\x7b\"a".toList =
        Outcome.error { level := 1, message := "failed to parse key: Expected string to end" } ∧
      parse Platform.gcc "\x7b\"a\":1,\"b".toList =
        Outcome.error { level := 0, message := "failed to parse key: Expected string to end" } ∧
      parse Platform.gcc "[\x7b\"a\":1,\"b".toList =
        Outcome.error { level := 1, message := "failed to parse key: Expected string to end" } ∧
      parse_record (parser Platform.gcc 9) "\x7b\"a\":1,\"b".toList [] 1 =
        Run.error { level := 1, message := "failed to parse key: Expected string to end" } :=
  ⟨rfl, rfl, rfl, rfl,
    (key_failure_rewrapped 9 (parser Platform.gcc 9) (parser_productive Platform.gcc 9)
      "\x7b\"a\":1,\"b".toList [] 1 1 "\"a\":1,\"b".toList '"' "a\":1,\"b".toList
      "\"b".toList [("a", value.int64 1)]
      { level := 1, message := "Expected string to end" } (by decide) rfl rfl (by decide)
      rfl rfl).2⟩

/-! ## Empty element positions -/

theorem no_literal_start (c : Char) (tl : List Char) (hm : c ≠ '-') (hd : c.isDigit = false) :
    ∀ neg ds rest, ds ≠ [] → (∀ d ∈ ds, d.isDigit = true) →
      c :: tl ≠ int_literal neg ds ++ rest := by
  intro neg ds rest hne hds h
  obtain ⟨c', tail', hc', hcp⟩ := int_literal_head neg ds rest hne hds
  rw [hc'] at h
  simp only [List.cons.injEq] at h
  rcases hcp with hcp | hcp
  · exact hm (h.1.trans hcp)
  · rw [← h.1, hd] at hcp
    exact absurd hcp (by decide)

/-- The dispatch on a span that starts with a comma or a closing square
bracket: the integer 0, nothing consumed. -/
theorem parse_value_empty_position (P : Platform) (self : self_type) (c : Char)
    (tl : List Char) (out : value) (level : Nat) (hc : c = ',' ∨ c = ']') :
    parse_value P self (c :: tl) out level = Run.ok (value.int64 0) (c :: tl) := by
  have hfacts : c ∉ whitespace ∧ c ≠ '{' ∧ c ≠ '[' ∧ c ≠ '"' ∧ c ≠ '-' ∧ c.isDigit = false := by
    rcases hc with rfl | rfl <;> decide
  obtain ⟨hws, h1, h2, h3, hm, hd⟩ := hfacts
  rw [parse_value_scalar P self c tl out level hws h1 h2 h3,
    from_chars_int64_no_match (c :: tl) 0 (no_literal_start c tl hm hd)]
  rfl

theorem join_with_mem_length (sep : List Char) :
    ∀ items : List (List Char), ∀ x ∈ items, x.length ≤ (join_with sep items).length := by
  intro items
  induction items with
  | nil => intro x hx; simp at hx
  | cons y items ih =>
    intro x hx
    cases items with
    | nil =>
      simp only [List.mem_singleton] at hx
      subst hx
      simp [join_with]
    | cons z items =>
      simp only [join_with, List.length_append]
      rcases List.mem_cons.mp hx with rfl | hx
      · omega
      · have := ih x hx
        omega

/-- The decimal rendering of an integer in the range of int64 is a value text
for that integer. -/
theorem value_text_decimal (P : Platform) (n : Int)
    (hrange : -(2 : Int) ^ 63 ≤ n ∧ n < (2 : Int) ^ 63) :
    value_text P (decimal n) (value.int64 n) := by
  intro k level hk
  obtain ⟨m, rfl⟩ : ∃ m, k = m + 1 := ⟨k - 1, by omega⟩
  exact parses_as_decimal P (parser P m) level n hrange

theorem int_literal_first (neg : Bool) (ds : List Char) (hne : ds ≠ [])
    (hd : ∀ c ∈ ds, c.isDigit = true) :
    ∃ c tl, int_literal neg ds = c :: tl ∧ c ∉ whitespace ∧ c ≠ ']' := by
  obtain ⟨c, tl, hc, hcp⟩ := int_literal_head neg ds [] hne hd
  rw [List.append_nil] at hc
  refine ⟨c, tl, hc, (literal_head_plain hcp).1, ?_⟩
  rcases hcp with rfl | hcd
  · decide
  · rintro rfl
    exact absurd hcd (by decide)

/-- Any integer literal in the range of int64, canonical or not, is a value
text for the integer it denotes. -/
theorem value_text_literal (P : Platform) (neg : Bool) (ds : List Char) (hne : ds ≠ [])
    (hd : ∀ c ∈ ds, c.isDigit = true)
    (hrange : -(2 : Int) ^ 63 ≤ literal_value neg ds ∧ literal_value neg ds < (2 : Int) ^ 63) :
    value_text P (int_literal neg ds) (value.int64 (literal_value neg ds)) := by
  intro k level hk
  obtain ⟨m, rfl⟩ : ∃ m, k = m + 1 := ⟨k - 1, by omega⟩
  refine ⟨int_literal_first neg ds hne hd, ?_⟩
  intro rest out hr
  exact parse_value_int_literal P (parser P m) neg ds rest out level hne hd hr hrange

/-- An integer literal outside the range of int64 is a value text for the
integer 0. -/
theorem value_text_out_of_range (P : Platform) (neg : Bool) (ds : List Char) (hne : ds ≠ [])
    (hd : ∀ c ∈ ds, c.isDigit = true)
    (hout : ¬ (-(2 : Int) ^ 63 ≤ literal_value neg ds ∧ literal_value neg ds < (2 : Int) ^ 63)) :
    value_text P (int_literal neg ds) (value.int64 0) := by
  intro k level hk
  obtain ⟨m, rfl⟩ : ∃ m, k = m + 1 := ⟨k - 1, by omega⟩
  refine ⟨int_literal_first neg ds hne hd, ?_⟩
  intro rest out hr
  obtain ⟨c, tail, hc, hcp⟩ := int_literal_head neg ds rest hne hd
  obtain ⟨hws, h1, h2, h3⟩ := literal_head_plain hcp
  have hfc := from_chars_int64_out_of_range neg ds rest 0 hne hd hr hout
  rw [hc] at hfc
  show parse_value P (parser P m) (int_literal neg ds ++ rest) out level = _
  rw [hc, parse_value_scalar P _ c tail out level hws h1 h2 h3, hfc, ← hc]
  simp

/-- A string without quotes and backslashes between double quotes is a value
text for that string. -/
theorem value_text_string (P : Platform) (key : List Char)
    (hplain : ∀ c ∈ key, c ≠ '"' ∧ c ≠ '\\') :
    value_text P ('"' :: key ++ ['"']) (value.string (String.mk key)) := by
  intro k level hk
  obtain ⟨m, rfl⟩ : ∃ m, k = m + 1 := ⟨k - 1, by omega⟩
  refine ⟨⟨'"', key ++ ['"'], rfl, by decide, by decide⟩, ?_⟩
  intro rest out _
  have htext : ('"' :: key ++ ['"']) ++ rest = '"' :: key ++ '"' :: rest := by simp
  show parse_value P (parser P m) _ out level = _
  rw [htext, parse_value_string P _ ('"' :: key ++ '"' :: rest) out level rfl,
    parse_string_plain key rest "" level hplain]
  rfl

/-- The text of a list of value texts is a value text for the list of their
values. -/
theorem value_text_list (P : Platform) (items : List (List Char × value))
    (hall : ∀ it ∈ items, value_text P it.1 it.2) :
    value_text P (list_text (items.map Prod.fst)) (value.list (items.map Prod.snd)) := by
  intro k level hk
  obtain ⟨m, rfl⟩ : ∃ m, k = m + 1 := ⟨k - 1, by omega⟩
  refine parses_as_list P (parser P m) level items ?_
  intro it hit
  refine hall it hit m (level + 1) ?_
  have h1 := join_with_mem_length [',', ' '] (items.map Prod.fst) it.1
    (List.mem_map_of_mem _ hit)
  simp only [list_text, List.length_cons, List.length_append, List.length_singleton] at hk
  omega

/-- The text of a mapping with plain keys and value texts is a value text for
the mapping the writes of its entries build. -/
theorem value_text_record (P : Platform) (entries : List (List Char × List Char × value))
    (hall : ∀ e ∈ entries, (∀ c ∈ e.1, c ≠ '"' ∧ c ≠ '\\') ∧ value_text P e.2.1 e.2.2) :
    value_text P (record_text (entries.map (fun e => (e.1, e.2.1))))
      (value.record (entries.foldl (fun (r : record) e => r.write (String.mk e.1, e.2.2)) [])) := by
  intro k level hk
  obtain ⟨m, rfl⟩ : ∃ m, k = m + 1 := ⟨k - 1, by omega⟩
  refine ⟨⟨'{', _, rfl, by decide, by decide⟩, ?_⟩
  intro rest out _
  have hk' : (record_text (entries.map (fun e => (e.1, e.2.1)))).length =
      (join_with [',', ' '] (entries.map (fun e => entry_text e.1 e.2.1))).length + 2 := by
    simp [record_text, List.map_map, Function.comp_def]
  obtain ⟨j, rfl⟩ : ∃ j, m = j + 1 := ⟨m - 1, by omega⟩
  have hrec := parse_record_text P (parser P j) level entries (fun e he => ⟨(hall e he).1, by
    refine (hall e he).2 (j + 1) (level + 1) ?_
    have h1 := join_with_mem_length [',', ' '] (entries.map (fun e => entry_text e.1 e.2.1))
      (entry_text e.1 e.2.1) (List.mem_map_of_mem (fun e => entry_text e.1 e.2.1) he)
    have h2 : e.2.1.length ≤ (entry_text e.1 e.2.1).length := by
      simp only [entry_text, List.length_cons, List.length_append]
      omega
    omega⟩) rest
  have htext : record_text (entries.map (fun e => (e.1, e.2.1))) ++ rest =
      '{' :: (join_with [',', ' '] (entries.map (fun e => entry_text e.1 e.2.1)) ++ '}' :: rest) := by
    simp [record_text, List.map_map, Function.comp_def]
  show parse_value P (parser P (j + 1)) _ out level = _
  rw [htext, parse_value_record, ← htext]
  show (parse_record (parse_value P (parser P j)) _ [] level).map value.record = _
  rw [hrec]
  rfl

/-- One element position in front of a comma or a closing bracket, as the list
loop meets it: the span is not empty, the dispatch yields the value of the
position, and the comma or bracket is what is left after whitespace. -/
theorem position_run (P : Platform) (self : self_type) (level : Nat)
    (p : List Char × Option (List Char × value) × List Char)
    (hw1 : ∀ c ∈ p.1, c ∈ whitespace) (hw2 : ∀ c ∈ p.2.2, c ∈ whitespace)
    (hcontent : ∀ tv, p.2.1 = some tv → parses_as (parse_value P self) level tv.1 tv.2)
    (c : Char) (tl : List Char) (hc : c = ',' ∨ c = ']') :
    strip_leading_ws (position_text p ++ c :: tl) ≠ [] ∧
      (c :: tl).length ≤ (strip_leading_ws (position_text p ++ c :: tl)).length ∧
      ∃ s', parse_value P self (strip_leading_ws (position_text p ++ c :: tl)) value.null level =
          Run.ok (position_value p) s' ∧ strip_leading_ws s' = c :: tl := by
  obtain ⟨w1, o, w2⟩ := p
  have hcw : c ∉ whitespace := by rcases hc with rfl | rfl <;> decide
  have hR : strip_leading_ws (w2 ++ c :: tl) = c :: tl := by
    rw [strip_leading_ws_append w2 _ hw2, strip_leading_ws_cons_other hcw]
  cases o with
  | none =>
    have hsrc : strip_leading_ws (position_text (w1, none, w2) ++ c :: tl) = c :: tl := by
      simp only [position_text, List.append_nil, List.append_assoc]
      rw [strip_leading_ws_append w1 _ hw1, hR]
    rw [hsrc]
    exact ⟨by simp, Nat.le_refl _, c :: tl,
      parse_value_empty_position P self c tl value.null level hc,
      strip_leading_ws_cons_other hcw tl⟩
  | some tv =>
    obtain ⟨t, v⟩ := tv
    obtain ⟨⟨d, dtl, hd, hdw, _⟩, hrun⟩ := hcontent (t, v) rfl
    simp only at hd hrun
    subst hd
    have hsrc : strip_leading_ws (position_text (w1, some (d :: dtl, v), w2) ++ c :: tl) =
        (d :: dtl) ++ (w2 ++ c :: tl) := by
      simp only [position_text, List.append_assoc]
      rw [strip_leading_ws_append w1 _ hw1, List.cons_append, strip_leading_ws_cons_other hdw]
    have hr : no_digit_ahead (w2 ++ c :: tl) := by
      intro x hx
      cases w2 with
      | nil =>
        simp only [List.nil_append, List.head?_cons, Option.some.injEq] at hx
        subst hx
        rcases hc with rfl | rfl <;> rfl
      | cons y w2' =>
        simp only [List.cons_append, List.head?_cons, Option.some.injEq] at hx
        subst hx
        rcases (mem_whitespace_iff y).mp (hw2 y (List.mem_cons_self y w2')) with
          rfl | rfl | rfl <;> rfl
    rw [hsrc]
    refine ⟨?_, ?_, w2 ++ c :: tl, hrun _ _ hr, hR⟩
    · simp
    · simp only [List.length_append, List.length_cons]
      omega

theorem join_comma_length (rest : List Char) :
    ∀ texts : List (List Char),
      texts.length ≤ (join_with [','] texts ++ ']' :: rest).length := by
  intro texts
  induction texts with
  | nil => simp
  | cons x texts ih =>
    cases texts with
    | nil =>
      simp only [join_with, List.length_append, List.length_cons, List.length_nil]
      omega
    | cons y texts =>
      simp only [join_with, List.length_append, List.length_cons, List.length_singleton,
        List.length_nil] at ih ⊢
      omega

theorem join_comma_cons (x : List Char) (texts : List (List Char)) (rest : List Char) :
    ∃ c tl, (c = ',' ∨ c = ']') ∧ join_with [','] (x :: texts) ++ ']' :: rest = x ++ c :: tl ∧
      texts.length + 1 ≤ (c :: tl).length ∧
      (texts = [] → c = ']' ∧ tl = rest) ∧
      (texts ≠ [] → c = ',' ∧ tl = join_with [','] texts ++ ']' :: rest) := by
  cases texts with
  | nil => exact ⟨']', rest, Or.inr rfl, by simp [join_with], by simp, fun _ => ⟨rfl, rfl⟩,
      fun h => absurd rfl h⟩
  | cons y texts =>
    refine ⟨',', join_with [','] (y :: texts) ++ ']' :: rest, Or.inl rfl,
      by simp [join_with], ?_, fun h => by simp at h, fun _ => ⟨rfl, rfl⟩⟩
    have := join_comma_length rest (y :: texts)
    simp only [List.length_cons] at this ⊢
    omega

theorem list_loop_positions (P : Platform) (self : self_type) (level : Nat) :
    ∀ ps : List (List Char × Option (List Char × value) × List Char), ps ≠ [] →
      (∀ p ∈ ps, (∀ c ∈ p.1, c ∈ whitespace) ∧ (∀ c ∈ p.2.2, c ∈ whitespace) ∧
        ∀ tv, p.2.1 = some tv → parses_as (parse_value P self) (level + 1) tv.1 tv.2) →
      ∀ (rest : List Char) (l : list) (fuel : Nat), ps.length ≤ fuel →
        list_loop (parse_value P self) fuel
            (strip_leading_ws (join_with [','] (ps.map position_text) ++ ']' :: rest)) l level =
          Run.ok (l ++ ps.map position_value) rest := by
  intro ps
  induction ps with
  | nil => intro h; exact absurd rfl h
  | cons p ps ih =>
    intro _ hall rest l fuel hfuel
    obtain ⟨f, rfl⟩ : ∃ f, fuel = f + 1 := ⟨fuel - 1, by simp at hfuel; omega⟩
    obtain ⟨c, tl, hc, hsrc, _, hlast, hmore⟩ :=
      join_comma_cons (position_text p) (ps.map position_text) rest
    obtain ⟨hw1, hw2, hcontent⟩ := hall p (List.mem_cons_self p ps)
    obtain ⟨hne, _, s', hrun, hs'⟩ :=
      position_run P self (level + 1) p hw1 hw2 hcontent c tl hc
    simp only [List.map_cons]
    rw [hsrc]
    cases ps with
    | nil =>
      obtain ⟨rfl, rfl⟩ := hlast rfl
      rw [list_loop_step_close (parse_value P self) f _ l level (position_value p) s' tl hne hrun
        hs']
      rfl
    | cons q ps =>
      obtain ⟨rfl, rfl⟩ := hmore (by simp)
      rw [list_loop_step_comma (parse_value P self) f _ l level (position_value p) s' _ hne hrun
        hs']
      have := ih (by simp) (fun x hx => hall x (List.mem_cons_of_mem p hx)) rest
        (l ++ [position_value p]) f (by simpa using hfuel)
      rw [this]
      simp

theorem position_head (p : List Char × Option (List Char × value) × List Char)
    (hw1 : ∀ c ∈ p.1, c ∈ whitespace) (hw2 : ∀ c ∈ p.2.2, c ∈ whitespace)
    (hcontent : ∀ tv, p.2.1 = some tv → ∃ x tail, tv.1 = x :: tail ∧ x ∉ whitespace ∧ x ≠ ']')
    (c : Char) (tl : List Char) (hc : c = ',' ∨ c = ']') (d : Char) (rest' : List Char)
    (h : strip_leading_ws (position_text p ++ c :: tl) = d :: rest') (hd : d = ']') :
    p.2.1 = none ∧ c = ']' := by
  obtain ⟨w1, o, w2⟩ := p
  have hcw : c ∉ whitespace := by rcases hc with rfl | rfl <;> decide
  cases o with
  | none =>
    simp only [position_text, List.append_nil, List.append_assoc] at h
    rw [strip_leading_ws_append w1 _ hw1, strip_leading_ws_append w2 _ hw2,
      strip_leading_ws_cons_other hcw] at h
    simp only [List.cons.injEq] at h
    exact ⟨rfl, h.1.trans hd⟩
  | some tv =>
    obtain ⟨t, v⟩ := tv
    obtain ⟨x, tail, hx, hxw, hxb⟩ := hcontent (t, v) rfl
    simp only at hx
    subst hx
    simp only [position_text, List.append_assoc] at h
    rw [strip_leading_ws_append w1 _ hw1, List.cons_append,
      strip_leading_ws_cons_other hxw] at h
    simp only [List.cons.injEq] at h
    exact absurd (h.1.trans hd) hxb

/-- A list text of element positions, seen from the dispatch two levels of
recursion above `self`: the positions are parsed by `parse_value P self` one
level deeper, and the list of their values comes back with the text consumed. -/
theorem parses_as_positions (P : Platform) (self : self_type) (level : Nat)
    (ps : List (List Char × Option (List Char × value) × List Char)) (hne : ps ≠ [])
    (hall : ∀ p ∈ ps, (∀ c ∈ p.1, c ∈ whitespace) ∧ (∀ c ∈ p.2.2, c ∈ whitespace) ∧
      ∀ tv, p.2.1 = some tv → parses_as (parse_value P self) (level + 1) tv.1 tv.2)
    (hfirst : ps.length = 1 → ∀ p ∈ ps, p.2.1 ≠ none) :
    parses_as (parse_value P (parse_value P self)) level (positions_text ps)
      (value.list (ps.map position_value)) := by
  refine ⟨⟨'[', _, rfl, by decide, by decide⟩, ?_⟩
  intro rest out _
  obtain ⟨p, ps', rfl⟩ := List.exists_cons_of_ne_nil hne
  obtain ⟨c, tl, hc, hsrc, hlen, hlast, _⟩ :=
    join_comma_cons (position_text p) (ps'.map position_text) rest
  obtain ⟨hw1, hw2, hcontent⟩ := hall p (List.mem_cons_self p ps')
  obtain ⟨hnil, hlen2, _⟩ := position_run P self (level + 1) p hw1 hw2 hcontent c tl hc
  obtain ⟨d, rest', hd⟩ := List.exists_cons_of_ne_nil hnil
  have hdb : d ≠ ']' := by
    intro hdb
    obtain ⟨hnone, hcb⟩ := position_head p hw1 hw2 (fun tv htv => (hcontent tv htv).1) c tl hc
      d rest' hd hdb
    have hps' : ps' = [] := by
      by_contra hne'
      have : ps'.map position_text ≠ [] := by simpa using hne'
      cases hps : ps'.map position_text with
      | nil => exact this hps
      | cons y ys =>
        rw [hps] at hsrc
        simp only [join_with, List.append_assoc, List.singleton_append, List.cons_append,
          List.append_cancel_left_eq, List.cons.injEq] at hsrc
        rw [hcb] at hsrc
        exact absurd hsrc.1 (by decide)
    exact hfirst (by rw [hps']; rfl) p (List.mem_cons_self p ps') hnone
  have hloop := list_loop_positions P self level (p :: ps') hne hall rest [] (d :: rest').length
    (by
      rw [← hd]
      simp only [List.length_map, List.length_cons] at hlen hlen2 ⊢
      omega)
  simp only [List.map_cons] at hloop
  rw [hsrc, hd] at hloop
  have htext : positions_text (p :: ps') ++ rest =
      '[' :: (join_with [','] ((p :: ps').map position_text) ++ ']' :: rest) := by
    simp [positions_text]
  rw [htext, parse_value_list]
  simp only [List.map_cons]
  rw [hsrc]
  unfold parse_list
  rw [strip_leading_ws_cons_other (by decide)]
  simp only [ne_eq, not_true_eq_false, if_false, hd, if_neg hdb]
  show (list_loop (parse_value P self) _ _ _ _).map value.list = _
  rw [hloop]
  rfl

theorem positions_text_length (ps : List (List Char × Option (List Char × value) × List Char))
    (p : List Char × Option (List Char × value) × List Char) (hp : p ∈ ps)
    (tv : List Char × value) (htv : p.2.1 = some tv) :
    tv.1.length + 2 ≤ (positions_text ps).length := by
  have h1 := join_with_mem_length [','] (ps.map position_text) (position_text p)
    (List.mem_map_of_mem _ hp)
  have h2 : tv.1.length ≤ (position_text p).length := by
    simp only [position_text, htv, List.length_append]
    omega
  simp only [positions_text, List.length_cons, List.length_append, List.length_singleton]
  omega

/-- C19, as the code has it: in a list text whose element positions hold a
value text or nothing, with any whitespace around them, every empty position is
accepted and holds the integer 0, the dispatch consuming nothing there,
provided the text is not just `[`, whitespace, `]`: a single position has to
hold a value.  The list text is a value text again, so the same holds of a
list at any depth of another list. -/
theorem parse_empty_positions (P : Platform)
    (ps : List (List Char × Option (List Char × value) × List Char))
    (hne : ps ≠ []) (hall : ∀ p ∈ ps, position_ok P p)
    (hfirst : ps.length = 1 → ∀ p ∈ ps, p.2.1 ≠ none) :
    (∀ (self : self_type) (c : Char) (tl : List Char) (out : value) (level : Nat),
      c = ',' ∨ c = ']' →
        parse_value P self (c :: tl) out level = Run.ok (value.int64 0) (c :: tl)) ∧
    value_text P (positions_text ps) (value.list (ps.map position_value)) ∧
    parse P (positions_text ps) = Outcome.value (value.list (ps.map position_value)) := by
  have hvt : value_text P (positions_text ps) (value.list (ps.map position_value)) := by
    intro n level hn
    obtain ⟨k, rfl⟩ : ∃ k, n = k + 2 := ⟨n - 2, by
      simp only [positions_text, List.length_cons, List.length_append,
        List.length_singleton] at hn
      omega⟩
    refine parses_as_positions P (parser P k) level ps hne ?_ hfirst
    intro p hp
    obtain ⟨hw1, hw2, hcontent⟩ := hall p hp
    refine ⟨hw1, hw2, ?_⟩
    intro tv htv
    rw [htv] at hcontent
    have hlen := positions_text_length ps p hp tv htv
    exact hcontent (k + 1) (level + 1) (by omega)
  refine ⟨parse_value_empty_position P, hvt, ?_⟩
  have hrun := (hvt ((positions_text ps).length + 1) 0 (Nat.lt_succ_self _)).2 [] value.null
    (by intro c hc; simp at hc)
  rw [List.append_nil] at hrun
  simp only [parse, hrun, strip_leading_ws]


theorem position_ok_empty (P : Platform) (w1 w2 : List Char) (h1 : ∀ c ∈ w1, c ∈ whitespace)
    (h2 : ∀ c ∈ w2, c ∈ whitespace) : position_ok P (w1, none, w2) :=
  ⟨h1, h2, trivial⟩

theorem position_ok_value (P : Platform) (w1 w2 : List Char) (text : List Char) (v : value)
    (h1 : ∀ c ∈ w1, c ∈ whitespace) (h2 : ∀ c ∈ w2, c ∈ whitespace)
    (h : value_text P text v) : position_ok P (w1, some (text, v), w2) :=
  ⟨h1, h2, h⟩

theorem forall_mem_pair {α : Type} (q : α → Prop) (a b : α) (ha : q a) (hb : q b) :
    ∀ p ∈ [a, b], q p :=
  List.forall_mem_cons.mpr ⟨ha, List.forall_mem_cons.mpr ⟨hb, fun _ h =>
    absurd h (List.not_mem_nil _)⟩⟩

/-- C19 at `[1,]`, `[,]` and `[ , 7 ,]`, at a string, an empty list, an empty
mapping and an integer out of range in front of the empty position, and at
`[[,],]`, where the list with empty positions is itself an element. -/
theorem parse_empty_positions_witness :
    parse Platform.gcc "[1,]".toList =
        Outcome.value (value.list [value.int64 1, value.int64 0]) ∧
      parse Platform.gcc "[,]".toList =
        Outcome.value (value.list [value.int64 0, value.int64 0]) ∧
      parse Platform.gcc "[ , 7 ,]".toList =
        Outcome.value (value.list [value.int64 0, value.int64 7, value.int64 0]) ∧
      parse Platform.gcc "[\"x\",]".toList =
        Outcome.value (value.list [value.string "x", value.int64 0]) ∧
      parse Platform.gcc "[[],]".toList =
        Outcome.value (value.list [value.list [], value.int64 0]) ∧
      parse Platform.gcc "[\x7b\x7d,]".toList =
        Outcome.value (value.list [value.record [], value.int64 0]) ∧
      parse Platform.gcc "[99999999999999999999,]".toList =
        Outcome.value (value.list [value.int64 0, value.int64 0]) ∧
      parse Platform.gcc "[[,],]".toList =
        Outcome.value (value.list [value.list [value.int64 0, value.int64 0], value.int64 0]) := by
  have hnone : position_ok Platform.gcc ([], none, []) :=
    position_ok_empty Platform.gcc [] [] (by decide) (by decide)
  have hlen : ∀ a b : List Char × Option (List Char × value) × List Char,
      [a, b].length = 1 → ∀ p ∈ [a, b], p.2.1 ≠ none := fun _ _ h => by
    simp only [List.length_cons, List.length_nil] at h
    omega
  refine ⟨?_, ?_, ?_, ?_, ?_, ?_, ?_, ?_⟩
  · exact (parse_empty_positions Platform.gcc
      [([], some ("1".toList, value.int64 1), []), ([], none, [])] (List.cons_ne_nil _ _)
      (forall_mem_pair _ _ _ (position_ok_value Platform.gcc [] [] _ _ (by decide) (by decide)
        (value_text_decimal Platform.gcc 1 (by decide))) hnone) (hlen _ _)).2.2
  · exact (parse_empty_positions Platform.gcc [([], none, []), ([], none, [])]
      (List.cons_ne_nil _ _) (forall_mem_pair _ _ _ hnone hnone) (hlen _ _)).2.2
  · exact (parse_empty_positions Platform.gcc
      [([' '], none, []), ([' '], some ("7".toList, value.int64 7), [' ']), ([], none, [])]
      (List.cons_ne_nil _ _)
      (List.forall_mem_cons.mpr ⟨position_ok_empty Platform.gcc [' '] [] (by decide) (by decide),
        forall_mem_pair _ _ _ (position_ok_value Platform.gcc [' '] [' '] _ _ (by decide)
          (by decide) (value_text_decimal Platform.gcc 7 (by decide))) hnone⟩)
      (fun h => absurd h (by decide))).2.2
  · exact (parse_empty_positions Platform.gcc
      [([], some ("\"x\"".toList, value.string "x"), []), ([], none, [])] (List.cons_ne_nil _ _)
      (forall_mem_pair _ _ _ (position_ok_value Platform.gcc [] [] _ _ (by decide) (by decide)
        (value_text_string Platform.gcc "x".toList (by decide))) hnone) (hlen _ _)).2.2
  · exact (parse_empty_positions Platform.gcc
      [([], some ("[]".toList, value.list []), []), ([], none, [])] (List.cons_ne_nil _ _)
      (forall_mem_pair _ _ _ (position_ok_value Platform.gcc [] [] _ _ (by decide) (by decide)
        (value_text_list Platform.gcc [] (fun _ h => absurd h (List.not_mem_nil _)))) hnone)
      (hlen _ _)).2.2
  · exact (parse_empty_positions Platform.gcc
      [([], some ("\x7b\x7d".toList, value.record []), []), ([], none, [])]
      (List.cons_ne_nil _ _)
      (forall_mem_pair _ _ _ (position_ok_value Platform.gcc [] [] _ _ (by decide) (by decide)
        (value_text_record Platform.gcc [] (fun _ h => absurd h (List.not_mem_nil _)))) hnone)
      (hlen _ _)).2.2
  · exact (parse_empty_positions Platform.gcc
      [([], some ("99999999999999999999".toList, value.int64 0), []), ([], none, [])]
      (List.cons_ne_nil _ _)
      (forall_mem_pair _ _ _ (position_ok_value Platform.gcc [] [] _ _ (by decide) (by decide)
        (value_text_out_of_range Platform.gcc false "99999999999999999999".toList (by decide)
          (by decide) (by decide))) hnone) (hlen _ _)).2.2
  · exact (parse_empty_positions Platform.gcc
      [([], some ("[,]".toList, value.list [value.int64 0, value.int64 0]), []), ([], none, [])]
      (List.cons_ne_nil _ _)
      (forall_mem_pair _ _ _ (position_ok_value Platform.gcc [] [] _ _ (by decide) (by decide)
        (parse_empty_positions Platform.gcc [([], none, []), ([], none, [])]
          (List.cons_ne_nil _ _) (forall_mem_pair _ _ _ hnone hnone) (hlen _ _)).2.1) hnone)
      (hlen _ _)).2.2

/-- C19 as stated fails at `[]` and at `[ ]`: nothing but whitespace stands
between `[` and the following `]`, yet the result holds no integer 0 there, it
is the empty list. -/
theorem parse_empty_brackets :
    parse Platform.gcc "[]".toList = Outcome.value (value.list []) ∧
      parse Platform.gcc "[ ]".toList = Outcome.value (value.list []) ∧
      parse Platform.gcc "[]".toList ≠ Outcome.value (value.list [value.int64 0]) ∧
      parse Platform.gcc "[ ]".toList ≠ Outcome.value (value.list [value.int64 0]) := by
  have h1 : parse Platform.gcc "[]".toList = Outcome.value (value.list []) := rfl
  have h2 : parse Platform.gcc "[ ]".toList = Outcome.value (value.list []) := rfl
  refine ⟨h1, h2, ?_, ?_⟩
  · rw [h1]
    simp
  · rw [h2]
    simp

end json
